import Mathlib

/-!
# minicoredumper: the dumper engine and the injector

A shallow embedding of the parts of `src/minicoredumper/corestripper.c` and
`src/coreinject/main.c` that the claims are about.

Conventions of the embedding.

* A binary file (core, binary dump, the streamed source core) is a `List Nat`
  of bytes; an unwritten region of a sparse file reads as zero.
* A text file (`symbol.map`) and a C string are a `List Char`; where the C code
  stops at a NUL terminator the embedding cuts the list there (`c_str`).
* Machine integers are `Nat`/`Int` with explicit wrap-around at `2 ^ 64`.
* `malloc` is taken to succeed, and the C library functions the code calls
  (`fgets`, `sscanf`, `fseek`, `fread`, `fwrite`, `fprintf`) are modelled by
  their glibc behaviour on Linux/x86-64.
-/

namespace Minicoredumper

/-! ## Files -/

/-- Positional write of `buf` at offset `pos`: what `fseek` + `fwrite`,
`lseek` + `write` and `pwrite` do to the contents of a regular file.  A gap
between the old end of file and `pos` becomes a hole that reads as zero; a
write of no bytes leaves the file as it is. -/
def file_write (f : List Nat) (pos : Nat) (buf : List Nat) : List Nat :=
  if buf = [] then f
  else f.take pos ++ List.replicate (pos - f.length) 0 ++ buf ++ f.drop (pos + buf.length)

/-- Positional read of `size` bytes at offset `pos`; short at end of file. -/
def file_read (f : List Nat) (pos size : Nat) : List Nat :=
  (f.drop pos).take size

/-- Bitwise or of two C integers (`a | b`), with the cases the program meets
(an operand 0, equal operands) spelled out. -/
def int_or (a b : Int) : Int :=
  if a = 0 then b else if b = 0 then a else if a = b then a else Int.lor a b

/-! ## C strings and the C library scanner -/

/-- The C string held in a character buffer: everything before the first NUL. -/
def c_str (buf : List Char) : List Char :=
  buf.takeWhile (fun c => c ≠ Char.ofNat 0)

/-- The `isspace` class of the C locale. -/
def isspace (c : Char) : Bool :=
  c = ' ' || c = '\t' || c = '\n' || c = '\r' || c = Char.ofNat 11 || c = Char.ofNat 12

/-- Skip leading white space, as a scanf conversion or a blank in the format does. -/
def skip_space : List Char → List Char
  | [] => []
  | c :: s => if isspace c then skip_space s else c :: s

/-- Value of a decimal digit. -/
def digit_val (c : Char) : Option Nat :=
  if '0' ≤ c ∧ c ≤ '9' then some (c.toNat - 48) else none

/-- Value of a hexadecimal digit. -/
def xdigit_val (c : Char) : Option Nat :=
  if '0' ≤ c ∧ c ≤ '9' then some (c.toNat - 48)
  else if 'a' ≤ c ∧ c ≤ 'f' then some (c.toNat - 87)
  else if 'A' ≤ c ∧ c ≤ 'F' then some (c.toNat - 55)
  else none

/-- Read the longest run of digits, accumulating the value in `acc`; returns
the value, the number of digits read and the unread input. -/
def scan_digits (digit : Char → Option Nat) (base : Nat) :
    List Char → Nat → Nat → Nat × Nat × List Char
  | [], acc, n => (acc, n, [])
  | c :: s, acc, n =>
    match digit c with
    | some d => scan_digits digit base s (acc * base + d) (n + 1)
    | none => (acc, n, c :: s)

/-- An optional sign: whether it is a minus, and the input after it. -/
def scan_sign : List Char → Bool × List Char
  | '-' :: s => (true, s)
  | '+' :: s => (false, s)
  | s => (false, s)

/-- Conversion of `strtoul`: clamp at `ULONG_MAX`, negate modulo `2 ^ 64`. -/
def conv_ulong (neg : Bool) (v : Nat) : Nat :=
  if 2 ^ 64 ≤ v then 2 ^ 64 - 1
  else if neg then (2 ^ 64 - v) % 2 ^ 64 else v

/-- Conversion of `strtol`: clamp to `LONG_MIN .. LONG_MAX`. -/
def conv_long (neg : Bool) (v : Nat) : Int :=
  if neg then (if 2 ^ 63 < v then -(2 ^ 63 : Int) else -(v : Int))
  else (if 2 ^ 63 ≤ v then (2 ^ 63 : Int) - 1 else (v : Int))

/-- An `unsigned long` stored into a `long`. -/
def long_of_ulong (v : Nat) : Int :=
  if v % 2 ^ 64 < 2 ^ 63 then ((v % 2 ^ 64 : Nat) : Int) else ((v % 2 ^ 64 : Nat) : Int) - 2 ^ 64

/-- The `%lx` conversion: white space, optional sign, optional `0x`, hex
digits.  glibc accepts `0x` without a digit after it as the number 0. -/
def scan_lx (s : List Char) : Option (Nat × List Char) :=
  match scan_sign (skip_space s) with
  | (neg, '0' :: 'x' :: r) =>
    let (v, _, r1) := scan_digits xdigit_val 16 r 0 0
    some (conv_ulong neg v, r1)
  | (neg, '0' :: 'X' :: r) =>
    let (v, _, r1) := scan_digits xdigit_val 16 r 0 0
    some (conv_ulong neg v, r1)
  | (neg, r) =>
    let (v, n, r1) := scan_digits xdigit_val 16 r 0 0
    if n = 0 then none else some (conv_ulong neg v, r1)

/-- The `%ld` conversion: white space, optional sign, decimal digits. -/
def scan_ld (s : List Char) : Option (Int × List Char) :=
  match scan_sign (skip_space s) with
  | (neg, r) =>
    let (v, n, r1) := scan_digits digit_val 10 r 0 0
    if n = 0 then none else some (conv_long neg v, r1)

/-- The `%c` conversion after a blank in the format: white space is skipped
and one character is read. -/
def scan_c (s : List Char) : Option (Char × List Char) :=
  match skip_space s with
  | [] => none
  | c :: r => some (c, r)

/-- The call `sscanf(line, "%lx %ld %c ", &offset, &size, &type)`: the three
values when it returns 3, `none` when it returns anything else. -/
def sscanf_lx_ld_c (line : List Char) : Option (Nat × Int × Char) :=
  match scan_lx line with
  | none => none
  | some (offset, r1) =>
    match scan_ld r1 with
    | none => none
    | some (size, r2) =>
      match scan_c r2 with
      | none => none
      | some (type, _) => some (offset, size, type)

/-- The step `p = strchr(p, ' '); if (!p) break; p++`. -/
def after_space : List Char → Option (List Char)
  | [] => none
  | c :: s => if c = ' ' then some s else after_space s

/-- The loop that locates the symbol name: the text after the third space,
`none` when the loop breaks with `i != 3`. -/
def locate_name (line : List Char) : Option (List Char) :=
  ((after_space line).bind after_space).bind after_space

/-- The function fgets on a stream that is not at its end: at most `n`
characters, stopping after a newline; returns the line and the unread rest. -/
def fgets_chars : Nat → List Char → List Char × List Char
  | 0, s => ([], s)
  | _, [] => ([], [])
  | n + 1, c :: s =>
    if c = '\n' then ([c], s)
    else ((fgets_chars n s).1 |>.cons c, (fgets_chars n s).2)

/-- The call `fgets(line, size, f)`: `none` at end of file. -/
def fgets (size : Nat) (stream : List Char) : Option (List Char × List Char) :=
  match stream with
  | [] => none
  | _ :: _ => some (fgets_chars (size - 1) stream)

namespace Coreinject

/-! ## The injector (`src/coreinject/main.c`) -/

/-- The record `struct symbol_data`; `name = none` is the NULL pointer. -/
structure symbol_data where
  name : Option (List Char)
  dump_offset : Int
  core_offset : Int
  size : Int
deriving DecidableEq, Repr

/-- A record after `memset(d, 0, sizeof(*d))`. -/
def symbol_data.zero : symbol_data :=
  { name := none, dump_offset := 0, core_offset := 0, size := 0 }

/-- The function write_core: seek in core and dump, read `d.size` bytes from
the dump and write them to the core.  Returns the error code (0 or -1) and the
core.  `fseek` fails on a negative offset, `fread` of one item of `d.size`
bytes fails when the dump is too short. -/
def write_core (f_core f_dump : List Nat) (d : symbol_data) : Int × List Nat :=
  if d.core_offset < 0 then (-1, f_core)
  else if d.dump_offset < 0 then (-1, f_core)
  else
    let buf := file_read f_dump d.dump_offset.toNat d.size.toNat
    if d.size ≤ 0 ∨ buf.length ≠ d.size.toNat then (-1, f_core)
    else (0, file_write f_core d.core_offset.toNat buf)

/-- The function strip_endline: cut at the first carriage return, then at the
first newline. -/
def strip_endline (str : List Char) : List Char :=
  (str.takeWhile (fun c => c ≠ '\r')).takeWhile (fun c => c ≠ '\n')

/-- The body of the `while (fgets(...))` loop of get_symbol_data on one line
buffer; the state is the pair (direct, indirect). -/
def get_symbol_data_line (symname : List Char) (line : List Char)
    (st : symbol_data × symbol_data) : symbol_data × symbol_data :=
  let line := strip_endline (c_str line)
  match sscanf_lx_ld_c line with
  | none => st
  | some (offset, size, type) =>
    match locate_name line with
    | none => st
    | some p =>
      if c_str symname ≠ p then st
      else if type = 'D' then
        ({ st.1 with core_offset := long_of_ulong offset, size := size, name := some symname },
          st.2)
      else if type = 'I' then
        (st.1,
          { st.2 with core_offset := long_of_ulong offset, size := size, name := some symname })
      else st

/-- The `while (fgets(line, sizeof(line), f_symbol))` loop with `char line[128]`.
Every iteration consumes at least one character, so fuel equal to the length
of the stream is enough to reach end of file. -/
def get_symbol_data_loop (symname : List Char) :
    Nat → List Char → symbol_data × symbol_data → symbol_data × symbol_data
  | 0, _, st => st
  | fuel + 1, stream, st =>
    match fgets 128 stream with
    | none => st
    | some (line, rest) =>
      get_symbol_data_loop symname fuel rest (get_symbol_data_line symname line st)

/-- The function get_symbol_data: return value, direct record, indirect record. -/
def get_symbol_data (symname : List Char) (f_symbol : List Char) :
    Int × symbol_data × symbol_data :=
  let st := get_symbol_data_loop symname f_symbol.length f_symbol
    (symbol_data.zero, symbol_data.zero)
  let direct := st.1
  let indirect := st.2
  let direct :=
    if indirect.size ≠ 0 ∧ direct.size ≠ 0 then
      { direct with dump_offset := direct.dump_offset + indirect.size }
    else direct
  (0, direct, indirect)

/-- The text after the last slash of a path (`strrchr(b_fname, '/')`). -/
def basename : List Char → List Char
  | [] => []
  | c :: s => if '/' ∈ s then basename s else if c = '/' then s else c :: s

/-- The function inject_data.  `fopen_dump` is the result of
`fopen(b_fname, "r")`: the contents of the binary dump, `none` when it cannot
be opened.  Returns the error code and the core. -/
def inject_data (f_core : List Nat) (f_symbol : List Char) (b_fname : List Char)
    (fopen_dump : Option (List Nat)) : Int × List Nat :=
  let symname := basename (c_str b_fname)
  let r := get_symbol_data symname f_symbol
  if r.1 ≠ 0 then (-1, f_core)
  else
    match fopen_dump with
    | none => (-1, f_core)
    | some f_dump =>
      let direct := r.2.1
      let indirect := r.2.2
      let s1 : Int × List Nat :=
        if direct.size > 0 then
          (int_or 0 (write_core f_core f_dump direct).1, (write_core f_core f_dump direct).2)
        else (0, f_core)
      if indirect.size > 0 then
        (int_or s1.1 (write_core s1.2 f_dump indirect).1, (write_core s1.2 f_dump indirect).2)
      else s1

/-- The loop `for (i = 3; i < argc; i++) if (inject_data(...) != 0) err |= 1;`
of main.  `fopen_dump` gives the contents of the binary dump at a path (`none`
when it cannot be opened).  The last component is a ghost log: the return
value of every call of inject_data, in call order. -/
def main_loop (f_symbols : List Char) (fopen_dump : List Char → Option (List Nat)) :
    List (List Char) → Int → List Nat → List Int → Int × List Nat × List Int
  | [], err, f_core, log => (err, f_core, log)
  | arg :: args, err, f_core, log =>
    let r := inject_data f_core f_symbols arg (fopen_dump arg)
    main_loop f_symbols fopen_dump args (if r.1 ≠ 0 then int_or err 1 else err) r.2
      (log ++ [r.1])

/-- The function main of the injector.  `argv` is the argument vector (program
name, core path, symbol-map path, binary dumps); `core` and `symbols` are the
contents of the files at `argv[1]` and `argv[2]`, `none` when `stat`/`fopen`
fails.  Returns the exit status, the core file and the ghost log of the
inject_data calls. -/
def main (argv : List (List Char)) (core : Option (List Nat)) (symbols : Option (List Char))
    (fopen_dump : List Char → Option (List Nat)) : Int × Option (List Nat) × List Int :=
  if argv.length < 4 then (1, core, [])
  else
    match core with
    | none => (1, none, [])
    | some f_core =>
      match symbols with
      | none => (1, some f_core, [])
      | some f_symbols =>
        let r := main_loop f_symbols fopen_dump (argv.drop 3) 0 f_core []
        (r.1, some r.2.1, r.2.2)

end Coreinject

namespace Corestripper

/-! ## The dumper (`src/minicoredumper/corestripper.c`) -/

/-- Addition of two `unsigned long`. -/
def add64 (a b : Nat) : Nat := (a + b) % 2 ^ 64

/-- Subtraction of two `unsigned long`. -/
def sub64 (a b : Nat) : Nat := (a % 2 ^ 64 + (2 ^ 64 - b % 2 ^ 64)) % 2 ^ 64

/-- The constant `ULONG_MAX`. -/
def ULONG_MAX : Nat := 2 ^ 64 - 1

/-- The constant `PT_LOAD` of `<elf.h>`. -/
def PT_LOAD : Nat := 1

/-- The constant `PT_NOTE` of `<elf.h>`. -/
def PT_NOTE : Nat := 4

/-- The constant `PF_R` of `<elf.h>`. -/
def PF_R : Nat := 4

/-- A program header as libelf hands it out (`GElf_Phdr`). -/
structure GElf_Phdr where
  p_type : Nat := 0
  p_flags : Nat := 0
  p_offset : Nat := 0
  p_vaddr : Nat := 0
  p_paddr : Nat := 0
  p_filesz : Nat := 0
  p_memsz : Nat := 0
  p_align : Nat := 0
deriving DecidableEq, Repr

/-- The record `struct core_vma` (the `next` link is the list structure). -/
structure core_vma where
  start : Nat
  file_end : Nat
  mem_end : Nat
  file_off : Nat
  flags : Nat
deriving DecidableEq, Repr

/-- Modelled from the spec: the options of the configuration record
(`prog_config.h` is not among the sources) that the embedded functions read:
`dump_scope`, `stack.first_thread_only`, `stack.max_stack_size` and
`dump_auxv_so_list`. -/
structure prog_config where
  dump_scope : Int := 0
  stack_first_thread_only : Bool := false
  stack_max_stack_size : Nat := 0
  dump_auxv_so_list : Bool := false
deriving DecidableEq, Repr

/-- The record `struct sym_data` as sym_address uses it: the load base `start`
and, for every index below `count`, what `gelf_getsym` and `elf_strptr` give:
the name and `st_value` of the symbol, `none` where `gelf_getsym` fails. -/
structure sym_data where
  start : Nat
  syms : List (Option (List Char × Nat))
deriving DecidableEq, Repr

/-- The part of `struct dump_info` that the embedded functions use.  The files
behind the descriptors are held by their contents: `core` and `core_pos` are
the output core behind `core_fd` and its file position, `mem` is the target
memory behind `mem_fd` (`none` at an address that cannot be read),
`symbol_map` is the file `symbol.map` in `dst_dir` and `dumps` are the files
in `dst_dir/dumps`, by name. -/
structure dump_info where
  core : List Nat := []
  core_pos : Nat := 0
  vma : List core_vma := []
  vma_start : Nat := 0
  vma_end : Nat := 0
  mem : Nat → Option Nat := fun _ => none
  symbol_map : List Char := []
  cfg : prog_config := {}
  first_pid : Int := 0
  tsks : List Int := []
  sym_data_list : List sym_data := []
  dumps : List (List Char × List Nat) := []

/-- What libelf reads from a file: `none` when `elf_begin`, `elf_kind`,
`gelf_getehdr` or `elf_getphdrnum` fails, otherwise one entry per program
header, `none` where `gelf_getphdr` fails.  libelf is not part of the
repository; the functions that parse take its view of a file as a parameter. -/
abbrev elf_view := List Nat → Option (List (Option GElf_Phdr))

/-- The `for (cnt = 0; cnt < phnum; cnt++)` loop of do_elf_ph_parse.  The state
`σ` that the callback works on is the dump context `dump_info`; the loop itself
only hands it on. -/
def do_elf_ph_parse_loop {σ : Type} (type : GElf_Phdr) (callback : σ → GElf_Phdr → Int × σ) :
    List (Option GElf_Phdr) → σ → Int × σ
  | [], di => (0, di)
  | none :: _, di => (-1, di)
  | some phdr :: rest, di =>
    if phdr.p_type ≠ type.p_type then do_elf_ph_parse_loop type callback rest di
    else if type.p_flags ≠ 0 ∧ (phdr.p_flags &&& type.p_flags) ≠ type.p_flags then
      do_elf_ph_parse_loop type callback rest di
    else
      let r := callback di phdr
      if r.1 < 0 then (-1, r.2)
      else if r.1 > 0 then (0, r.2)
      else do_elf_ph_parse_loop type callback rest r.2

/-- The function do_elf_ph_parse: walk the program headers of the core on
disk, calling `callback` on those that match `type`. -/
def do_elf_ph_parse (elf_read : elf_view) (di : dump_info) (type : GElf_Phdr)
    (callback : dump_info → GElf_Phdr → Int × dump_info) : Int × dump_info :=
  match elf_read di.core with
  | none => (-1, di)
  | some phdrs =>
    if phdrs.length = 0 then (-1, di)
    else do_elf_ph_parse_loop type callback phdrs di

/-- The function vma_cb: push a new vma entry on the list and continue. -/
def vma_cb (di : dump_info) (phdr : GElf_Phdr) : Int × dump_info :=
  let v : core_vma :=
    { start := phdr.p_vaddr
      file_end := add64 phdr.p_vaddr phdr.p_filesz
      mem_end := add64 phdr.p_vaddr phdr.p_memsz
      file_off := phdr.p_offset
      flags := phdr.p_flags }
  (0, { di with vma := v :: di.vma })

/-- The `for (v = di->vma; v; v = v->next)` loop of parse_vma_info; the state
is the pair (max_len, min_off). -/
def parse_vma_info_scan : List core_vma → Nat × Nat → Nat × Nat
  | [], acc => acc
  | v :: vs, (max_len, min_off) =>
    let len := sub64 (add64 v.file_off v.file_end) v.start
    parse_vma_info_scan vs
      (if len > max_len then len else max_len, if v.file_off < min_off then v.file_off else min_off)

/-- The function parse_vma_info. -/
def parse_vma_info (elf_read : elf_view) (di : dump_info) : Int × dump_info :=
  let di := { di with vma_start := 0, vma_end := 0, vma := [] }
  let r := do_elf_ph_parse elf_read di { p_type := PT_LOAD, p_flags := PF_R } vma_cb
  if r.1 ≠ 0 then (-1, r.2)
  else
    let acc := parse_vma_info_scan r.2.vma (0, ULONG_MAX)
    if acc.1 = 0 ∨ acc.2 = ULONG_MAX then (-1, r.2)
    else (0, { r.2 with vma_start := acc.2, vma_end := acc.1 })

/-- Outcome of the read loop read_file_fd: the bytes and the source after
them, an error (-1), or no return at all (at end of input `read` keeps
returning 0 and the loop never ends). -/
inductive read_result (S : Type) where
  | ok (buf : List Nat) (src : S)
  | error
  | hang

/-- The function read_file_fd on the streamed source core (a pipe): it returns
once `len` bytes have arrived. -/
def read_file_fd (src : List Nat) (len : Nat) : read_result (List Nat) :=
  if len ≤ src.length then read_result.ok (src.take len) (src.drop len) else read_result.hang

/-- The `while (len)` loop of copy_data.  `rd` is read_file_fd on the source.
The result is `none` when the loop does not return, otherwise the return value,
the source, and the destination file with its position.  Every iteration with
a positive chunk lowers `len`, so fuel `len` is enough. -/
def copy_data_loop {S : Type} (rd : S → Nat → read_result S) :
    Nat → S → List Nat → Nat → Nat → Nat → Option (Int × S × List Nat × Nat)
  | _, src, dest, pos, 0, _ => some (0, src, dest, pos)
  | 0, _, _, _, _ + 1, _ => none
  | fuel + 1, src, dest, pos, len + 1, chunk =>
    let chunk := if len + 1 < chunk then len + 1 else chunk
    match rd src chunk with
    | read_result.hang => none
    | read_result.error => some (-1, src, dest, pos)
    | read_result.ok buf src1 =>
      copy_data_loop rd fuel src1 (file_write dest pos buf) (pos + chunk) (len + 1 - chunk) chunk

/-- The function copy_data with one destination (the second destination, the
optional fat core, receives the same bytes and is left out). -/
def copy_data {S : Type} (PAGESZ : Nat) (rd : S → Nat → read_result S) (src : S)
    (dest : List Nat) (pos : Nat) (len : Nat) : Option (Int × S × List Nat × Nat) :=
  copy_data_loop rd len src dest pos len (if len < PAGESZ then len else PAGESZ)

/-- The loop `for (i = 0; i < 2; i++)` of init_src_core that copies pages from
the source to the core; `none` when a read does not return. -/
def copy_pages (PAGESZ : Nat) : Nat → List Nat → dump_info → Option (List Nat × dump_info)
  | 0, src, di => some (src, di)
  | i + 1, src, di =>
    match read_file_fd src PAGESZ with
    | read_result.ok buf src1 =>
      copy_pages PAGESZ i src1
        { di with core := file_write di.core di.core_pos buf, core_pos := di.core_pos + PAGESZ }
    | _ => none

/-- The body of init_src_core from the label `again`; `left` is `10 - tries`.
Result: `none` when a read of the source never returns, otherwise the return
value, the unread source and the dump context. -/
def init_src_core_again (elf_read : elf_view) (PAGESZ : Nat) :
    Nat → List Nat → dump_info → Option (Int × List Nat × dump_info)
  | 0, src, di => some (-1, src, di)
  | left + 1, src, di =>
    match copy_pages PAGESZ 2 src di with
    | none => none
    | some (src1, di1) =>
      let pos := di1.core_pos
      let r := parse_vma_info elf_read di1
      let di2 := { r.2 with core_pos := pos }
      if r.1 ≠ 0 then
        if 0 < left then init_src_core_again elf_read PAGESZ left src1 di2
        else some (r.1, src1, di2)
      else
        let di3 := { di2 with core := file_write di2.core (di2.vma_end - 1) [0] }
        if di3.vma_start > pos then
          match copy_data PAGESZ read_file_fd src1 di3.core di3.core_pos (di3.vma_start - pos) with
          | none => none
          | some c => some (r.1, c.2.1, { di3 with core := c.2.2.1, core_pos := c.2.2.2 })
        else some (r.1, src1, di3)

/-- The function init_src_core on a freshly created core. -/
def init_src_core (elf_read : elf_view) (PAGESZ : Nat) (src : List Nat) (di : dump_info) :
    Option (Int × List Nat × dump_info) :=
  init_src_core_again elf_read PAGESZ 10 src di

/-- The function get_vma_pos: the first vma of the list that covers `addr`. -/
def get_vma_pos (di : dump_info) (addr : Nat) : Option core_vma :=
  di.vma.find? (fun v => decide (addr ≥ v.start ∧ addr < v.mem_end))

/-- The function get_core_pos, as the bits of an `off_t`: `2 ^ 64 - 1` is
`(off_t)-1`. -/
def get_core_pos (di : dump_info) (addr : Nat) : Nat :=
  match get_vma_pos di addr with
  | none => 2 ^ 64 - 1
  | some vma => sub64 (add64 vma.file_off addr) vma.start

/-- The call `pread64(di->mem_fd, dst, len, addr)` when it returns `len`: the
bytes at `addr .. addr + len`, `none` when one of them cannot be read. -/
def pread_mem (mem : Nat → Option Nat) : Nat → Nat → Option (List Nat)
  | _, 0 => some []
  | addr, len + 1 =>
    match mem addr, pread_mem mem (addr + 1) len with
    | some b, some bs => some (b :: bs)
    | _, _ => none

/-- The function read_remote: `none` is the exit through `fatal("BUG")` when
the read is short. -/
def read_remote (di : dump_info) (addr len : Nat) : Option (List Nat) :=
  pread_mem di.mem addr len

/-- The value of a little-endian byte sequence (how a `long` lies in memory). -/
def le_decode : List Nat → Nat
  | [] => 0
  | b :: bs => b + 256 * le_decode bs

/-- The `n` bytes of a value, little-endian. -/
def le_encode : Nat → Nat → List Nat
  | 0, _ => []
  | n + 1, v => v % 256 :: le_encode n (v / 256)

/-- Modelled from the spec: the flag `MCD_DATA_PTR_INDIRECT` of the header
`minicoredumper.h`, which is not among the sources ("data pointer is
indirect").  The spec names the flag, not its bit; the code only tests it
with `&`, so any bit apart from that of `MCD_LENGTH_INDIRECT` behaves alike. -/
def MCD_DATA_PTR_INDIRECT : Nat := 1

/-- Modelled from the spec: the flag `MCD_LENGTH_INDIRECT` of the header
`minicoredumper.h`, which is not among the sources (the length is "possibly
indirect by the same convention"). -/
def MCD_LENGTH_INDIRECT : Nat := 2

/-- Modelled from the spec: the record `struct dump_data_elem` of the header
`dump_data_private.h`, which is not among the sources: a data pointer, a length
(the union of `length` and `length_ptr`), a flag bitfield and the argument-type
tag. -/
structure dump_data_elem where
  data_ptr : Nat
  length : Nat
  flags : Nat
  fmt_type : Nat := 0
deriving DecidableEq, Repr

/-- Modelled from the spec: the record `struct mcd_dump_data` of the header
`dump_data_private.h`, which is not among the sources, after
alloc_remote_data_content has pulled its strings and elements from the target. -/
structure mcd_dump_data where
  ident : Option (List Char)
  fmt : Option (List Char) := none
  es : List dump_data_elem := []
  type : Nat := 0
  dump_scope : Int := 0
  next : Nat := 0
deriving DecidableEq, Repr

/-- What `%s` prints for a string argument (glibc prints `(null)` for NULL). -/
def printf_s (s : Option (List Char)) : List Char :=
  match s with
  | some str => c_str str
  | none => "(null)".toList

/-- The function add_symbol_map_entry: append the line
`fprintf(f, "%lx %zx %c %s\n", core_pos, size, type, ident)` to `symbol.map`. -/
def add_symbol_map_entry (di : dump_info) (core_pos : Nat) (size : Nat) (type : Char)
    (ident : Option (List Char)) : Int × dump_info :=
  (0, { di with symbol_map := di.symbol_map ++
          (Nat.toDigits 16 core_pos ++ [' '] ++ Nat.toDigits 16 size ++ [' ', type, ' '] ++
            printf_s ident ++ ['\n']) })

/-- The function dump_data_file_bin.  `file` is the contents of
`dumps/<ident>`, opened for appending.  Result: `none` when the process ends
(read_remote is fatal on failure, and a descriptor without elements is
dereferenced), otherwise the return value, the dump context and the file. -/
def dump_data_file_bin (di : dump_info) (dd : mcd_dump_data) (file : List Nat) :
    Option (Int × dump_info × List Nat) :=
  match dd.es with
  | [] => none
  | es :: _ =>
    let ind : Bool := (es.flags &&& MCD_DATA_PTR_INDIRECT) ≠ 0
    let addr_ind := if ind then es.data_ptr else 0
    match (if ind then (read_remote di es.data_ptr 8).map le_decode else some es.data_ptr) with
    | none => none
    | some addr =>
      match (if (es.flags &&& MCD_LENGTH_INDIRECT) ≠ 0 then
          (read_remote di es.length 8).map le_decode else some es.length) with
      | none => none
      | some length =>
        match read_remote di addr length with
        | none => none
        | some buf =>
          let file1 := if ind then file ++ le_encode 8 addr else file
          let di1 :=
            if ind ∧ get_core_pos di addr_ind ≠ 2 ^ 64 - 1 then
              (add_symbol_map_entry di (get_core_pos di addr_ind) 8 'I' dd.ident).2
            else di
          let file2 := file1 ++ buf
          let di2 :=
            if get_core_pos di1 addr ≠ 2 ^ 64 - 1 then
              (add_symbol_map_entry di1 (get_core_pos di1 addr) 8 'D' dd.ident).2
            else di1
          some (0, di2, file2)

/-- The constant `EINVAL` of `<errno.h>`. -/
def EINVAL : Int := 22

/-- The constant `ENOMEM` of `<errno.h>`. -/
def ENOMEM : Int := 12

/-- The constant `ENOKEY` of `<errno.h>`. -/
def ENOKEY : Int := 126

/-- The function read_file_fd on `mem_fd`; the source is the file position in
`/proc/<pid>/mem`.  A read that meets an address that cannot be read ends in
an error, so the loop returns the `len` bytes or -1. -/
def read_mem_fd (mem : Nat → Option Nat) (pos len : Nat) : read_result Nat :=
  match pread_mem mem pos len with
  | some buf => read_result.ok buf (pos + len)
  | none => read_result.error

/-- The function dump_vma (the description arguments `fmt, ...` only feed the
log).  Seeking in `/proc/<pid>/mem` is taken to succeed; seeking in the core
fails on an offset that is negative as an `off_t`.  Result: `none` when
copy_data does not return, otherwise the return value and the dump context. -/
def dump_vma (PAGESZ : Nat) (di : dump_info) (start len balloon : Nat) :
    Option (Int × dump_info) :=
  match get_vma_pos di start with
  | none => some (EINVAL, di)
  | some tmp =>
    let end0 := add64 start len
    let start1 := if balloon > 0 then sub64 start balloon else start
    let end1 := if balloon > 0 then add64 end0 balloon else end0
    let start2 := if start1 < tmp.start then tmp.start else start1
    let end2 := if end1 > tmp.file_end then tmp.file_end else end1
    if start2 ≥ end2 then some (0, di)
    else
      let off := sub64 (add64 tmp.file_off start2) tmp.start
      if 2 ^ 63 ≤ off then some (0, di)
      else
        match copy_data PAGESZ (read_mem_fd di.mem) start2 di.core off (end2 - start2) with
        | none => none
        | some c => some (0, { di with core := c.2.2.1, core_pos := c.2.2.2 })

/-- The `%lu` conversion: white space, optional sign, decimal digits. -/
def scan_lu (s : List Char) : Option (Nat × List Char) :=
  match scan_sign (skip_space s) with
  | (neg, r) =>
    let (v, n, r1) := scan_digits digit_val 10 r 0 0
    if n = 0 then none else some (conv_ulong neg v, r1)

/-- The loop `for (i = 0; i < 28; i++) { p = strchr(p, ' '); if (!p) goto
out_err; p++; }` with `n` rounds to go: the text after `n` spaces. -/
def skip_fields : Nat → List Char → Option (List Char)
  | 0, p => some p
  | n + 1, p =>
    match after_space p with
    | none => none
    | some q => skip_fields n q

/-- The function get_stack_pointer.  `stat` is the file `/proc/<pid>/stat`,
`none` when it cannot be opened.  Result: the 29th item of its first line,
`none` for the return value -1. -/
def get_stack_pointer (stat : Option (List Char)) : Option Nat :=
  match stat with
  | none => none
  | some f =>
    match fgets 4096 f with
    | none => none
    | some (line, _) =>
      match skip_fields 28 (c_str line) with
      | none => none
      | some p => (scan_lu p).map Prod.fst

/-- The constant `NT_PRSTATUS` of `<elf.h>`. -/
def NT_PRSTATUS : Nat := 1

/-- What libelf reads from the note segment of a program header of a file:
`none` when `elf_getdata_rawchunk` fails, otherwise the notes in order, each
with its `n_type` and the `pr_pid` its descriptor holds, `none` where
`gelf_getnote` fails. -/
abbrev note_view := List Nat → GElf_Phdr → Option (List (Option (Nat × Int)))

/-- The `while (offset < data->d_size)` loop of note_cb. -/
def note_cb_loop : List (Option (Nat × Int)) → dump_info → Int × dump_info
  | [], di => (0, di)
  | none :: _, di => (-1, di)
  | some (n_type, pr_pid) :: rest, di =>
    if n_type ≠ NT_PRSTATUS then note_cb_loop rest di
    else (1, { di with first_pid := pr_pid })

/-- The function note_cb: find the first `NT_PRSTATUS` note of the segment and
store its pid as the first task. -/
def note_cb (notes : note_view) (di : dump_info) (phdr : GElf_Phdr) : Int × dump_info :=
  match notes di.core phdr with
  | none => (-1, di)
  | some ns => note_cb_loop ns di

/-- The body of the task loop of dump_stacks for the task `pid`.  `proc_stat`
gives the stat file of a task.  Result: `none` when dump_vma does not return. -/
def dump_stacks_task (PAGESZ : Nat) (proc_stat : Int → Option (List Char)) (di : dump_info)
    (pid : Int) : Option dump_info :=
  if di.first_pid ≠ 0 ∧ di.first_pid ≠ pid then some di
  else
    match get_stack_pointer (proc_stat pid) with
    | none => some di
    | some stack_addr =>
      match get_vma_pos di stack_addr with
      | none => some di
      | some tmp =>
        let len := sub64 tmp.file_end stack_addr
        let max_len := di.cfg.stack_max_stack_size
        let len1 := if max_len ≠ 0 ∧ len > max_len then max_len else len
        (dump_vma PAGESZ di stack_addr len1 0).map Prod.snd

/-- The loop `for (i = 0; i < di->ntsks; i++)` of dump_stacks. -/
def dump_stacks_loop (PAGESZ : Nat) (proc_stat : Int → Option (List Char)) :
    List Int → dump_info → Option dump_info
  | [], di => some di
  | pid :: rest, di =>
    match dump_stacks_task PAGESZ proc_stat di pid with
    | none => none
    | some di1 => dump_stacks_loop PAGESZ proc_stat rest di1

/-- The function dump_stacks. -/
def dump_stacks (PAGESZ : Nat) (elf_read : elf_view) (notes : note_view)
    (proc_stat : Int → Option (List Char)) (di : dump_info) : Option (Int × dump_info) :=
  let di1 :=
    if di.cfg.stack_first_thread_only then
      (do_elf_ph_parse elf_read di { p_type := PT_NOTE } (note_cb notes)).2
    else di
  (dump_stacks_loop PAGESZ proc_stat di1.tsks di1).map (fun d => (0, d))

/-- The bytes before the first NUL at an address of the target, at most `n` of
them; `none` when a byte that is looked at cannot be read. -/
def alloc_remote_string_scan (mem : Nat → Option Nat) : Nat → Nat → Option (List Nat)
  | 0, _ => some []
  | n + 1, addr =>
    match mem addr with
    | none => none
    | some b => if b = 0 then some [] else (alloc_remote_string_scan mem n (addr + 1)).map (b :: ·)

/-- The loop `for (i = 1; i < REMOTE_STRING_MAX; i++)` of alloc_remote_string
with `n = REMOTE_STRING_MAX - i` rounds to go; `ptr` is the buffer as the round
before has left it.  Every round reads `i` bytes at `addr` anew and looks at the
last of them.  Result: `none` when a read is short, otherwise the C string in
the buffer after `ptr[i - 1] = 0`. -/
def alloc_remote_string_loop (mem : Nat → Option Nat) (addr : Nat) :
    Nat → Nat → List Nat → Option (List Nat)
  | 0, _, ptr => some ptr
  | n + 1, i, _ =>
    match pread_mem mem addr i with
    | none => none
    | some buf =>
      if buf.getD (i - 1) 0 = 0 then some (buf.take (i - 1))
      else alloc_remote_string_loop mem addr n (i + 1) buf

/-- The function alloc_remote_string with `REMOTE_STRING_MAX = 4096`: the
return value (0, `EINVAL` for a null address, and -1 for the error code of a
failed read, which is `errno` or -1) and the string. -/
def alloc_remote_string (di : dump_info) (addr : Nat) : Int × Option (List Nat) :=
  if addr = 0 then (EINVAL, none)
  else
    match alloc_remote_string_loop di.mem addr 4095 1 [] with
    | none => (-1, none)
    | some s => (0, some s)

/-- The argument that print_fmt_token hands to `asprintf` after the token: an
`int` (also a promoted `char` or `short`), a `long` or `long long`, a string, a
pointer, or a floating-point value given by its bytes in memory; `none` for a
call without argument. -/
inductive printf_arg where
  | none
  | int (v : Int)
  | long (v : Int)
  | str (s : List Char)
  | ptr (v : Nat)
  | float (bytes : List Nat)
  | double (bytes : List Nat)
  | long_double (bytes : List Nat)
deriving DecidableEq, Repr

/-- The host formatter `asprintf(&d_str, token, arg)`: the text, `none` when
it returns a negative value.  The C library is not part of the repository;
print_fmt_token takes its formatter as a parameter. -/
abbrev host_printf := List Char → printf_arg → Option (List Char)

/-- The constant `PA_INT` of `<printf.h>`. -/
def PA_INT : Nat := 0

/-- The constant `PA_CHAR` of `<printf.h>`. -/
def PA_CHAR : Nat := 1

/-- The constant `PA_STRING` of `<printf.h>`. -/
def PA_STRING : Nat := 3

/-- The constant `PA_POINTER` of `<printf.h>`. -/
def PA_POINTER : Nat := 5

/-- The constant `PA_FLOAT` of `<printf.h>`. -/
def PA_FLOAT : Nat := 6

/-- The constant `PA_DOUBLE` of `<printf.h>`. -/
def PA_DOUBLE : Nat := 7

/-- The constant `PA_LAST` of `<printf.h>`. -/
def PA_LAST : Nat := 8

/-- The constant `PA_FLAG_LONG_LONG` of `<printf.h>` (also `PA_FLAG_LONG_DOUBLE`). -/
def PA_FLAG_LONG_LONG : Nat := 256

/-- The constant `PA_FLAG_LONG` of `<printf.h>`. -/
def PA_FLAG_LONG : Nat := 512

/-- The constant `PA_FLAG_SHORT` of `<printf.h>`. -/
def PA_FLAG_SHORT : Nat := 1024

/-- A two's-complement value of `bits` bits. -/
def signed_of (bits : Nat) (v : Nat) : Int :=
  if v % 2 ^ bits < 2 ^ (bits - 1) then ((v % 2 ^ bits : Nat) : Int)
  else ((v % 2 ^ bits : Nat) : Int) - 2 ^ bits

/-- The value `*(t *)data_ptr` of an integer type of `n` bytes at the start of
the buffer; `none` when the buffer is shorter than the type (the C code then
reads past its allocation). -/
def load_le (buf : List Nat) (n : Nat) : Option Nat :=
  if n ≤ buf.length then some (le_decode (buf.take n)) else none

/-- The bytes of a text as they are written to a file. -/
def text_bytes (s : List Char) : List Nat := s.map Char.toNat

/-- The text that bytes read from the target stand for. -/
def bytes_text (b : List Nat) : List Char := b.map Char.ofNat

/-- The end of print_fmt_token after the `switch`: a negative return of
`asprintf` gives -1 and no output, otherwise the text is written up to its
first NUL (`fwrite(d_str, 1, strlen(d_str), ft)`). -/
def print_fmt_token_out (ft : List Nat) (d_str : Option (List Char)) : Option (Int × List Nat) :=
  match d_str with
  | none => some (-1, ft)
  | some s => some (0, ft ++ text_bytes (c_str s))

/-- The `switch (fmt_type)` of print_fmt_token for an element whose data is in
`data`: the argument is taken from the data under the type that the tag
selects.  Result: `none` when the data is too short for the type. -/
def print_fmt_token_switch (asprintf : host_printf) (ft : List Nat) (di : dump_info)
    (token : List Char) (fmt_type : Nat) (data : List Nat) : Option (Int × List Nat) :=
  if fmt_type = PA_INT then
    (load_le data 4).bind fun v =>
      print_fmt_token_out ft (asprintf token (printf_arg.int (signed_of 32 v)))
  else if fmt_type = PA_CHAR then
    (load_le data 1).bind fun v =>
      print_fmt_token_out ft (asprintf token (printf_arg.int (signed_of 8 v)))
  else if fmt_type = PA_STRING then
    (load_le data 8).bind fun p =>
      match alloc_remote_string di p with
      | (_, none) => some (-1, ft)
      | (_, some s) => print_fmt_token_out ft (asprintf token (printf_arg.str (bytes_text s)))
  else if fmt_type = PA_POINTER then
    (load_le data 8).bind fun v => print_fmt_token_out ft (asprintf token (printf_arg.ptr v))
  else if fmt_type = PA_FLOAT then
    if 4 ≤ data.length then
      print_fmt_token_out ft (asprintf token (printf_arg.float (data.take 4)))
    else none
  else if fmt_type = PA_DOUBLE then
    if 8 ≤ data.length then
      print_fmt_token_out ft (asprintf token (printf_arg.double (data.take 8)))
    else none
  else if fmt_type = PA_INT ||| PA_FLAG_SHORT then
    (load_le data 2).bind fun v =>
      print_fmt_token_out ft (asprintf token (printf_arg.int (signed_of 16 v)))
  else if fmt_type = PA_INT ||| PA_FLAG_LONG then
    (load_le data 8).bind fun v =>
      print_fmt_token_out ft (asprintf token (printf_arg.long (signed_of 64 v)))
  else if fmt_type = PA_INT ||| PA_FLAG_LONG_LONG then
    (load_le data 8).bind fun v =>
      print_fmt_token_out ft (asprintf token (printf_arg.long (signed_of 64 v)))
  else if fmt_type = PA_DOUBLE ||| PA_FLAG_LONG_LONG then
    if 16 ≤ data.length then
      print_fmt_token_out ft (asprintf token (printf_arg.long_double (data.take 16)))
    else none
  else print_fmt_token_out ft (asprintf token printf_arg.none)

/-- The function print_fmt_token.  `ft` is the file it appends to, `n` the
number of elements and `es_ptr` the elements.  Result: `none` when the process
ends (read_remote is fatal on failure) or the element array is left, otherwise
the return value and the file. -/
def print_fmt_token (asprintf : host_printf) (ft : List Nat) (di : dump_info)
    (fmt_string : List Char) (n : Int) (es_ptr : List dump_data_elem) (fmt_offset len : Nat)
    (es_index : Int) : Option (Int × List Nat) :=
  if len = 0 then some (0, ft)
  else
    let token := c_str ((fmt_string.drop fmt_offset).take len)
    if es_index = -1 then print_fmt_token_out ft (asprintf token printf_arg.none)
    else if es_index ≥ n then some (0, ft ++ text_bytes token)
    else
      match (if es_index < 0 then none else es_ptr.get? es_index.toNat) with
      | none => none
      | some elem =>
        if elem.length < 1 then some (0, ft ++ text_bytes token)
        else
          match read_remote di elem.data_ptr elem.length with
          | none => none
          | some data => print_fmt_token_switch asprintf ft di token elem.fmt_type data

/-- The `for (i = 0; i < len; i++)` loop of dump_data_file_text.  The first
argument of the recursion is the format string from position `i` on; `emit` is
the call of print_fmt_token with the token `(start, i - start, es_index)` on
the state.  Result: the state with the last `start` and `es_index`, `none`
when a call does not return. -/
def dump_data_file_text_loop {σ : Type} (emit : σ → Nat → Nat → Int → Option σ) :
    List Char → Nat → Nat → Int → σ → Option (σ × Nat × Int)
  | [], _, start, es_index, s => some (s, start, es_index)
  | c :: rest, i, start, es_index, s =>
    if c = '%' then
      match rest with
      | d :: rest2 =>
        if d = '%' then dump_data_file_text_loop emit rest2 (i + 2) start es_index s
        else
          match emit s start (i - start) es_index with
          | none => none
          | some s1 => dump_data_file_text_loop emit (d :: rest2) (i + 1) i (es_index + 1) s1
      | [] =>
        match emit s start (i - start) es_index with
        | none => none
        | some s1 => dump_data_file_text_loop emit [] (i + 1) i (es_index + 1) s1
    else dump_data_file_text_loop emit rest (i + 1) start es_index s

/-- The function dump_data_file_text with the calls of print_fmt_token given
by `emit`: the loop, then the token to the end of the format string. -/
def dump_data_file_text_calls {σ : Type} (emit : σ → Nat → Nat → Int → Option σ)
    (fmt_string : List Char) (s : σ) : Option σ :=
  match dump_data_file_text_loop emit fmt_string 0 0 (-1) s with
  | none => none
  | some (s1, start, es_index) => emit s1 start (fmt_string.length - start) es_index

/-- The function dump_data_file_text.  `file` is the contents of
`dumps/<ident>`, opened for appending.  The return values of print_fmt_token
are not looked at. -/
def dump_data_file_text (asprintf : host_printf) (di : dump_info) (dd : mcd_dump_data)
    (file : List Nat) : Option (Int × List Nat) :=
  match dd.fmt with
  | none => some (EINVAL, file)
  | some fmt =>
    (dump_data_file_text_calls
      (fun ft off len idx =>
        (print_fmt_token asprintf ft di (c_str fmt) dd.es.length dd.es off len idx).map Prod.snd)
      (c_str fmt) file).map (fun ft => (0, ft))

/-- The function sym_address on one symbol table: the first index whose symbol
can be fetched and has the wanted name. -/
def sym_address_table (symname : List Char) : List (Option (List Char × Nat)) → Option Nat
  | [] => none
  | none :: rest => sym_address_table symname rest
  | some (name, st_value) :: rest =>
    if name = symname then some st_value else sym_address_table symname rest

/-- The loop of sym_address over the list of symbol tables. -/
def sym_address_list (symname : List Char) : List sym_data → Option Nat
  | [] => none
  | sd :: rest =>
    match sym_address_table symname sd.syms with
    | some st_value => some (add64 sd.start st_value)
    | none => sym_address_list symname rest

/-- The function sym_address: the address, `none` for the return value -1. -/
def sym_address (di : dump_info) (symname : List Char) : Option Nat :=
  sym_address_list symname di.sym_data_list

/-- The record `struct mcd_dump_data` as read_remote fetches it from the
target: the strings and the element array are still addresses in the target. -/
structure raw_dump_data where
  ident : Nat := 0
  fmt : Nat := 0
  es : Nat := 0
  es_n : Nat := 0
  type : Nat := 0
  dump_scope : Int := 0
  next : Nat := 0
deriving DecidableEq, Repr

/-- Modelled from the spec: what the header `dump_data_private.h`, which is not
among the sources, fixes for the dumper and the library of the target ("the
descriptor layout is fixed and must match"): the version `DUMP_DATA_VERSION`,
the type discriminator `MCD_BIN` of a binary descriptor, and the size and the
layout of `struct mcd_dump_data` and of `struct dump_data_elem` (how the bytes
of a record give its fields). -/
structure dump_data_abi where
  DUMP_DATA_VERSION : Int
  MCD_BIN : Nat
  sizeof_dd : Nat
  decode_dd : List Nat → raw_dump_data
  sizeof_es : Nat
  decode_es : List Nat → dump_data_elem

/-- The function alloc_remote_data_content.  Result: `none` when the process
ends (read_remote is fatal on failure), otherwise the return value and the
record `dd`, which keeps the link `next` of the target also when the function
returns an error. -/
def alloc_remote_data_content (abi : dump_data_abi) (di : dump_info) (addr : Nat) :
    Option (Int × mcd_dump_data) :=
  match read_remote di addr abi.sizeof_dd with
  | none => none
  | some bytes =>
    let raw := abi.decode_dd bytes
    let dd0 : mcd_dump_data :=
      { ident := none, type := raw.type, dump_scope := raw.dump_scope, next := raw.next }
    if raw.dump_scope > di.cfg.dump_scope then some (-1, dd0)
    else
      let r1 := if raw.ident ≠ 0 then alloc_remote_string di raw.ident else (0, none)
      if r1.1 ≠ 0 then some (r1.1, dd0)
      else
        let r2 := if raw.fmt ≠ 0 then alloc_remote_string di raw.fmt else (0, none)
        if r2.1 ≠ 0 then some (r2.1, dd0)
        else
          let dd1 : mcd_dump_data :=
            { dd0 with ident := r1.2.map bytes_text, fmt := r2.2.map bytes_text }
          if raw.es_n = 0 then some (0, dd1)
          else
            match read_remote di raw.es (abi.sizeof_es * raw.es_n) with
            | none => none
            | some eb =>
              some (0, { dd1 with
                es := (List.range raw.es_n).map fun i =>
                  abi.decode_es ((eb.drop (i * abi.sizeof_es)).take abi.sizeof_es) })

/-- The loop of dump_data_content_core over the elements; the return values of
dump_vma are not looked at.  `none` when the process ends. -/
def dump_data_content_core_loop (PAGESZ : Nat) : List dump_data_elem → dump_info →
    Option dump_info
  | [], di => some di
  | es :: rest, di =>
    let ind : Bool := (es.flags &&& MCD_DATA_PTR_INDIRECT) ≠ 0
    let addr_ind := if ind then es.data_ptr else 0
    match (if ind then (read_remote di es.data_ptr 8).map le_decode else some es.data_ptr) with
    | none => none
    | some addr =>
      match (if (es.flags &&& MCD_LENGTH_INDIRECT) ≠ 0 then
          (read_remote di es.length 8).map le_decode else some es.length) with
      | none => none
      | some length =>
        match (if addr_ind ≠ 0 then (dump_vma PAGESZ di addr_ind 8 0).map Prod.snd
            else some di) with
        | none => none
        | some di1 =>
          match dump_vma PAGESZ di1 addr length 0 with
          | none => none
          | some r => dump_data_content_core_loop PAGESZ rest r.2

/-- The function dump_data_content_core. -/
def dump_data_content_core (PAGESZ : Nat) (di : dump_info) (dd : mcd_dump_data) :
    Option (Int × dump_info) :=
  (dump_data_content_core_loop PAGESZ dd.es di).map fun d => (0, d)

/-- The contents of `dumps/<ident>`; `none` when there is no such file. -/
def dumps_get (dumps : List (List Char × List Nat)) (ident : List Char) : Option (List Nat) :=
  (dumps.find? fun e => e.1 = ident).map Prod.snd

/-- The directory `dumps` after `dumps/<ident>` got the contents `file`. -/
def dumps_set (dumps : List (List Char × List Nat)) (ident : List Char) (file : List Nat) :
    List (List Char × List Nat) :=
  (ident, file) :: dumps.filter fun e => e.1 ≠ ident

/-- The function dump_data_content_file.  `fopen_errno` is the environment:
`some e` when `fopen(".../dumps/<ident>", "a")` fails with `errno = e`, `none`
when it opens the file (and creates it when it was not there).  Result: `none`
when the process ends. -/
def dump_data_content_file (abi : dump_data_abi) (asprintf : host_printf)
    (fopen_errno : List Char → Option Int) (di : dump_info) (dd : mcd_dump_data) :
    Option (Int × dump_info) :=
  match dd.ident with
  | none => none
  | some ident =>
    match fopen_errno ident with
    | some e => some (e, di)
    | none =>
      let file := (dumps_get di.dumps ident).getD []
      if dd.type = abi.MCD_BIN then
        match dump_data_file_bin di dd file with
        | none => none
        | some (ret, di1, file1) =>
          some (ret, { di1 with dumps := dumps_set di1.dumps ident file1 })
      else
        match dump_data_file_text asprintf di dd file with
        | none => none
        | some (ret, file1) => some (ret, { di with dumps := dumps_set di.dumps ident file1 })

/-- The loop `for (iter = dd_addr; iter; iter = dd->next)` of dyn_dump, with
the variable `ret`; the first argument bounds the number of descriptors that
are visited (a list that runs in a circle never ends).  Result: `none` when the
process ends or the bound is met, otherwise what dyn_dump returns. -/
def dyn_dump_loop (abi : dump_data_abi) (PAGESZ : Nat) (asprintf : host_printf)
    (fopen_errno : List Char → Option Int) :
    Nat → Nat → dump_info → Int → Option (Int × dump_info)
  | 0, iter, di, ret => if iter = 0 then some (ret, di) else none
  | fuel + 1, iter, di, ret =>
    if iter = 0 then some (ret, di)
    else
      match alloc_remote_data_content abi di iter with
      | none => none
      | some (r, dd) =>
        if r ≠ 0 then dyn_dump_loop abi PAGESZ asprintf fopen_errno fuel dd.next di r
        else
          match (if dd.ident.isSome then dump_data_content_file abi asprintf fopen_errno di dd
              else dump_data_content_core PAGESZ di dd) with
          | none => none
          | some (r2, di1) =>
            if r2 ≠ 0 then some (r2, di1)
            else dyn_dump_loop abi PAGESZ asprintf fopen_errno fuel dd.next di1 r2

/-- The function dyn_dump.  Result: `none` when the process ends or the walk
does not end within `fuel` descriptors, otherwise the return value and the dump
context. -/
def dyn_dump (abi : dump_data_abi) (PAGESZ : Nat) (asprintf : host_printf)
    (fopen_errno : List Char → Option Int) (fuel : Nat) (di : dump_info) :
    Option (Int × dump_info) :=
  match sym_address di "mcd_dump_data_version".toList with
  | none => some (ENOKEY, di)
  | some addr =>
    match read_remote di addr 4 with
    | none => none
    | some vb =>
      if signed_of 32 (le_decode vb) ≠ abi.DUMP_DATA_VERSION then some (ENOKEY, di)
      else
        match sym_address di "mcd_dump_data_head".toList with
        | none => some (ENOKEY, di)
        | some addr2 =>
          match read_remote di addr2 8 with
          | none => none
          | some pb =>
            if le_decode pb = 0 then some (0, di)
            else dyn_dump_loop abi PAGESZ asprintf fopen_errno fuel (le_decode pb) di 0

/-- The `%d` conversion: the `%ld` conversion, stored into an `int`. -/
def scan_d (s : List Char) : Option (Int × List Char) :=
  (scan_ld s).map fun r => ((r.1 + 2 ^ 31) % 2 ^ 32 - 2 ^ 31, r.2)

/-- The first loop of get_task_list over the entries that `readdir` delivers:
count those whose name does not start with a dot. -/
def get_task_list_count : List (List Char) → Nat → Nat
  | [], count => count
  | de :: rest, count =>
    if de.head? = some '.' then get_task_list_count rest count
    else get_task_list_count rest (count + 1)

/-- The loop `for (i = 0; i < count; )` of get_task_list with `count - i`
entries to go, over the entries that `readdir` delivers after `rewinddir`.
Result: `none` for the exits with `err = 1` (the directory ends, or a name does
not scan as a number), otherwise the pid list and the entries not yet read. -/
def get_task_list_read : List (List Char) → Nat → List Int →
    Option (List Int × List (List Char))
  | es, 0, pidlist => some (pidlist, es)
  | [], _ + 1, _ => none
  | de :: rest, n + 1, pidlist =>
    if de.head? = some '.' then get_task_list_read rest (n + 1) pidlist
    else
      match scan_d de with
      | none => none
      | some (pid, _) => get_task_list_read rest n (pidlist ++ [pid])

/-- The function get_task_list.  `dir` is the environment: `none` when
`opendir("/proc/<pid>/task")` fails, otherwise the names that `readdir`
delivers in the first pass and, after `rewinddir`, in the second pass (tasks
can come and go in between).  The field `tsks` is the pid list; `ntsks` is its
length.  (A failing `calloc` is left out.) -/
def get_task_list (dir : Option (List (List Char) × List (List Char))) (di : dump_info) :
    Int × dump_info :=
  let di := { di with tsks := [] }
  match dir with
  | none => (1, di)
  | some (pass1, pass2) =>
    let count := get_task_list_count pass1 0
    if count = 0 then (0, di)
    else
      match get_task_list_read pass2 count [] with
      | none => (1, di)
      | some (pidlist, rest) =>
        if rest ≠ [] then (1, di) else (0, { di with tsks := pidlist })

/-- The size of `struct robust_list_head` of `<linux/futex.h>` on a 64-bit
target: the list, the futex offset and the pending entry. -/
def sizeof_robust_list_head : Nat := 24

/-- The size of `struct robust_list` of `<linux/futex.h>` on a 64-bit target:
the pointer `next`. -/
def sizeof_robust_list : Nat := 8

/-- The offset of the member `list` in `struct robust_list_head`. -/
def offsetof_robust_list_head_list : Nat := 0

/-- The offset of the member `next` in `struct robust_list`. -/
def offsetof_robust_list_next : Nat := 0

/-- The `do { ... } while (l_tmp != l_start)` loop of get_robust_mutex_list.
`dump` is the call of dump_vma on the state and `rd` the read of a pointer of
the target; the first argument bounds the number of rounds (a list that never
comes back to its start never ends).  Result: `none` when the process ends
(read_remote is fatal on failure) or the bound is met. -/
def get_robust_mutex_list_loop {σ : Type} (rd : σ → Nat → Option Nat)
    (dump : σ → Nat → Nat → Option σ) (l_start : Nat) : Nat → Nat → σ → Option σ
  | 0, _, _ => none
  | fuel + 1, l_tmp, s =>
    match dump s l_tmp sizeof_robust_list with
    | none => none
    | some s1 =>
      match rd s1 (l_tmp + offsetof_robust_list_next) with
      | none => none
      | some next =>
        if next ≠ l_start then get_robust_mutex_list_loop rd dump l_start fuel next s1
        else some s1

/-- The function get_robust_mutex_list from the dump of the head on, for a
head that is not null. -/
def get_robust_mutex_list_walk {σ : Type} (rd : σ → Nat → Option Nat)
    (dump : σ → Nat → Nat → Option σ) (l_head : Nat) (fuel : Nat) (s : σ) : Option (Int × σ) :=
  match dump s l_head sizeof_robust_list_head with
  | none => none
  | some s1 =>
    match rd s1 (l_head + offsetof_robust_list_head_list) with
    | none => none
    | some l_start =>
      (get_robust_mutex_list_loop rd dump l_start fuel l_start s1).map fun s2 => (0, s2)

/-- The function get_robust_mutex_list.  `robust` is what the system call
`get_robust_list` gives for the pid: `none` when it fails, otherwise the
address of the head and the length. -/
def get_robust_mutex_list (PAGESZ : Nat) (robust : Option (Nat × Nat)) (fuel : Nat)
    (di : dump_info) : Option (Int × dump_info) :=
  match robust with
  | none => some (-1, di)
  | some (l_head, len) =>
    if len ≠ sizeof_robust_list_head then some (-1, di)
    else if l_head = 0 then some (0, di)
    else
      get_robust_mutex_list_walk (fun d a => (read_remote d a 8).map le_decode)
        (fun d a n => (dump_vma PAGESZ d a n 0).map Prod.snd) l_head fuel di

/-- What libelf finds in the file of a shared object or an executable when
alloc_sym_data opens it: `none` when there is no section of type `SHT_SYMTAB`
(also when the file cannot be opened), otherwise the symbols of that section,
as in `sym_data`. -/
abbrev symtab_view := List Char → Option (List (Option (List Char × Nat)))

/-- The function store_sym_data (with alloc_sym_data): nothing is done when an
object with the load base `start` is registered already; otherwise the symbol
table of the file is put at the front of the list, and -1 is returned when the
file has none. -/
def store_sym_data (elf_symtab : symtab_view) (di : dump_info) (lib : List Char)
    (start : Nat) : Int × dump_info :=
  if di.sym_data_list.any (fun cur => decide (start = cur.start)) then (0, di)
  else
    match elf_symtab lib with
    | none => (-1, di)
    | some syms =>
      (0, { di with sym_data_list := { start := start, syms := syms } :: di.sym_data_list })

/-- The constant `AT_NULL` of `<elf.h>`. -/
def AT_NULL : Nat := 0

/-- The constant `AT_PHDR` of `<elf.h>`. -/
def AT_PHDR : Nat := 3

/-- The constant `AT_PHNUM` of `<elf.h>`. -/
def AT_PHNUM : Nat := 5

/-- The constant `PT_DYNAMIC` of `<elf.h>`. -/
def PT_DYNAMIC : Nat := 2

/-- The constant `PT_PHDR` of `<elf.h>`. -/
def PT_PHDR : Nat := 6

/-- The constant `DT_NULL` of `<elf.h>`. -/
def DT_NULL : Nat := 0

/-- The constant `DT_DEBUG` of `<elf.h>`. -/
def DT_DEBUG : Nat := 21

/-- The size of `Elf64_Phdr`; `p_type` is at offset 0 and `p_vaddr` at 16. -/
def sizeof_Phdr : Nat := 56

/-- The size of `Elf64_Dyn`; `d_tag` is at offset 0 and `d_un` at 8. -/
def sizeof_Dyn : Nat := 16

/-- The size of `struct r_debug` of `<link.h>`; `r_map` is at offset 8. -/
def sizeof_r_debug : Nat := 40

/-- The size of `struct link_map` of `<link.h>`; `l_addr` is at offset 0,
`l_name` at 8 and `l_next` at 24. -/
def sizeof_link_map : Nat := 40

/-- The function get_atval on the entries `(a_type, a_val)` of the auxiliary
vector; the buffer behind the entries that were read is zero, which reads as
`AT_NULL`. -/
def get_atval : List (Nat × Nat) → Nat → Nat
  | [], _ => 0
  | (a_type, a_val) :: rest, type =>
    if a_type = AT_NULL then 0 else if a_type = type then a_val else get_atval rest type

/-- The dumps of get_so_list and init_from_auxv, which are made when
`dump_auxv_so_list` is set: `if (...dump_auxv_so_list) dump_vma(di, addr, len,
0, ...)`.  `none` when dump_vma does not return. -/
def dump_auxv (PAGESZ : Nat) (di : dump_info) (addr len : Nat) : Option dump_info :=
  if di.cfg.dump_auxv_so_list then (dump_vma PAGESZ di addr len 0).map Prod.snd else some di

/-- The loop `for (i = 0; i < max_ph; i++)` of init_from_auxv with `n` rounds
to go; the state is `found`, `relocation`, `dyn_addr` and the dump context.
`none` when the process ends (read_remote is fatal on failure). -/
def init_from_auxv_phdrs (PAGESZ : Nat) (phdr_addr : Nat) :
    Nat → Nat → Nat → Nat → Nat → dump_info → Option (Nat × Nat × Nat × dump_info)
  | 0, _, found, relocation, dyn_addr, di => some (found, relocation, dyn_addr, di)
  | n + 1, i, found, relocation, dyn_addr, di =>
    match read_remote di (phdr_addr + sizeof_Phdr * i + 0) 4 with
    | none => none
    | some b =>
      match dump_auxv PAGESZ di (phdr_addr + sizeof_Phdr * i + 0) 4 with
      | none => none
      | some di1 =>
        if le_decode b = PT_PHDR then
          match read_remote di1 (phdr_addr + sizeof_Phdr * i + 16) 8 with
          | none => none
          | some rb =>
            match dump_auxv PAGESZ di1 (phdr_addr + sizeof_Phdr * i + 16) 8 with
            | none => none
            | some di2 =>
              init_from_auxv_phdrs PAGESZ phdr_addr n (i + 1) (found ||| 1)
                (sub64 phdr_addr (le_decode rb)) dyn_addr di2
        else if le_decode b = PT_DYNAMIC then
          match read_remote di1 (phdr_addr + sizeof_Phdr * i + 16) 8 with
          | none => none
          | some db =>
            match dump_auxv PAGESZ di1 (phdr_addr + sizeof_Phdr * i + 16) 8 with
            | none => none
            | some di2 => some (found ||| 2, relocation, le_decode db, di2)
        else init_from_auxv_phdrs PAGESZ phdr_addr n (i + 1) found relocation dyn_addr di1

/-- The loop `for (i = 0; ; i++)` of init_from_auxv over the dynamic section,
bounded by its first argument.  Result: the return value of init_from_auxv and
`*debug_ptr` (0 when it is not written). -/
def init_from_auxv_dyn (PAGESZ : Nat) (dyn_addr : Nat) :
    Nat → Nat → dump_info → Option (Int × Nat × dump_info)
  | 0, _, _ => none
  | fuel + 1, i, di =>
    match read_remote di (dyn_addr + sizeof_Dyn * i + 0) 4 with
    | none => none
    | some b =>
      match dump_auxv PAGESZ di (dyn_addr + sizeof_Dyn * i + 0) 4 with
      | none => none
      | some di1 =>
        if le_decode b = DT_NULL then some (5, 0, di1)
        else if le_decode b = DT_DEBUG then
          match read_remote di1 (dyn_addr + sizeof_Dyn * i + 8) 8 with
          | none => none
          | some pb =>
            match dump_auxv PAGESZ di1 (dyn_addr + sizeof_Dyn * i + 8) 8 with
            | none => none
            | some di2 => some (0, le_decode pb, di2)
        else init_from_auxv_dyn PAGESZ dyn_addr fuel (i + 1) di1

/-- The function init_from_auxv: the return value, `*debug_ptr` and the dump
context. -/
def init_from_auxv (PAGESZ : Nat) (auxv : List (Nat × Nat)) (fuel : Nat) (di : dump_info) :
    Option (Int × Nat × dump_info) :=
  let max_ph := get_atval auxv AT_PHNUM
  let phdr_addr := get_atval auxv AT_PHDR
  if phdr_addr = 0 then some (1, 0, di)
  else
    match init_from_auxv_phdrs PAGESZ phdr_addr max_ph 0 0 0 0 di with
    | none => none
    | some (found, relocation, dyn_addr, di1) =>
      if found ≠ 3 then some (3, 0, di1)
      else if dyn_addr = 0 then some (4, 0, di1)
      else init_from_auxv_dyn PAGESZ (add64 dyn_addr relocation) fuel 0 di1

/-- The loop `while (ptr)` of get_so_list over the `link_map` chain, bounded by
its first argument. -/
def get_so_list_loop (PAGESZ : Nat) (elf_symtab : symtab_view) :
    Nat → Nat → dump_info → Option dump_info
  | 0, ptr, di => if ptr = 0 then some di else none
  | fuel + 1, ptr, di =>
    if ptr = 0 then some di
    else
      match dump_auxv PAGESZ di ptr sizeof_link_map with
      | none => none
      | some di1 =>
        match read_remote di1 (ptr + 8) 8 with
        | none => none
        | some nb =>
          let r := alloc_remote_string di1 (le_decode nb)
          let di3 : Option dump_info :=
            match r with
            | (0, some l_name) =>
              match dump_auxv PAGESZ di1 (le_decode nb) l_name.length with
              | none => none
              | some di2 =>
                if l_name ≠ [] then
                  match read_remote di2 (ptr + 0) 8 with
                  | none => none
                  | some ab =>
                    some (store_sym_data elf_symtab di2 (bytes_text l_name) (le_decode ab)).2
                else some di2
            | _ => some di1
          match di3 with
          | none => none
          | some d =>
            match read_remote d (ptr + 24) 8 with
            | none => none
            | some xb => get_so_list_loop PAGESZ elf_symtab fuel (le_decode xb) d

/-- The function get_so_list.  `auxv` is the environment: the entries of
`/proc/<pid>/auxv`, `none` when the file cannot be opened or read. -/
def get_so_list (PAGESZ : Nat) (elf_symtab : symtab_view) (auxv : Option (List (Nat × Nat)))
    (fuel : Nat) (di : dump_info) : Option (Int × dump_info) :=
  match auxv with
  | none => some (-1, di)
  | some entries =>
    match init_from_auxv PAGESZ entries fuel di with
    | none => none
    | some (r, ptr, di1) =>
      if r ≠ 0 then some (-1, di1)
      else if ptr = 0 then some (0, di1)
      else
        match dump_auxv PAGESZ di1 ptr sizeof_r_debug with
        | none => none
        | some di2 =>
          match read_remote di2 (ptr + 8) 8 with
          | none => none
          | some mb => (get_so_list_loop PAGESZ elf_symtab fuel (le_decode mb) di2).map
              fun d => (0, d)

end Corestripper

/-! ## Notions used to state the properties -/

/-- A sequence of positional writes `(offset, bytes)` applied to a file in order. -/
def apply_writes : List (Nat × List Nat) → List Nat → List Nat
  | [], f => f
  | w :: ws, f => apply_writes ws (file_write f w.1 w.2)

/-- The length of a file of length `n` after a sequence of writes. -/
def writes_extent : List (Nat × List Nat) → Nat → Nat
  | [], n => n
  | w :: ws, n => writes_extent ws (if w.2 = [] then n else max n (w.1 + w.2.length))

/-- The byte that a sequence of writes leaves at offset `i`: the one of the
last write that covers `i`, `none` when no write covers it. -/
def writes_lookup : List (Nat × List Nat) → Nat → Option Nat
  | [], _ => none
  | w :: ws, i =>
    match writes_lookup ws i with
    | some v => some v
    | none => if w.1 ≤ i ∧ i < w.1 + w.2.length then some (w.2.getD (i - w.1) 0) else none

/-- What a symbol-map line says about the symbol `symname` when it is read
with the grammar of get_symbol_data: the type character, the core offset and
the size of a line that has three scanned fields, a name after its third
space that equals `symname`, and type `D` or `I`; `none` for any other line. -/
def line_entry (symname line : List Char) : Option (Char × Int × Int) :=
  match sscanf_lx_ld_c (Coreinject.strip_endline (c_str line)),
      locate_name (Coreinject.strip_endline (c_str line)) with
  | some (offset, size, type), some p =>
    if c_str symname = p ∧ (type = 'D' ∨ type = 'I') then
      some (type, long_of_ulong offset, size)
    else none
  | _, _ => none

/-- Whether a line matches the per-line grammar of the symbol map as the
injector checks it: three scanned fields, three spaces before the name, and a
type character `D` or `I`. -/
def line_valid (line : List Char) : Bool :=
  match sscanf_lx_ld_c (Coreinject.strip_endline (c_str line)),
      locate_name (Coreinject.strip_endline (c_str line)) with
  | some (_, _, type), some _ => type = 'D' || type = 'I'
  | _, _ => false

/-- Store an entry in the record of its type ("last entry wins"). -/
def set_entry (symname : List Char) (e : Option (Char × Int × Int))
    (st : Coreinject.symbol_data × Coreinject.symbol_data) :
    Coreinject.symbol_data × Coreinject.symbol_data :=
  match e with
  | none => st
  | some (type, offset, size) =>
    if type = 'D' then
      ({ st.1 with core_offset := offset, size := size, name := some symname }, st.2)
    else
      (st.1, { st.2 with core_offset := offset, size := size, name := some symname })

/-- The lines of a text file: the runs of characters between newlines; a last
line need not end in a newline. -/
def text_lines : List Char → List (List Char)
  | [] => []
  | c :: s =>
    if c = '\n' then [] :: text_lines s
    else
      match text_lines s with
      | [] => [[c]]
      | l :: ls => (c :: l) :: ls

/-- The text file made of the given lines, each ended by a newline. -/
def unlines : List (List Char) → List Char
  | [] => []
  | l :: ls => l ++ '\n' :: unlines ls

/-- The core offset and the size of the last line in the list that is a row
of the given type for `symname`; `none` when there is no such line. -/
def last_entry (symname : List Char) (type : Char) : List (List Char) → Option (Int × Int)
  | [] => none
  | l :: ls =>
    match last_entry symname type ls with
    | some e => some e
    | none =>
      match line_entry symname l with
      | some (t, o, s) => if t = type then some (o, s) else none
      | none => none

/-- The vma entry that vma_cb makes of a program header. -/
def vma_of (p : Corestripper.GElf_Phdr) : Corestripper.core_vma :=
  { start := p.p_vaddr
    file_end := Corestripper.add64 p.p_vaddr p.p_filesz
    mem_end := Corestripper.add64 p.p_vaddr p.p_memsz
    file_off := p.p_offset
    flags := p.p_flags }

/-- A `PT_LOAD` program header, whatever its flags. -/
def is_load (p : Corestripper.GElf_Phdr) : Bool :=
  p.p_type = Corestripper.PT_LOAD

/-- A `PT_LOAD` program header with `PF_R` set: what parse_vma_info collects. -/
def readable_load (p : Corestripper.GElf_Phdr) : Bool :=
  p.p_type = Corestripper.PT_LOAD && (p.p_flags &&& Corestripper.PF_R) = Corestripper.PF_R

/-- The maximum of `p_offset + p_filesz` over the selected program headers
(0 when none is selected). -/
def max_end (sel : Corestripper.GElf_Phdr → Bool) : List Corestripper.GElf_Phdr → Nat
  | [] => 0
  | p :: ps => if sel p then max (p.p_offset + p.p_filesz) (max_end sel ps) else max_end sel ps

/-- The minimum of `p_offset` over the selected program headers (`ULONG_MAX`
when none is selected). -/
def min_off (sel : Corestripper.GElf_Phdr → Bool) : List Corestripper.GElf_Phdr → Nat
  | [] => Corestripper.ULONG_MAX
  | p :: ps => if sel p then min p.p_offset (min_off sel ps) else min_off sel ps

/-- The number of unescaped `%` specifiers of a format string, read from left
to right: `%%` is one escaped percent and no specifier. -/
def count_specifiers : List Char → Nat
  | [] => 0
  | c :: rest =>
    if c = '%' then
      match rest with
      | d :: rest2 =>
        if d = '%' then count_specifiers rest2 else 1 + count_specifiers (d :: rest2)
      | [] => 1
    else count_specifiers rest

/-- The calls `(fmt_offset, len, es_index)` of print_fmt_token that
dump_data_file_text makes for a format string, in order: the function is run
with a call that only records its arguments. -/
def text_calls (fmt_string : List Char) : List (Nat × Nat × Int) :=
  (Corestripper.dump_data_file_text_calls
    (fun (log : List (Nat × Nat × Int)) off len idx => some (log ++ [(off, len, idx)]))
    fmt_string []).getD []

/-- Running a list of calls `(fmt_offset, len, es_index)` on a state. -/
def run_calls {σ : Type} (emit : σ → Nat → Nat → Int → Option σ)
    (calls : List (Nat × Nat × Int)) (s : σ) : Option σ :=
  calls.foldlM (fun t c => emit t c.1 c.2.1 c.2.2) s

/-- The token of a call: the slice of the format string that it names. -/
def token_of (fmt_string : List Char) (c : Nat × Nat × Int) : List Char :=
  (fmt_string.drop c.1).take c.2.1

/-- The value that a token is rendered against: nothing for the leading token
(index -1); for the token of an integer element the `int` in the element's
data, for the token of a string element the NUL-terminated string (of at most
4095 bytes) at the pointer in the element's data, both read from the target's
memory.  `none` when the element or its memory is missing, or the element is
of another kind. -/
def token_arg (di : Corestripper.dump_info) (es : List Corestripper.dump_data_elem)
    (idx : Int) : Option Corestripper.printf_arg :=
  if idx = -1 then some Corestripper.printf_arg.none
  else if idx < 0 then none
  else
    match es.get? idx.toNat with
    | none => none
    | some e =>
      match Corestripper.pread_mem di.mem e.data_ptr e.length with
      | none => none
      | some data =>
        if e.fmt_type = Corestripper.PA_INT then
          (Corestripper.load_le data 4).map fun v =>
            Corestripper.printf_arg.int (Corestripper.signed_of 32 v)
        else if e.fmt_type = Corestripper.PA_STRING then
          (Corestripper.load_le data 8).bind fun p =>
            if p = 0 then none
            else (Corestripper.alloc_remote_string_scan di.mem 4095 p).map fun s =>
              Corestripper.printf_arg.str (Corestripper.bytes_text s)
        else none

/-- The bytes that the host formatter gives for a token against its value;
an empty token gives nothing. -/
def render_token (asprintf : Corestripper.host_printf) (di : Corestripper.dump_info)
    (fmt_string : List Char) (es : List Corestripper.dump_data_elem) (c : Nat × Nat × Int) :
    Option (List Nat) :=
  if c.2.1 = 0 then some []
  else
    (token_arg di es c.2.2).bind fun a =>
      (asprintf (token_of fmt_string c) a).map fun t => Corestripper.text_bytes (c_str t)

/-- Whether a program header passes the filter of a header walk: its `p_type`
is the wanted one and `(p_flags & wanted_flags) == wanted_flags`. -/
def phdr_matches (type p : Corestripper.GElf_Phdr) : Bool :=
  p.p_type = type.p_type && (p.p_flags &&& type.p_flags) = type.p_flags

/-- Visiting a list of headers in order with a visitor, up to and including
the first header for which the visitor returns nonzero: the headers visited,
each with the value the visitor returned, and the state after the last visit. -/
def visit_headers {σ : Type} (callback : σ → Corestripper.GElf_Phdr → Int × σ) :
    List Corestripper.GElf_Phdr → σ → List (Corestripper.GElf_Phdr × Int) × σ
  | [], s => ([], s)
  | p :: ps, s =>
    if (callback s p).1 ≠ 0 then ([(p, (callback s p).1)], (callback s p).2)
    else ((p, 0) :: (visit_headers callback ps (callback s p).2).1,
      (visit_headers callback ps (callback s p).2).2)

/-- The dump context after `2 * k` pages of the source have been imported into
the core, the file position at the end of them. -/
def import_pages (PAGESZ : Nat) (src : List Nat) (di : Corestripper.dump_info) (k : Nat) :
    Corestripper.dump_info :=
  { di with core := di.core ++ src.take (2 * PAGESZ * k), core_pos := di.core_pos + 2 * PAGESZ * k }

/-- Whether a directory entry is not hidden: its name does not start with a dot. -/
def visible (de : List Char) : Bool := de.head? ≠ some '.'

/-- The pid that a directory entry names, read as get_task_list reads it. -/
def entry_pid (de : List Char) : Option Int := (Corestripper.scan_d de).map Prod.fst

/-- The positions of the unescaped `%` specifiers of a format string whose
first character has position `i`, read from left to right (`%%` is an escaped
percent). -/
def specifier_positions_from : List Char → Nat → List Nat
  | [], _ => []
  | c :: rest, i =>
    if c = '%' then
      match rest with
      | d :: rest2 =>
        if d = '%' then specifier_positions_from rest2 (i + 2)
        else i :: specifier_positions_from (d :: rest2) (i + 1)
      | [] => [i]
    else specifier_positions_from rest (i + 1)

/-- The positions of the unescaped `%` specifiers of a format string. -/
def specifier_positions (fmt_string : List Char) : List Nat :=
  specifier_positions_from fmt_string 0

/-- The slices `(offset, length)` between consecutive boundaries, from the
position `a` on. -/
def slices_between : Nat → List Nat → List (Nat × Nat)
  | _, [] => []
  | a, b :: bs => (a, b - a) :: slices_between b bs

/-- The rows of a symbol map as get_symbol_data reads them: the pieces that
`fgets` with a buffer of 128 bytes delivers, one after the other (a line that
fits the buffer is one row). -/
def map_rows_read : Nat → List Char → List (List Char)
  | 0, _ => []
  | fuel + 1, f =>
    match fgets 128 f with
    | none => []
    | some (line, rest) => line :: map_rows_read fuel rest

/-- The stack dump of one task: from its stack pointer to the end of the vma
that holds it, cut at `max_stack_size` when that is set; nothing when the stack
pointer or its vma cannot be found. -/
def dump_task_stack (PAGESZ : Nat) (proc_stat : Int → Option (List Char))
    (di : Corestripper.dump_info) (pid : Int) : Option Corestripper.dump_info :=
  match Corestripper.get_stack_pointer (proc_stat pid) with
  | none => some di
  | some sp =>
    match Corestripper.get_vma_pos di sp with
    | none => some di
    | some v =>
      (Corestripper.dump_vma PAGESZ di sp
        (if di.cfg.stack_max_stack_size ≠ 0 ∧
            Corestripper.sub64 v.file_end sp > di.cfg.stack_max_stack_size
          then di.cfg.stack_max_stack_size else Corestripper.sub64 v.file_end sp) 0).map Prod.snd

/-- The name of a `link_map` entry as get_so_list fetches it: the string at the
address (at most 4095 bytes), `none` when the address is null or the string
cannot be read. -/
def link_name (mem : Nat → Option Nat) (addr : Nat) : Option (List Nat) :=
  if addr = 0 then none else Corestripper.alloc_remote_string_scan mem 4095 addr

/-- The `link_map` chain of the target from the address `ptr` on: for every
entry its load base `l_addr` and its name.  `none` when a pointer of an entry
cannot be read or the chain is longer than the bound. -/
def link_map_chain (mem : Nat → Option Nat) : Nat → Nat → Option (List (Nat × Option (List Nat)))
  | 0, ptr => if ptr = 0 then some [] else none
  | fuel + 1, ptr =>
    if ptr = 0 then some []
    else
      match Corestripper.pread_mem mem (ptr + 8) 8, Corestripper.pread_mem mem (ptr + 0) 8,
          Corestripper.pread_mem mem (ptr + 24) 8 with
      | some nb, some ab, some xb =>
        (link_map_chain mem fuel (Corestripper.le_decode xb)).map fun es =>
          (Corestripper.le_decode ab, link_name mem (Corestripper.le_decode nb)) :: es
      | _, _, _ => none

/-- The symbol objects after a `link_map` entry has been looked at: an entry
with a name that is not empty, whose load base is not registered yet and whose
file has a symbol table, puts a new object with that load base at the front of
the list; any other entry leaves the list as it is. -/
def register_entry (elf_symtab : Corestripper.symtab_view) (l : List Corestripper.sym_data)
    (e : Nat × Option (List Nat)) : List Corestripper.sym_data :=
  match e.2 with
  | none => l
  | some name =>
    if name = [] then l
    else if l.any (fun cur => decide (e.1 = cur.start)) then l
    else
      match elf_symtab (Corestripper.bytes_text name) with
      | none => l
      | some syms => { start := e.1, syms := syms } :: l

/-- The `link_map` chain that get_so_list walks: the chain from the first entry
`r_map` of the `r_debug` structure that init_from_auxv finds through the
auxiliary vector; empty when there is no such structure.  `none` when the
structure or an entry cannot be read or the chain is longer than the bound. -/
def link_maps (PAGESZ : Nat) (entries : List (Nat × Nat)) (fuel : Nat)
    (di : Corestripper.dump_info) : Option (List (Nat × Option (List Nat))) :=
  match Corestripper.init_from_auxv PAGESZ entries fuel di with
  | none => none
  | some (_, ptr, _) =>
    if ptr = 0 then some []
    else
      match Corestripper.pread_mem di.mem (ptr + 8) 8 with
      | none => none
      | some mb => link_map_chain di.mem fuel (Corestripper.le_decode mb)

/-! ## Example inputs -/

namespace Example

/-- A symbol map with an `I` row and a `D` row for the identifier `x`. -/
def map_x : List Char := "10 8 D x\n0 4 I x\n".toList

/-- A binary dump `dumps/x` of six bytes: too short for the direct payload of
`map_x`, long enough for its indirect data. -/
def dump_short : List Nat := [1, 2, 3, 4, 5, 6]

/-- A binary dump `dumps/x` of twelve bytes: four of indirect data, eight of
payload. -/
def dump_x : List Nat := [1, 2, 3, 4, 10, 11, 12, 13, 14, 15, 16, 17]

/-- A core of 32 zero bytes. -/
def core_zero : List Nat := List.replicate 32 0

/-- An injector command line with two binary dumps. -/
def argv_two : List (List Char) :=
  ["coreinject".toList, "core".toList, "symbol.map".toList, "dumps/a".toList, "dumps/x".toList]

/-- A file system in which `dumps/x` is `dump_x` and nothing else can be opened. -/
def fopen_x (path : List Char) : Option (List Nat) :=
  if path = "dumps/x".toList then some dump_x else none

/-- The loadable segment of scenario 3 of the specification: virtual
addresses `0x400000 .. 0x401000` at file offset `0x1000`. -/
def vma_text : Corestripper.core_vma :=
  { start := 0x400000, file_end := 0x401000, mem_end := 0x401000, file_off := 0x1000,
    flags := 4 }

/-- A dump context with the segment `vma_text` and a target whose memory holds
the bytes `00 01 … 0F` at `0x400100`. -/
def di_buf : Corestripper.dump_info :=
  { vma := [vma_text]
    mem := fun a => if 0x400100 ≤ a ∧ a < 0x400110 then some (a - 0x400100) else none }

/-- The descriptor of scenario 3: identifier `buf`, direct data at `0x400100`,
length `0x10`. -/
def dd_buf : Corestripper.mcd_dump_data :=
  { ident := some "buf".toList
    es := [{ data_ptr := 0x400100, length := 0x10, flags := 0 }] }

/-- The stripped core of scenario 3 before injection: `0x2000` bytes, all
holes past the headers (taken as zero throughout). -/
def core_stripped : List Nat := List.replicate 0x2000 0

/-- A symbol map with two `D` rows for the identifier `x`. -/
def map_two_d : List Char := "10 8 D x\n20 8 D x\n".toList

/-- An identifier of 130 characters. -/
def long_ident : List Char := List.replicate 130 'a'

/-- A symbol map of one line: a `D` row for `long_ident`. -/
def map_long : List Char := "10 8 D ".toList ++ long_ident ++ ['\n']

/-- A line that does not match the grammar of the symbol map: 127 characters
`z` followed by the text `1100 8 D buf`. -/
def junk_line : List Char := List.replicate 127 'z' ++ "1100 8 D buf".toList

/-- A symbol map with a comment line, a blank line and a row of unknown type
around one `D` row for `buf`. -/
def map_noise : List Char := "# symbols\n\n1100 8 D buf\n1100 8 X buf\n".toList

/-- A readable `PT_LOAD` header: file offset `0x1000`, file size `0x1000`. -/
def phdr_text : Corestripper.GElf_Phdr :=
  { p_type := 1, p_flags := 5, p_offset := 0x1000, p_vaddr := 0x400000, p_filesz := 0x1000,
    p_memsz := 0x1000 }

/-- A `PT_LOAD` header without `PF_R` (a mapping without access rights whose
pages are in the core): file offset `0x2000`, file size `0x1000`. -/
def phdr_noaccess : Corestripper.GElf_Phdr :=
  { p_type := 1, p_flags := 0, p_offset := 0x2000, p_vaddr := 0x600000, p_filesz := 0x1000,
    p_memsz := 0x1000 }

/-- A readable `PT_LOAD` header with nothing in the file: file offset
`0x1000`, file size 0. -/
def phdr_empty : Corestripper.GElf_Phdr :=
  { p_type := 1, p_flags := 4, p_offset := 0x1000, p_vaddr := 0x400000, p_filesz := 0,
    p_memsz := 0x1000 }

/-- A source core in which libelf finds the header `phdr_text`. -/
def elf_one : Corestripper.elf_view := fun _ => some [some phdr_text]

/-- A source core in which libelf finds `phdr_text` and `phdr_noaccess`. -/
def elf_two : Corestripper.elf_view := fun _ => some [some phdr_text, some phdr_noaccess]

/-- A source core in which libelf finds the header `phdr_empty`. -/
def elf_empty : Corestripper.elf_view := fun _ => some [some phdr_empty]

/-- A streamed source core of two pages, every byte 7. -/
def src_two_pages : List Nat := List.replicate 0x2000 7

/-- A streamed source core of three pages, every byte 7. -/
def src_three_pages : List Nat := List.replicate 0x3000 7

/-- A streamed source core of two pages, every byte `0xff`. -/
def src_ones : List Nat := List.replicate 0x2000 0xff

/-- The first segment of scenario 2 of the specification: `PT_LOAD | PF_R`,
virtual address `0x400000`, length `0x1000`, file offset `0x1000`. -/
def phdr_seg1 : Corestripper.GElf_Phdr :=
  { p_type := 1, p_flags := 4, p_offset := 0x1000, p_vaddr := 0x400000, p_filesz := 0x1000,
    p_memsz := 0x1000 }

/-- The second segment of scenario 2: `PT_LOAD | PF_R`, virtual address
`0x600000`, length `0x2000`, file offset `0x2000`. -/
def phdr_seg2 : Corestripper.GElf_Phdr :=
  { p_type := 1, p_flags := 4, p_offset := 0x2000, p_vaddr := 0x600000, p_filesz := 0x2000,
    p_memsz := 0x2000 }

/-- A source core in which libelf finds the two segments of scenario 2. -/
def elf_scenario2 : Corestripper.elf_view := fun _ => some [some phdr_seg1, some phdr_seg2]

/-- A streamed source core of four pages, every byte 7. -/
def src_four_pages : List Nat := List.replicate 0x4000 7

/-- The stack segment of scenario 5 of the specification: virtual addresses
`0x7ffff0000000 .. 0x7ffff0100000`, here at file offset `0x5000`. -/
def vma_stack : Corestripper.core_vma :=
  { start := 0x7ffff0000000, file_end := 0x7ffff0100000, mem_end := 0x7ffff0100000,
    file_off := 0x5000, flags := 6 }

/-- The file `/proc/1234/stat` of a task whose stack pointer (item 29) is
`0x7ffff0080000`. -/
def stat_1234 : List Char :=
  ("1234 (victim) S 1 1234 1234 0 -1 4194304 120 0 0 0 1 0 0 0 20 0 1 0 5000 10485760 256 " ++
    "18446744073709551615 4194304 4198400 140737220968448 140737220444160 4195000 0 0 0 0 " ++
    "0 0 0 17 0 0 0 0 0 0 0 0 0 0 0 0 0 0\n").toList

/-- The stat files of scenario 5: one task, 1234. -/
def proc_stat_1234 (pid : Int) : Option (List Char) :=
  if pid = 1234 then some stat_1234 else none

/-- The dump context of scenario 5: the stack segment, one task, a target
whose byte at address `a` is `a % 256`, and `max_stack_size = 0x1000`. -/
def di_stack : Corestripper.dump_info :=
  { vma := [vma_stack]
    mem := fun a => some (a % 256)
    cfg := { stack_max_stack_size := 0x1000 }
    tsks := [1234] }

/-- A core in which libelf finds no notes. -/
def notes_none : Corestripper.note_view := fun _ _ => none

/-- A memory made of regions `(address, bytes)`; other addresses cannot be read. -/
def mem_regions : List (Nat × List Nat) → Nat → Option Nat
  | [], _ => none
  | (base, bytes) :: rest, a =>
    if base ≤ a ∧ a < base + bytes.length then bytes.get? (a - base) else mem_regions rest a

/-- Decimal digits of an `int`, as `%d` prints them. -/
def print_d (v : Int) : List Char :=
  if v < 0 then '-' :: Nat.toDigits 10 (-v).toNat else Nat.toDigits 10 v.toNat

/-- The part of the host `printf` that the examples use: literal text, `%%`,
`%d` for an `int` and `%s` for a string; everything else fails. -/
def printf_model : List Char → Corestripper.printf_arg → Option (List Char)
  | [], _ => some []
  | c :: rest, a =>
    if c = '%' then
      match rest with
      | [] => none
      | d :: rest2 =>
        if d = '%' then (printf_model rest2 a).map ('%' :: ·)
        else if d = 'd' then
          match a with
          | Corestripper.printf_arg.int v =>
            (printf_model rest2 Corestripper.printf_arg.none).map (print_d v ++ ·)
          | _ => none
        else if d = 's' then
          match a with
          | Corestripper.printf_arg.str s =>
            (printf_model rest2 Corestripper.printf_arg.none).map (c_str s ++ ·)
          | _ => none
        else none
    else (printf_model rest a).map (c :: ·)

/-- The format string of the text dump example. -/
def fmt_msg : List Char := "x=%d y=%s\n".toList

/-- The target of the text dump example: the `int` 42 at 0x400100, a pointer to
0x400200 at 0x400108, and the string `hi` at 0x400200. -/
def di_msg : Corestripper.dump_info :=
  { mem := mem_regions [(0x400100, [42, 0, 0, 0]), (0x400108, [0, 2, 0x40, 0, 0, 0, 0, 0]),
      (0x400200, [104, 105, 0])] }

/-- The text descriptor `msg`: an `int` element and a string element. -/
def dd_msg : Corestripper.mcd_dump_data :=
  { ident := some "msg".toList, fmt := some fmt_msg,
    es := [ { data_ptr := 0x400100, length := 4, flags := 0, fmt_type := Corestripper.PA_INT },
            { data_ptr := 0x400108, length := 8, flags := 0,
              fmt_type := Corestripper.PA_STRING } ] }

/-- The descriptor `msg` with the first element only. -/
def dd_msg_short : Corestripper.mcd_dump_data :=
  { dd_msg with es := dd_msg.es.take 1 }

/-- The bytes of a descriptor in the example layout: seven words of 8 bytes. -/
def encode_dd (r : Corestripper.raw_dump_data) : List Nat :=
  Corestripper.le_encode 8 r.ident ++ Corestripper.le_encode 8 r.fmt ++
  Corestripper.le_encode 8 r.es ++ Corestripper.le_encode 8 r.es_n ++
  Corestripper.le_encode 8 r.type ++ Corestripper.le_encode 8 r.dump_scope.toNat ++
  Corestripper.le_encode 8 r.next

/-- The word number `i` of a record of 8-byte words. -/
def word_at (bytes : List Nat) (i : Nat) : Nat :=
  Corestripper.le_decode ((bytes.drop (8 * i)).take 8)

/-- An example of the descriptor layout: version 1, `MCD_BIN = 0`, every field
of a descriptor and of an element a little-endian word of 8 bytes. -/
def abi_words : Corestripper.dump_data_abi :=
  { DUMP_DATA_VERSION := 1, MCD_BIN := 0, sizeof_dd := 56,
    decode_dd := fun b =>
      { ident := word_at b 0, fmt := word_at b 1, es := word_at b 2, es_n := word_at b 3,
        type := word_at b 4, dump_scope := Corestripper.signed_of 64 (word_at b 5),
        next := word_at b 6 },
    sizeof_es := 32,
    decode_es := fun b =>
      { data_ptr := word_at b 0, length := word_at b 1, flags := word_at b 2,
        fmt_type := word_at b 3 } }

/-- The binary descriptor `buf` of the examples, at 0x600200: one direct
element of 16 bytes at 0x400100, end of the list. -/
def raw_buf : Corestripper.raw_dump_data :=
  { ident := 0x600310, es := 0x600400, es_n := 1, type := 0 }

/-- A text descriptor `msg` without format string, followed by `buf`. -/
def raw_msg_nofmt : Corestripper.raw_dump_data :=
  { ident := 0x600300, type := 1, next := 0x600200 }

/-- A descriptor `msg` of scope 5, followed by `buf`. -/
def raw_msg_scope5 : Corestripper.raw_dump_data :=
  { ident := 0x600300, type := 1, dump_scope := 5, next := 0x600200 }

/-- The symbol table of the target of the examples. -/
def syms_walk : Corestripper.sym_data :=
  { start := 0,
    syms := [none, some ("mcd_dump_data_version".toList, 0x600000),
      some ("mcd_dump_data_head".toList, 0x600008)] }

/-- A target with version 1 and a list of two descriptors, `first` at 0x600100
and `buf` at 0x600200; the segment `[0x400000, 0x401000)` holds the 16 bytes
`00 .. 0F` at 0x400100; the configured scope is 0. -/
def di_walk (first : Corestripper.raw_dump_data) : Corestripper.dump_info :=
  { vma := [vma_text], sym_data_list := [syms_walk],
    mem := mem_regions [(0x600000, [1, 0, 0, 0]),
      (0x600008, Corestripper.le_encode 8 0x600100),
      (0x600100, encode_dd first), (0x600200, encode_dd raw_buf),
      (0x600300, [109, 115, 103, 0]), (0x600310, [98, 117, 102, 0]),
      (0x600400, Corestripper.le_encode 8 0x400100 ++ Corestripper.le_encode 8 0x10 ++
        Corestripper.le_encode 8 0 ++ Corestripper.le_encode 8 0),
      (0x400100, [0, 1, 2, 3, 4, 5, 6, 7, 8, 9, 10, 11, 12, 13, 14, 15])] }

/-- An environment in which every file under `dumps` can be opened. -/
def fopen_ok (_ : List Char) : Option Int := none

/-- An environment in which `dumps/msg` cannot be opened (`EACCES`). -/
def fopen_no_msg (ident : List Char) : Option Int :=
  if ident = "msg".toList then some 13 else none

/-- A binary descriptor `ptr` whose one element is indirect: the pointer at
0x400108 of the text dump example leads to the 3 bytes at 0x400200. -/
def dd_ptr : Corestripper.mcd_dump_data :=
  { ident := some "ptr".toList,
    es := [ { data_ptr := 0x400108, length := 3, flags := Corestripper.MCD_DATA_PTR_INDIRECT } ] }

/-- A target with the symbols `syms` at load base 0, the version word `version`
at 0x600000 and the list head `head` at 0x600008. -/
def di_entry (syms : List (Option (List Char × Nat))) (version head : Nat) :
    Corestripper.dump_info :=
  { sym_data_list := [ { start := 0, syms := syms } ],
    mem := mem_regions [(0x600000, Corestripper.le_encode 4 version),
      (0x600008, Corestripper.le_encode 8 head)] }

/-- The two symbols of the application contract. -/
def syms_both : List (Option (List Char × Nat)) :=
  [some ("mcd_dump_data_version".toList, 0x600000), some ("mcd_dump_data_head".toList, 0x600008)]

/-- A `PT_NOTE` program header. -/
def phdr_note : Corestripper.GElf_Phdr :=
  { p_type := Corestripper.PT_NOTE, p_flags := 4, p_offset := 0x200, p_vaddr := 0,
    p_filesz := 0x100, p_memsz := 0 }

/-- A visitor that counts its visits and asks to stop at a header that can be
written (`PF_W`). -/
def stop_at_writable (n : Nat) (p : Corestripper.GElf_Phdr) : Int × Nat :=
  (if p.p_flags &&& 2 = 2 then 1 else 0, n + 1)

/-- A `PT_LOAD` header that can be read and written. -/
def phdr_rw : Corestripper.GElf_Phdr :=
  { p_type := 1, p_flags := 6, p_offset := 0x3000, p_vaddr := 0x700000, p_filesz := 0x1000,
    p_memsz := 0x1000 }

/-- A core in which libelf finds a note header and three `PT_LOAD` headers, the
second of which can be written. -/
def elf_four : Corestripper.elf_view :=
  fun _ => some [some phdr_note, some phdr_text, some phdr_rw, some phdr_seg2]

/-- A core in which libelf finds no ELF file, whatever has been imported. -/
def elf_none : Corestripper.elf_view := fun _ => none

/-- The entries of a task directory with the two tasks 1234 and 1235. -/
def task_dir : List (List Char) := [".".toList, "..".toList, "1234".toList, "1235".toList]

/-- The same directory after a third task has come. -/
def task_dir_grown : List (List Char) := task_dir ++ ["1236".toList]

/-- A target whose every byte can be read and is 1. -/
def di_ones : Corestripper.dump_info := { mem := fun _ => some 1 }

/-- A symbol map whose only row for the identifier `z` has size 0. -/
def map_z : List Char := "10 8 D x\n20 0 D z\n".toList

/-- An injector command line with two binary dumps, `dumps/y` and `dumps/z`. -/
def argv_yz : List (List Char) :=
  ["coreinject".toList, "core".toList, "symbol.map".toList, "dumps/y".toList, "dumps/z".toList]

/-- A file system in which every binary dump is the six bytes of `dump_short`. -/
def fopen_any (_ : List Char) : Option (List Nat) := some dump_short

/-- The dump context of scenario 5 with two tasks and `first_thread_only` set. -/
def di_first : Corestripper.dump_info :=
  { di_stack with
    cfg := { di_stack.cfg with stack_first_thread_only := true }, tsks := [1233, 1234] }

/-- A note segment with a note of another type and then the `NT_PRSTATUS` note
of the task 1234. -/
def notes_1234 : Corestripper.note_view := fun _ _ => some [some (5, 0), some (1, 1234)]

/-- The pointers of a target with a robust list of one node: the head at
0x1000 points to the node at 0x2000, which points back to the head. -/
def robust_one (a : Nat) : Option Nat :=
  if a = 0x1000 then some 0x2000 else if a = 0x2000 then some 0x1000 else none

/-- A dump that only records its request `(address, length)`. -/
def record_dump (log : List (Nat × Nat)) (a n : Nat) : Option (List (Nat × Nat)) :=
  some (log ++ [(a, n)])

/-- A target with the robust list of one node in its memory. -/
def di_robust_one : Corestripper.dump_info :=
  { mem := mem_regions [(0x1000, Corestripper.le_encode 8 0x2000),
      (0x2000, Corestripper.le_encode 8 0x1000)] }

/-- The auxiliary vector of the example target: two program headers at 0x400040. -/
def auxv_app : List (Nat × Nat) := [(3, 0x400040), (5, 2), (0, 0)]

/-- The memory of the example target, as far as get_so_list reads it: a
`PT_PHDR` and a `PT_DYNAMIC` program header, a dynamic section with a
`DT_DEBUG` entry, the `r_debug` structure at 0x7000, and a `link_map` chain of
two entries: the executable (load base 0, empty name) at 0x8000 and the shared
object `libx.so` (load base 0x7f0000000000) at 0x8100. -/
def di_app : Corestripper.dump_info :=
  { mem := mem_regions [
      (0x400040, Corestripper.le_encode 4 6), (0x400050, Corestripper.le_encode 8 0x400040),
      (0x400078, Corestripper.le_encode 4 2), (0x400088, Corestripper.le_encode 8 0x600e00),
      (0x600e00, Corestripper.le_encode 4 21), (0x600e08, Corestripper.le_encode 8 0x7000),
      (0x7008, Corestripper.le_encode 8 0x8000),
      (0x8000, Corestripper.le_encode 8 0), (0x8008, Corestripper.le_encode 8 0x9000),
      (0x8018, Corestripper.le_encode 8 0x8100),
      (0x8100, Corestripper.le_encode 8 0x7f0000000000),
      (0x8108, Corestripper.le_encode 8 0x9010), (0x8118, Corestripper.le_encode 8 0),
      (0x9000, [0]), (0x9010, [108, 105, 98, 120, 46, 115, 111, 0])] }

/-- The symbol tables of the files of the example: the executable `/bin/app`
defines `app_state`, the shared object `libx.so` defines
`mcd_dump_data_version`. -/
def symtab_app (file : List Char) : Option (List (Option (List Char × Nat))) :=
  if file = "libx.so".toList then some [some ("mcd_dump_data_version".toList, 0x4000)]
  else if file = "/bin/app".toList then some [some ("app_state".toList, 0x601000)]
  else none

end Example

end Minicoredumper

namespace Minicoredumper

/-! ## Files: what a positional write does -/

theorem file_write_length (f : List Nat) (pos : Nat) (buf : List Nat) :
    (file_write f pos buf).length =
      if buf = [] then f.length else max f.length (pos + buf.length) := by
  unfold file_write
  split
  · rfl
  · simp only [List.length_append, List.length_take, List.length_replicate, List.length_drop]
    omega

theorem file_write_getD (f : List Nat) (pos : Nat) (buf : List Nat) (i : Nat) :
    (file_write f pos buf).getD i 0 =
      if pos ≤ i ∧ i < pos + buf.length then buf.getD (i - pos) 0 else f.getD i 0 := by
  unfold file_write
  split
  · next h =>
    subst h
    have : ¬ (pos ≤ i ∧ i < pos + ([] : List Nat).length) := by simp
    rw [if_neg this]
  · next h =>
    have hlen : (List.take pos f ++ List.replicate (pos - f.length) 0).length = pos := by
      simp only [List.length_append, List.length_take, List.length_replicate]; omega
    rw [List.getD_eq_getElem?_getD, List.getD_eq_getElem?_getD, List.getD_eq_getElem?_getD]
    by_cases h1 : i < pos
    · have hc : ¬ (pos ≤ i ∧ i < pos + buf.length) := by omega
      rw [if_neg hc, List.append_assoc, List.getElem?_append_left (by omega)]
      by_cases h2 : i < f.length
      · rw [List.getElem?_append_left (by simp; omega), List.getElem?_take_of_lt h1]
      · rw [List.getElem?_append_right (by simp; omega), List.getElem?_replicate]
        rw [List.getElem?_eq_none (by omega)]
        split <;> rfl
    · by_cases h3 : i < pos + buf.length
      · have hc : (pos ≤ i ∧ i < pos + buf.length) := by omega
        rw [if_pos hc, List.getElem?_append_left (by simp; omega),
          List.getElem?_append_right (by omega), hlen]
      · have hc : ¬ (pos ≤ i ∧ i < pos + buf.length) := by omega
        rw [if_neg hc, List.getElem?_append_right (by simp; omega), List.getElem?_drop]
        congr 2
        simp only [List.length_append, List.length_take, List.length_replicate]
        omega

/-- Two files of the same length that read the same at every offset are equal. -/
theorem file_ext (a b : List Nat) (hl : a.length = b.length)
    (h : ∀ i, a.getD i 0 = b.getD i 0) : a = b := by
  apply List.ext_getElem hl
  intro i h1 h2
  have := h i
  simpa [List.getD_eq_getElem?_getD, List.getElem?_eq_getElem h1, List.getElem?_eq_getElem h2]
    using this

theorem file_write_append (f buf : List Nat) : file_write f f.length buf = f ++ buf := by
  apply file_ext
  · rw [file_write_length]; split
    · next h => simp [h]
    · simp
  · intro i
    rw [file_write_getD, List.getD_eq_getElem?_getD, List.getD_eq_getElem?_getD,
      List.getD_eq_getElem?_getD]
    by_cases h1 : i < f.length
    · rw [if_neg (by omega), List.getElem?_append_left h1]
    · rw [List.getElem?_append_right (by omega)]
      split
      · rfl
      · rw [List.getElem?_eq_none (by omega), List.getElem?_eq_none (by omega)]

theorem apply_writes_append (ws vs : List (Nat × List Nat)) (f : List Nat) :
    apply_writes (ws ++ vs) f = apply_writes vs (apply_writes ws f) := by
  induction ws generalizing f with
  | nil => rfl
  | cons w ws ih => simp [apply_writes, ih]

theorem writes_extent_eq (ws : List (Nat × List Nat)) (n : Nat) :
    writes_extent ws n = max n (writes_extent ws 0) := by
  induction ws generalizing n with
  | nil => simp [writes_extent]
  | cons w ws ih =>
    simp only [writes_extent]
    rw [ih, ih (if w.2 = [] then 0 else max 0 (w.1 + w.2.length))]
    split <;> omega

theorem apply_writes_length (ws : List (Nat × List Nat)) (f : List Nat) :
    (apply_writes ws f).length = writes_extent ws f.length := by
  induction ws generalizing f with
  | nil => rfl
  | cons w ws ih => simp only [apply_writes, writes_extent, ih, file_write_length]

theorem apply_writes_getD (ws : List (Nat × List Nat)) (f : List Nat) (i : Nat) :
    (apply_writes ws f).getD i 0 = (writes_lookup ws i).getD (f.getD i 0) := by
  induction ws generalizing f with
  | nil => rfl
  | cons w ws ih =>
    simp only [apply_writes, writes_lookup, ih, file_write_getD]
    cases writes_lookup ws i with
    | some v => rfl
    | none => split <;> rfl

/-- Applying the same sequence of writes a second time changes nothing. -/
theorem apply_writes_idem (ws : List (Nat × List Nat)) (f : List Nat) :
    apply_writes ws (apply_writes ws f) = apply_writes ws f := by
  apply file_ext
  · rw [apply_writes_length, apply_writes_length, writes_extent_eq ws (writes_extent ws f.length),
      writes_extent_eq ws f.length]
    omega
  · intro i
    rw [apply_writes_getD, apply_writes_getD]
    cases writes_lookup ws i <;> rfl

end Minicoredumper



namespace Minicoredumper.Coreinject

/-! ## The injector: writes, exit status, idempotence -/

theorem int_or_zero_left (b : Int) : int_or 0 b = b := by
  simp [int_or]

/-- The return value of write_core is 0 or -1. -/
theorem write_core_ret (f_core f_dump : List Nat) (d : symbol_data) :
    (write_core f_core f_dump d).1 = 0 ∨ (write_core f_core f_dump d).1 = -1 := by
  unfold write_core
  by_cases h1 : d.core_offset < 0
  · simp [h1]
  · by_cases h2 : d.dump_offset < 0
    · simp [h1, h2]
    · simp only [h1, h2, if_false]
      split <;> simp

/-- The function write_core acts on the core as a sequence of writes that does
not depend on the core, and its return value does not depend on the core. -/
theorem write_core_writes (f_dump : List Nat) (d : symbol_data) :
    ∃ e ws, ∀ f_core, write_core f_core f_dump d = (e, apply_writes ws f_core) := by
  by_cases h1 : d.core_offset < 0
  · exact ⟨-1, [], fun f => by simp [write_core, h1, apply_writes]⟩
  · by_cases h2 : d.dump_offset < 0
    · exact ⟨-1, [], fun f => by simp [write_core, h1, h2, apply_writes]⟩
    · by_cases h3 : d.size ≤ 0 ∨
          (file_read f_dump d.dump_offset.toNat d.size.toNat).length ≠ d.size.toNat
      · exact ⟨-1, [], fun f => by simp only [write_core, h1, h2, h3, apply_writes]; simp⟩
      · exact ⟨0, [(d.core_offset.toNat, file_read f_dump d.dump_offset.toNat d.size.toNat)],
          fun f => by simp only [write_core, h1, h2, h3, apply_writes]; simp⟩

/-- The function inject_data acts on the core as a sequence of writes fixed by
the symbol map and the dump file. -/
theorem inject_data_writes (f_symbol b_fname : List Char) (fopen_dump : Option (List Nat)) :
    ∃ e ws, ∀ f_core,
      inject_data f_core f_symbol b_fname fopen_dump = (e, apply_writes ws f_core) := by
  cases fopen_dump with
  | none => exact ⟨-1, [], fun f => by simp [inject_data, get_symbol_data, apply_writes]⟩
  | some f_dump =>
    obtain ⟨e1, w1, h1⟩ := write_core_writes f_dump
      (get_symbol_data (basename (c_str b_fname)) f_symbol).2.1
    obtain ⟨e2, w2, h2⟩ := write_core_writes f_dump
      (get_symbol_data (basename (c_str b_fname)) f_symbol).2.2
    by_cases hd : (get_symbol_data (basename (c_str b_fname)) f_symbol).2.1.size > 0
    · by_cases hi : (get_symbol_data (basename (c_str b_fname)) f_symbol).2.2.size > 0
      · refine ⟨int_or (int_or 0 e1) e2, w1 ++ w2, fun f => ?_⟩
        have h0 : (get_symbol_data (basename (c_str b_fname)) f_symbol).1 = 0 := rfl
        simp only [inject_data, h0, hd, hi, h1, h2, apply_writes_append]
        simp
      · refine ⟨int_or 0 e1, w1, fun f => ?_⟩
        have h0 : (get_symbol_data (basename (c_str b_fname)) f_symbol).1 = 0 := rfl
        simp only [inject_data, h0, hd, hi, h1]
        simp
    · by_cases hi : (get_symbol_data (basename (c_str b_fname)) f_symbol).2.2.size > 0
      · refine ⟨int_or 0 e2, w2, fun f => ?_⟩
        have h0 : (get_symbol_data (basename (c_str b_fname)) f_symbol).1 = 0 := rfl
        simp only [inject_data, h0, hd, hi, h2]
        simp
      · refine ⟨0, [], fun f => ?_⟩
        have h0 : (get_symbol_data (basename (c_str b_fname)) f_symbol).1 = 0 := rfl
        simp only [inject_data, h0, hd, hi, apply_writes]
        simp

/-- The loop of main acts on the core as a sequence of writes fixed by the
symbol map and the dump files; exit status and log do not depend on the core. -/
theorem main_loop_writes (f_symbols : List Char) (fopen_dump : List Char → Option (List Nat))
    (args : List (List Char)) :
    ∃ ws, ∀ err f_core log, ∃ e l,
      (∀ g_core, main_loop f_symbols fopen_dump args err g_core log =
        (e, apply_writes ws g_core, l)) ∧
      main_loop f_symbols fopen_dump args err f_core log = (e, apply_writes ws f_core, l) := by
  induction args with
  | nil => exact ⟨[], fun err f log => ⟨err, log, fun g => rfl, rfl⟩⟩
  | cons arg args ih =>
    obtain ⟨ws, hws⟩ := ih
    obtain ⟨e1, w1, h1⟩ := inject_data_writes f_symbols arg (fopen_dump arg)
    refine ⟨w1 ++ ws, fun err f log => ?_⟩
    obtain ⟨e, l, hg, _⟩ := hws (if e1 ≠ 0 then int_or err 1 else err) (apply_writes w1 f)
      (log ++ [e1])
    refine ⟨e, l, fun g => ?_, ?_⟩
    · simp only [main_loop, h1, apply_writes_append]
      obtain ⟨e', l', hg', _⟩ := hws (if e1 ≠ 0 then int_or err 1 else err)
        (apply_writes w1 g) (log ++ [e1])
      rw [hg' (apply_writes w1 g)]
      have := hg (apply_writes w1 g)
      rw [hg' (apply_writes w1 g)] at this
      exact this
    · simp only [main_loop, h1, apply_writes_append]
      exact hg (apply_writes w1 f)

theorem main_loop_spec (f_symbols : List Char) (fopen_dump : List Char → Option (List Nat))
    (args : List (List Char)) :
    ∀ (err : Int) (f_core : List Nat) (log : List Int), (err = 0 ∨ err = 1) →
      ∃ l, (main_loop f_symbols fopen_dump args err f_core log).2.2 = log ++ l ∧
        l.length = args.length ∧
        ((main_loop f_symbols fopen_dump args err f_core log).1 = 0 ∨
          (main_loop f_symbols fopen_dump args err f_core log).1 = 1) ∧
        ((main_loop f_symbols fopen_dump args err f_core log).1 ≠ 0 ↔
          (err ≠ 0 ∨ ∃ x ∈ l, x ≠ 0)) ∧
        (main_loop f_symbols fopen_dump args err f_core log).2.1 =
          args.foldl (fun c a => (inject_data c f_symbols a (fopen_dump a)).2) f_core := by
  induction args with
  | nil =>
    intro err f_core log herr
    exact ⟨[], by simp [main_loop], rfl, herr, by simp [main_loop], rfl⟩
  | cons arg args ih =>
    intro err f_core log herr
    have herr2 : (if (inject_data f_core f_symbols arg (fopen_dump arg)).1 ≠ 0
        then int_or err 1 else err) = 0 ∨
        (if (inject_data f_core f_symbols arg (fopen_dump arg)).1 ≠ 0
        then int_or err 1 else err) = 1 := by
      split
      · rcases herr with h | h <;> subst h <;> right <;> decide
      · exact herr
    obtain ⟨l, hl1, hl2, hl3, hl4, hl5⟩ := ih _ (inject_data f_core f_symbols arg (fopen_dump arg)).2
      (log ++ [(inject_data f_core f_symbols arg (fopen_dump arg)).1]) herr2
    refine ⟨(inject_data f_core f_symbols arg (fopen_dump arg)).1 :: l, ?_, ?_, ?_, ?_, ?_⟩
    · simp only [main_loop]; rw [hl1]; simp
    · simp [hl2]
    · simp only [main_loop]; exact hl3
    · simp only [main_loop]; rw [hl4]
      by_cases hr : (inject_data f_core f_symbols arg (fopen_dump arg)).1 = 0
      · simp [hr]
      · have h1 : int_or err 1 ≠ 0 := by
          rcases herr with h | h <;> subst h <;> decide
        simp [hr, h1]
    · simp only [main_loop]; rw [hl5]; rfl

/-- C8. Injector idempotence: running the injector a second time, with the
same symbol map and the same binary-dump files, on the core that the first run
produced yields the core of the first run again, byte for byte (and the same
exit status and per-file results). -/
theorem injector_idempotent (argv : List (List Char)) (core : Option (List Nat))
    (symbols : Option (List Char)) (fopen_dump : List Char → Option (List Nat)) :
    main argv (main argv core symbols fopen_dump).2.1 symbols fopen_dump =
      main argv core symbols fopen_dump := by
  unfold main
  by_cases h : argv.length < 4
  · simp [h]
  · cases core with
    | none => simp [h]
    | some f_core =>
      cases symbols with
      | none => simp [h]
      | some f_symbols =>
        simp only [h, if_false]
        obtain ⟨ws, hws⟩ := main_loop_writes f_symbols fopen_dump (argv.drop 3)
        obtain ⟨e, l, hg, _⟩ := hws 0 f_core []
        rw [hg f_core, hg (apply_writes ws f_core), apply_writes_idem]

/-- A failed write_core leaves the core as it was. -/
theorem write_core_fail (f_core f_dump : List Nat) (d : symbol_data)
    (h : (write_core f_core f_dump d).1 ≠ 0) : (write_core f_core f_dump d).2 = f_core := by
  unfold write_core at h ⊢
  by_cases h1 : d.core_offset < 0
  · simp [h1]
  · by_cases h2 : d.dump_offset < 0
    · simp [h1, h2]
    · simp only [h1, h2, if_false] at h ⊢
      split
      · rfl
      · next h3 => simp [h3] at h

/-- C7. Injector exit status: with the core and the symbol map open, main calls
inject_data once for every binary-dump argument, each on the core left by the
calls before it, whether or not those failed; the exit status is nonzero
exactly when one of the calls returned nonzero and 0 exactly when all returned
0.  Inside inject_data a failed direct write does not stop the indirect write:
the call returns nonzero and the core is the one the indirect write leaves. -/
theorem main_exit_status (argv : List (List Char)) (f_core : List Nat) (f_symbols : List Char)
    (fopen_dump : List Char → Option (List Nat)) (h : 4 ≤ argv.length)
    (g_core g_dump : List Nat) (g_symbol b_fname : List Char)
    (hd : 0 < (get_symbol_data (basename (c_str b_fname)) g_symbol).2.1.size)
    (hi : 0 < (get_symbol_data (basename (c_str b_fname)) g_symbol).2.2.size)
    (hfail : (write_core g_core g_dump
      (get_symbol_data (basename (c_str b_fname)) g_symbol).2.1).1 ≠ 0) :
    ((main argv (some f_core) (some f_symbols) fopen_dump).2.2.length = argv.length - 3 ∧
      (main argv (some f_core) (some f_symbols) fopen_dump).2.1 =
        some ((argv.drop 3).foldl
          (fun c a => (inject_data c f_symbols a (fopen_dump a)).2) f_core) ∧
      ((main argv (some f_core) (some f_symbols) fopen_dump).1 ≠ 0 ↔
        ∃ x ∈ (main argv (some f_core) (some f_symbols) fopen_dump).2.2, x ≠ 0) ∧
      ((main argv (some f_core) (some f_symbols) fopen_dump).1 = 0 ↔
        ∀ x ∈ (main argv (some f_core) (some f_symbols) fopen_dump).2.2, x = 0)) ∧
    ((inject_data g_core g_symbol b_fname (some g_dump)).1 ≠ 0 ∧
      (inject_data g_core g_symbol b_fname (some g_dump)).2 =
        (write_core g_core g_dump
          (get_symbol_data (basename (c_str b_fname)) g_symbol).2.2).2) := by
  constructor
  · have h4 : ¬ argv.length < 4 := by omega
    obtain ⟨l, hl1, hl2, _, hl4, hl5⟩ :=
      main_loop_spec f_symbols fopen_dump (argv.drop 3) 0 f_core [] (Or.inl rfl)
    simp only [main, h4, if_false]
    rw [hl1, hl5]
    refine ⟨by simp [hl2], rfl, ?_, ?_⟩
    · rw [hl4]; simp
    · have := hl4
      simp only [ne_eq, not_true_eq_false, false_or] at this
      rw [← not_iff_not, List.nil_append]
      simpa using this
  · have h0 : (get_symbol_data (basename (c_str b_fname)) g_symbol).1 = 0 := rfl
    have hf := write_core_fail g_core g_dump _ hfail
    simp only [inject_data, h0, hd, hi, hf]
    simp only [ne_eq, not_true_eq_false, if_false, gt_iff_lt, if_true, int_or_zero_left,
      and_true]
    rcases write_core_ret g_core g_dump
      (get_symbol_data (basename (c_str b_fname)) g_symbol).2.1 with h1 | h1
    · exact absurd h1 hfail
    · rw [h1]
      rcases write_core_ret g_core g_dump
        (get_symbol_data (basename (c_str b_fname)) g_symbol).2.2 with h2 | h2 <;>
        rw [h2] <;> decide

/-- C7 on a command line with two binary dumps of which the first cannot be
opened, and a dump file too short for its direct payload. -/
theorem main_exit_status_witness :
    (4 ≤ Example.argv_two.length ∧
      0 < (get_symbol_data (basename (c_str "dumps/x".toList)) Example.map_x).2.1.size ∧
      0 < (get_symbol_data (basename (c_str "dumps/x".toList)) Example.map_x).2.2.size ∧
      (write_core Example.core_zero Example.dump_short
        (get_symbol_data (basename (c_str "dumps/x".toList)) Example.map_x).2.1).1 ≠ 0) ∧
    (main Example.argv_two (some Example.core_zero) (some Example.map_x) Example.fopen_x).1 = 1 ∧
    (main Example.argv_two (some Example.core_zero) (some Example.map_x) Example.fopen_x).2.2 =
      [-1, 0] ∧
    ((main Example.argv_two (some Example.core_zero) (some Example.map_x)
        Example.fopen_x).1 ≠ 0 ↔
      ∃ x ∈ (main Example.argv_two (some Example.core_zero) (some Example.map_x)
        Example.fopen_x).2.2, x ≠ 0) ∧
    inject_data Example.core_zero Example.map_x "dumps/x".toList (some Example.dump_short) =
      (-1, [1, 2, 3, 4] ++ List.replicate 28 0) ∧
    (inject_data Example.core_zero Example.map_x "dumps/x".toList
        (some Example.dump_short)).2 =
      (write_core Example.core_zero Example.dump_short
        (get_symbol_data (basename (c_str "dumps/x".toList)) Example.map_x).2.2).2 :=
  have h := main_exit_status Example.argv_two Example.core_zero Example.map_x Example.fopen_x
    (by decide) Example.core_zero Example.dump_short Example.map_x "dumps/x".toList
    (by decide) (by decide) (by decide)
  ⟨⟨by decide, by decide, by decide, by decide⟩, by decide, by decide, h.1.2.2.1, by decide,
    h.2.2⟩

/-- The loop body of get_symbol_data in terms of what the line says. -/
theorem get_symbol_data_line_eq (symname line : List Char) (st : symbol_data × symbol_data) :
    get_symbol_data_line symname line st = set_entry symname (line_entry symname line) st := by
  unfold get_symbol_data_line line_entry
  simp only
  cases h1 : sscanf_lx_ld_c (strip_endline (c_str line)) with
  | none => rfl
  | some v =>
    obtain ⟨offset, size, type⟩ := v
    cases h2 : locate_name (strip_endline (c_str line)) with
    | none => rfl
    | some p =>
      simp only
      by_cases h3 : c_str symname = p
      · by_cases h4 : type = 'D'
        · simp [h3, h4, set_entry]
        · by_cases h5 : type = 'I'
          · simp [h3, h5, set_entry]
          · simp [h3, h4, h5, set_entry]
      · simp [h3, set_entry]

theorem set_entry_dump_offset (symname : List Char) (e : Option (Char × Int × Int))
    (st : symbol_data × symbol_data) :
    (set_entry symname e st).1.dump_offset = st.1.dump_offset ∧
      (set_entry symname e st).2.dump_offset = st.2.dump_offset := by
  unfold set_entry
  split
  · exact ⟨rfl, rfl⟩
  · split <;> exact ⟨rfl, rfl⟩

theorem get_symbol_data_line_dump_offset (symname line : List Char)
    (st : symbol_data × symbol_data) :
    (get_symbol_data_line symname line st).1.dump_offset = st.1.dump_offset ∧
      (get_symbol_data_line symname line st).2.dump_offset = st.2.dump_offset := by
  rw [get_symbol_data_line_eq]
  exact set_entry_dump_offset symname _ st

theorem get_symbol_data_loop_dump_offset (symname : List Char) (fuel : Nat) :
    ∀ (stream : List Char) (st : symbol_data × symbol_data),
      (get_symbol_data_loop symname fuel stream st).1.dump_offset = st.1.dump_offset ∧
        (get_symbol_data_loop symname fuel stream st).2.dump_offset = st.2.dump_offset := by
  induction fuel with
  | zero => intro stream st; exact ⟨rfl, rfl⟩
  | succ n ih =>
    intro stream st
    unfold get_symbol_data_loop
    split
    · exact ⟨rfl, rfl⟩
    · next line rest _ =>
      have h1 := ih rest (get_symbol_data_line symname line st)
      have h2 := get_symbol_data_line_dump_offset symname line st
      exact ⟨h1.1.trans h2.1, h1.2.trans h2.2⟩

/-- Where get_symbol_data tells inject_data to read in the dump file: the
indirect data at offset 0, the direct payload after it. -/
theorem get_symbol_data_dump_offset (symname f_symbol : List Char) :
    (get_symbol_data symname f_symbol).2.2.dump_offset = 0 ∧
      (get_symbol_data symname f_symbol).2.1.dump_offset =
        (if (get_symbol_data symname f_symbol).2.2.size ≠ 0 ∧
            (get_symbol_data symname f_symbol).2.1.size ≠ 0
          then (get_symbol_data symname f_symbol).2.2.size else 0) := by
  have h := get_symbol_data_loop_dump_offset symname f_symbol.length f_symbol
    (symbol_data.zero, symbol_data.zero)
  unfold get_symbol_data
  simp only
  refine ⟨h.2, ?_⟩
  have h1 : (get_symbol_data_loop symname f_symbol.length f_symbol
      (symbol_data.zero, symbol_data.zero)).1.dump_offset = 0 := h.1
  split
  · simp only [h1]; simp
  · exact h1

/-- A write_core whose offsets are not negative and whose section lies inside
the dump file succeeds and writes that section at the core offset. -/
theorem write_core_ok (f_core f_dump : List Nat) (d : symbol_data)
    (h1 : 0 ≤ d.core_offset) (h2 : 0 ≤ d.dump_offset) (h3 : 0 < d.size)
    (h4 : d.dump_offset + d.size ≤ f_dump.length) :
    write_core f_core f_dump d =
      (0, file_write f_core d.core_offset.toNat
        (file_read f_dump d.dump_offset.toNat d.size.toNat)) := by
  have hl : (file_read f_dump d.dump_offset.toNat d.size.toNat).length = d.size.toNat := by
    simp only [file_read, List.length_take, List.length_drop]
    omega
  unfold write_core
  rw [if_neg (by omega), if_neg (by omega)]
  simp only [hl]
  rw [if_neg (by omega)]

/-- The sections that inject_data reads from the dump file and where it writes
them. -/
theorem inject_data_sections (f_core f_dump : List Nat) (f_symbol b_fname : List Char)
    (hD : 0 < (get_symbol_data (basename (c_str b_fname)) f_symbol).2.1.size)
    (hI : 0 ≤ (get_symbol_data (basename (c_str b_fname)) f_symbol).2.2.size)
    (hDo : 0 ≤ (get_symbol_data (basename (c_str b_fname)) f_symbol).2.1.core_offset)
    (hIo : 0 ≤ (get_symbol_data (basename (c_str b_fname)) f_symbol).2.2.core_offset)
    (hlen : (get_symbol_data (basename (c_str b_fname)) f_symbol).2.2.size +
      (get_symbol_data (basename (c_str b_fname)) f_symbol).2.1.size ≤ f_dump.length) :
    inject_data f_core f_symbol b_fname (some f_dump) =
      (0,
        if 0 < (get_symbol_data (basename (c_str b_fname)) f_symbol).2.2.size then
          file_write
            (file_write f_core
              (get_symbol_data (basename (c_str b_fname)) f_symbol).2.1.core_offset.toNat
              (file_read f_dump
                (get_symbol_data (basename (c_str b_fname)) f_symbol).2.2.size.toNat
                (get_symbol_data (basename (c_str b_fname)) f_symbol).2.1.size.toNat))
            (get_symbol_data (basename (c_str b_fname)) f_symbol).2.2.core_offset.toNat
            (file_read f_dump 0
              (get_symbol_data (basename (c_str b_fname)) f_symbol).2.2.size.toNat)
        else
          file_write f_core
            (get_symbol_data (basename (c_str b_fname)) f_symbol).2.1.core_offset.toNat
            (file_read f_dump 0
              (get_symbol_data (basename (c_str b_fname)) f_symbol).2.1.size.toNat)) := by
  have h0 : (get_symbol_data (basename (c_str b_fname)) f_symbol).1 = 0 := rfl
  obtain ⟨hoI, hoD⟩ := get_symbol_data_dump_offset (basename (c_str b_fname)) f_symbol
  unfold inject_data
  simp only []
  generalize (get_symbol_data (basename (c_str b_fname)) f_symbol) = r at *
  obtain ⟨e, D, I⟩ := r
  simp only at h0 hD hI hDo hIo hlen hoI hoD ⊢
  subst h0
  by_cases hpos : 0 < I.size
  · have hoD2 : D.dump_offset = I.size := by
      rw [hoD, if_pos ⟨by omega, by omega⟩]
    have w1 := write_core_ok f_core f_dump D hDo (by omega) hD (by omega)
    have w2 := fun c => write_core_ok c f_dump I hIo (by omega) hpos (by omega)
    simp only [hD, hpos, w1, w2, hoD2, hoI]
    simp [int_or]
  · have hI0 : I.size = 0 := by omega
    have hoD2 : D.dump_offset = 0 := by
      rw [hoD, if_neg (by simp [hI0])]
    have w1 := write_core_ok f_core f_dump D hDo (by omega) hD (by omega)
    simp only [hD, hpos, w1, hoD2]
    simp [int_or]

/-- C6. Binary-dump layout seen by the injector: with a `D` record of positive
size and an `I` record for the identifier, inject_data reads the indirect data
(`I.size` bytes) at dump-file offset 0 and the direct payload (`D.size` bytes)
at dump-file offset `I.size`; without an `I` record (`I.size = 0`) the payload
is read at dump-file offset 0.  Each section is written to the core at the
core offset of its record, the payload first. -/
theorem inject_data_layout (f_core f_dump : List Nat) (f_symbol b_fname : List Char)
    (hD : 0 < (get_symbol_data (basename (c_str b_fname)) f_symbol).2.1.size)
    (hI : 0 ≤ (get_symbol_data (basename (c_str b_fname)) f_symbol).2.2.size)
    (hDo : 0 ≤ (get_symbol_data (basename (c_str b_fname)) f_symbol).2.1.core_offset)
    (hIo : 0 ≤ (get_symbol_data (basename (c_str b_fname)) f_symbol).2.2.core_offset)
    (hlen : (get_symbol_data (basename (c_str b_fname)) f_symbol).2.2.size +
      (get_symbol_data (basename (c_str b_fname)) f_symbol).2.1.size ≤ f_dump.length) :
    inject_data f_core f_symbol b_fname (some f_dump) =
      (0,
        if 0 < (get_symbol_data (basename (c_str b_fname)) f_symbol).2.2.size then
          file_write
            (file_write f_core
              (get_symbol_data (basename (c_str b_fname)) f_symbol).2.1.core_offset.toNat
              (file_read f_dump
                (get_symbol_data (basename (c_str b_fname)) f_symbol).2.2.size.toNat
                (get_symbol_data (basename (c_str b_fname)) f_symbol).2.1.size.toNat))
            (get_symbol_data (basename (c_str b_fname)) f_symbol).2.2.core_offset.toNat
            (file_read f_dump 0
              (get_symbol_data (basename (c_str b_fname)) f_symbol).2.2.size.toNat)
        else
          file_write f_core
            (get_symbol_data (basename (c_str b_fname)) f_symbol).2.1.core_offset.toNat
            (file_read f_dump 0
              (get_symbol_data (basename (c_str b_fname)) f_symbol).2.1.size.toNat)) :=
  inject_data_sections f_core f_dump f_symbol b_fname hD hI hDo hIo hlen

/-- C6 on a symbol map with an `I` row of 4 bytes and a `D` row of 8 bytes and a
dump file of 12 bytes. -/
theorem inject_data_layout_witness :
    (0 < (get_symbol_data (basename (c_str "dumps/x".toList)) Example.map_x).2.1.size ∧
      0 ≤ (get_symbol_data (basename (c_str "dumps/x".toList)) Example.map_x).2.2.size ∧
      0 ≤ (get_symbol_data (basename (c_str "dumps/x".toList)) Example.map_x).2.1.core_offset ∧
      0 ≤ (get_symbol_data (basename (c_str "dumps/x".toList)) Example.map_x).2.2.core_offset ∧
      (get_symbol_data (basename (c_str "dumps/x".toList)) Example.map_x).2.2.size +
        (get_symbol_data (basename (c_str "dumps/x".toList)) Example.map_x).2.1.size ≤
          Example.dump_x.length) ∧
    inject_data Example.core_zero Example.map_x "dumps/x".toList (some Example.dump_x) =
      (0, file_write (file_write Example.core_zero 16 [10, 11, 12, 13, 14, 15, 16, 17])
        0 [1, 2, 3, 4]) :=
  ⟨⟨by decide, by decide, by decide, by decide, by decide⟩,
    (inject_data_layout Example.core_zero Example.dump_x Example.map_x "dumps/x".toList
      (by decide) (by decide) (by decide) (by decide) (by decide)).trans (by decide)⟩

end Minicoredumper.Coreinject

namespace Minicoredumper

/-! ## The dumper and the injector together -/

/-- C2 (the code differs). For the direct binary descriptor of scenario 3
(identifier `buf`, 16 bytes at `0x400100`, segment `0x400000` at file offset
`0x1000`) dump_data_file_bin appends the 16 payload bytes to `dumps/buf` and
one line to `symbol.map`; the line is `1100 8 D buf`, with the size of a
pointer in the size field, not `1100 10 D buf`. -/
theorem dump_data_file_bin_scenario :
    Corestripper.get_core_pos Example.di_buf 0x400100 = 0x1100 ∧
    (Corestripper.dump_data_file_bin Example.di_buf Example.dd_buf []).map
        (fun r => (r.1, r.2.1.symbol_map, r.2.2)) =
      some (0, "1100 8 D buf\n".toList, [0, 1, 2, 3, 4, 5, 6, 7, 8, 9, 10, 11, 12, 13, 14, 15]) ∧
    (Corestripper.dump_data_file_bin Example.di_buf Example.dd_buf []).map
        (fun r => r.2.1.symbol_map) ≠ some "1100 10 D buf\n".toList := by
  decide

/-- C3 (the code differs). The line that add_symbol_map_entry writes for core
offset `0x1100`, size `0x10`, type `D` and identifier `buf` is `1100 10 D buf`;
get_symbol_data reads its size field with `%ld`, as the decimal number 10, not
as the 16 that was written. -/
theorem get_symbol_data_size_decimal :
    (Corestripper.add_symbol_map_entry {} 0x1100 0x10 'D' (some "buf".toList)).2.symbol_map =
      "1100 10 D buf\n".toList ∧
    (Coreinject.get_symbol_data "buf".toList "1100 10 D buf\n".toList).2.1.core_offset =
      0x1100 ∧
    (Coreinject.get_symbol_data "buf".toList "1100 10 D buf\n".toList).2.1.size = 10 ∧
    (Coreinject.get_symbol_data "buf".toList "1100 10 D buf\n".toList).2.1.size ≠ 0x10 := by
  decide

theorem inject_buf_eq (f_core : List Nat) :
    Coreinject.inject_data f_core "1100 8 D buf\n".toList "dumps/buf".toList
        (some [0, 1, 2, 3, 4, 5, 6, 7, 8, 9, 10, 11, 12, 13, 14, 15]) =
      (0, file_write f_core 0x1100 [0, 1, 2, 3, 4, 5, 6, 7]) := by
  have h := Coreinject.inject_data_sections f_core [0, 1, 2, 3, 4, 5, 6, 7, 8, 9, 10, 11, 12, 13, 14, 15]
    "1100 8 D buf\n".toList "dumps/buf".toList (by decide) (by decide) (by decide) (by decide)
    (by decide)
  have hg : Coreinject.get_symbol_data (Coreinject.basename (c_str "dumps/buf".toList))
      "1100 8 D buf\n".toList =
      (0, { name := some "buf".toList, dump_offset := 0, core_offset := 0x1100, size := 8 },
        Coreinject.symbol_data.zero) := by decide
  rw [hg] at h
  rw [h]
  have hr : file_read [0, 1, 2, 3, 4, 5, 6, 7, 8, 9, 10, 11, 12, 13, 14, 15] 0
      (8 : Int).toNat = [0, 1, 2, 3, 4, 5, 6, 7] := by decide
  have hn : ((0x1100 : Int)).toNat = 0x1100 := by decide
  simp only [Coreinject.symbol_data.zero, hr, hn]
  simp

/-- C1 (the code differs). Round trip of scenario 3: the dumper captures the
16 bytes `00 … 0F` at `0x400100` as the binary dump `buf`; the injector, run
on the stripped core with the `symbol.map` and `dumps/buf` that the dumper
wrote, succeeds, restores the first 8 bytes at file offset `0x1100` and leaves
the other 8 bytes of the region as they were (zero), although the target
memory holds `08 … 0F` there. -/
theorem roundtrip_scenario_restores_8_of_16 :
    (Corestripper.dump_data_file_bin Example.di_buf Example.dd_buf []).map
        (fun r => (r.2.1.symbol_map, r.2.2)) =
      some ("1100 8 D buf\n".toList, [0, 1, 2, 3, 4, 5, 6, 7, 8, 9, 10, 11, 12, 13, 14, 15]) ∧
    Corestripper.get_core_pos Example.di_buf 0x400100 = 0x1100 ∧
    Corestripper.read_remote Example.di_buf 0x400100 16 =
      some [0, 1, 2, 3, 4, 5, 6, 7, 8, 9, 10, 11, 12, 13, 14, 15] ∧
    (Coreinject.inject_data Example.core_stripped "1100 8 D buf\n".toList "dumps/buf".toList
      (some [0, 1, 2, 3, 4, 5, 6, 7, 8, 9, 10, 11, 12, 13, 14, 15])).1 = 0 ∧
    (∀ i, i < 8 →
      (Coreinject.inject_data Example.core_stripped "1100 8 D buf\n".toList "dumps/buf".toList
        (some [0, 1, 2, 3, 4, 5, 6, 7, 8, 9, 10, 11, 12, 13, 14, 15])).2.getD (0x1100 + i) 0 =
        i) ∧
    (∀ i, 8 ≤ i → i < 16 →
      (Coreinject.inject_data Example.core_stripped "1100 8 D buf\n".toList "dumps/buf".toList
        (some [0, 1, 2, 3, 4, 5, 6, 7, 8, 9, 10, 11, 12, 13, 14, 15])).2.getD (0x1100 + i) 0 =
        0) := by
  refine ⟨by decide, by decide, by decide, ?_, ?_, ?_⟩
  · rw [inject_buf_eq]
  · intro i hi
    rw [inject_buf_eq]
    simp only [file_write_getD]
    rw [if_pos (by simp; omega)]
    have : 0x1100 + i - 0x1100 = i := by omega
    rw [this]
    interval_cases i <;> rfl
  · intro i h1 h2
    rw [inject_buf_eq]
    simp only [file_write_getD]
    rw [if_neg (by simp; omega)]
    unfold Example.core_stripped
    rw [List.getD_eq_getElem?_getD, List.getElem?_replicate]
    split <;> rfl

/-! ## The symbol map read line by line -/

theorem text_lines_append_newline (l rest : List Char) (h : '\n' ∉ l) :
    text_lines (l ++ '\n' :: rest) = l :: text_lines rest := by
  induction l with
  | nil => simp [text_lines]
  | cons c l ih =>
    have hc : c ≠ '\n' := fun e => h (by simp [e])
    have hl : '\n' ∉ l := fun e => h (by simp [e])
    simp only [List.cons_append, text_lines, hc, if_false, List.append_eq, ih hl]

theorem text_lines_single (l : List Char) (h : '\n' ∉ l) (hne : l ≠ []) :
    text_lines l = [l] := by
  induction l with
  | nil => exact absurd rfl hne
  | cons c l ih =>
    have hc : c ≠ '\n' := fun e => h (by simp [e])
    have hl : '\n' ∉ l := fun e => h (by simp [e])
    cases l with
    | nil => simp [text_lines, hc]
    | cons d l => simp only [text_lines, hc, if_false] at ih ⊢; rw [ih hl (by simp)]

/-- Every text starts with a line without newline that either ends in a
newline or is the whole text. -/
theorem first_line (f : List Char) :
    ∃ l rest, '\n' ∉ l ∧ (f = l ++ '\n' :: rest ∨ (f = l ∧ rest = [])) := by
  induction f with
  | nil => exact ⟨[], [], by simp, Or.inr ⟨rfl, rfl⟩⟩
  | cons c s ih =>
    by_cases hc : c = '\n'
    · exact ⟨[], s, by simp, Or.inl (by simp [hc])⟩
    · obtain ⟨l, rest, hl, h⟩ := ih
      refine ⟨c :: l, rest, ?_, ?_⟩
      · intro hm
        rcases List.mem_cons.mp hm with e | e
        · exact hc e.symm
        · exact hl e
      · rcases h with h | ⟨h, hr⟩
        · left; simp [h]
        · right; exact ⟨by rw [h], hr⟩

theorem fgets_chars_newline (l rest : List Char) (n : Nat) (h : '\n' ∉ l)
    (hn : l.length < n) : fgets_chars n (l ++ '\n' :: rest) = (l ++ ['\n'], rest) := by
  induction l generalizing n with
  | nil =>
    cases n with
    | zero => simp at hn
    | succ n => simp [fgets_chars]
  | cons c l ih =>
    have hc : c ≠ '\n' := fun e => h (by simp [e])
    have hl : '\n' ∉ l := fun e => h (by simp [e])
    cases n with
    | zero => simp at hn
    | succ n =>
      have hn2 : l.length < n := by simp at hn; omega
      simp only [List.cons_append, fgets_chars, hc, if_false, List.append_eq, ih n hl hn2]

theorem fgets_chars_all (l : List Char) (n : Nat) (h : '\n' ∉ l) (hn : l.length ≤ n) :
    fgets_chars n l = (l, []) := by
  induction l generalizing n with
  | nil => cases n <;> simp [fgets_chars]
  | cons c l ih =>
    have hc : c ≠ '\n' := fun e => h (by simp [e])
    have hl : '\n' ∉ l := fun e => h (by simp [e])
    cases n with
    | zero => simp at hn
    | succ n =>
      have hn2 : l.length ≤ n := by simp at hn; omega
      simp only [fgets_chars, hc, if_false, ih n hl hn2]

theorem strip_endline_cons (c : Char) (s : List Char) :
    Coreinject.strip_endline (c :: s) =
      if c = '\r' ∨ c = '\n' then [] else c :: Coreinject.strip_endline s := by
  unfold Coreinject.strip_endline
  by_cases h1 : c = '\r'
  · simp [h1]
  · by_cases h2 : c = '\n'
    · simp [h1, h2, List.takeWhile]
    · simp [h1, h2, List.takeWhile]

/-- The newline that ends a line does not change what the injector reads in it. -/
theorem strip_endline_newline (l : List Char) (h : '\n' ∉ l) :
    Coreinject.strip_endline (c_str (l ++ ['\n'])) = Coreinject.strip_endline (c_str l) := by
  induction l with
  | nil => decide
  | cons c l ih =>
    have hl : '\n' ∉ l := fun e => h (by simp [e])
    by_cases h0 : c = Char.ofNat 0
    · simp [c_str, h0, List.takeWhile]
    · have e1 : c_str (c :: l ++ ['\n']) = c :: c_str (l ++ ['\n']) := by
        simp [c_str, h0, List.takeWhile]
      have e2 : c_str (c :: l) = c :: c_str l := by
        simp [c_str, h0, List.takeWhile]
      rw [e1, e2, strip_endline_cons, strip_endline_cons, ih hl]

theorem line_entry_newline (symname l : List Char) (h : '\n' ∉ l) :
    line_entry symname (l ++ ['\n']) = line_entry symname l := by
  unfold line_entry
  rw [strip_endline_newline l h]

theorem get_symbol_data_loop_nil (symname : List Char) (fuel : Nat)
    (st : Coreinject.symbol_data × Coreinject.symbol_data) :
    Coreinject.get_symbol_data_loop symname fuel [] st = st := by
  cases fuel <;> rfl

theorem fgets_cons (c : Char) (s : List Char) :
    fgets 128 (c :: s) = some (fgets_chars 127 (c :: s)) := rfl

/-- On a symbol map whose lines fit the line buffer, the read loop of
get_symbol_data, given enough fuel, handles the lines of the map one by one. -/
theorem get_symbol_data_loop_lines (symname : List Char) (fuel : Nat) :
    ∀ (f : List Char) (st : Coreinject.symbol_data × Coreinject.symbol_data),
      f.length ≤ fuel → (∀ l ∈ text_lines f, l.length + 1 < 128) →
      Coreinject.get_symbol_data_loop symname fuel f st =
        (text_lines f).foldl (fun st l => set_entry symname (line_entry symname l) st) st := by
  induction fuel with
  | zero =>
    intro f st hf _
    have : f = [] := List.length_eq_zero.mp (by omega)
    subst this
    rfl
  | succ n ih =>
    intro f st hf hlines
    cases f with
    | nil => rfl
    | cons c s =>
      obtain ⟨l, rest, hl, h⟩ := first_line (c :: s)
      rcases h with h | ⟨h, _⟩
      · have htl : text_lines (c :: s) = l :: text_lines rest := by
          rw [h]; exact text_lines_append_newline l rest hl
        have hlen : l.length + 1 < 128 := hlines l (by rw [htl]; simp)
        have hg : fgets 128 (c :: s) = some (l ++ ['\n'], rest) := by
          rw [fgets_cons, h]
          exact congrArg some (fgets_chars_newline l rest 127 hl (by omega))
        have hrest : rest.length ≤ n := by
          have := congrArg List.length h
          simp at this hf
          omega
        have hlr : ∀ x ∈ text_lines rest, x.length + 1 < 128 := fun x hx =>
          hlines x (by rw [htl]; simp [hx])
        unfold Coreinject.get_symbol_data_loop
        rw [hg]
        simp only
        rw [ih rest _ hrest hlr, htl, List.foldl_cons, Coreinject.get_symbol_data_line_eq,
          line_entry_newline symname l hl]
      · have hne : l ≠ [] := by rw [← h]; simp
        have htl : text_lines (c :: s) = [l] := by
          rw [h]; exact text_lines_single l hl hne
        have hlen : l.length + 1 < 128 := hlines l (by rw [htl]; simp)
        have hg : fgets 128 (c :: s) = some (l, []) := by
          rw [fgets_cons, h]
          exact congrArg some (fgets_chars_all l 127 hl (by omega))
        unfold Coreinject.get_symbol_data_loop
        rw [hg]
        simp only
        rw [get_symbol_data_loop_nil, htl, Coreinject.get_symbol_data_line_eq]
        rfl

/-- The entry that line_entry finds has type `D` or `I`. -/
theorem line_entry_type (symname l : List Char) (t : Char) (o s : Int)
    (h : line_entry symname l = some (t, o, s)) : t = 'D' ∨ t = 'I' := by
  unfold line_entry at h
  split at h
  · split at h
    · next hc =>
      cases h
      exact hc.2
    · cases h
  · cases h

/-- A line that does not match the grammar holds no entry for any symbol. -/
theorem line_entry_invalid (symname l : List Char) (h : line_valid l = false) :
    line_entry symname l = none := by
  unfold line_valid at h
  unfold line_entry
  split
  · next offset size type p h1 h2 =>
    rw [h1, h2] at h
    simp only [Bool.or_eq_false_iff, decide_eq_false_iff_not] at h
    rw [if_neg (by rintro ⟨_, h3 | h3⟩ <;> simp_all)]
  · rfl

theorem symbol_data_with_eq (a b : Coreinject.symbol_data) (o s : Int) (n : Option (List Char))
    (h : a.dump_offset = b.dump_offset) :
    ({ a with core_offset := o, size := s, name := n } : Coreinject.symbol_data) =
      { b with core_offset := o, size := s, name := n } := by
  cases a; cases b; simp_all

/-- Last entry wins: after the lines have been handled in order, each record
holds the entry of the last line of its type, or is as it was before. -/
theorem foldl_set_entry (symname : List Char) (ls : List (List Char)) :
    ∀ st : Coreinject.symbol_data × Coreinject.symbol_data,
      ((ls.foldl (fun st l => set_entry symname (line_entry symname l) st) st).1 =
        match last_entry symname 'D' ls with
        | some (o, s) => { st.1 with core_offset := o, size := s, name := some symname }
        | none => st.1) ∧
      ((ls.foldl (fun st l => set_entry symname (line_entry symname l) st) st).2 =
        match last_entry symname 'I' ls with
        | some (o, s) => { st.2 with core_offset := o, size := s, name := some symname }
        | none => st.2) := by
  induction ls with
  | nil => intro st; exact ⟨rfl, rfl⟩
  | cons l ls ih =>
    intro st
    obtain ⟨ih1, ih2⟩ := ih (set_entry symname (line_entry symname l) st)
    obtain ⟨hd1, hd2⟩ := Coreinject.set_entry_dump_offset symname (line_entry symname l) st
    simp only [List.foldl_cons, last_entry]
    constructor
    · rw [ih1]
      cases last_entry symname 'D' ls with
      | some e => exact symbol_data_with_eq _ _ _ _ _ hd1
      | none =>
        cases hle : line_entry symname l with
        | none => rfl
        | some v =>
          obtain ⟨t, o, s⟩ := v
          by_cases ht : t = 'D'
          · simp [set_entry, ht]
          · simp [set_entry, ht]
    · rw [ih2]
      cases last_entry symname 'I' ls with
      | some e => exact symbol_data_with_eq _ _ _ _ _ hd2
      | none =>
        cases hle : line_entry symname l with
        | none => rfl
        | some v =>
          obtain ⟨t, o, s⟩ := v
          rcases line_entry_type symname l t o s hle with ht | ht
          · subst ht; simp [set_entry]
          · subst ht; simp [set_entry]

/-- C4 (amended). Last entry wins in the injector: for every symbol map whose
lines are shorter than 128 bytes with their newline (so that each fits the
line buffer of get_symbol_data) and every identifier, get_symbol_data returns
0, the direct record holds the core offset and the size of the last valid `D`
line whose identifier equals the wanted one, and the indirect record those of
the last such `I` line; a record without such a line is all zero. -/
theorem get_symbol_data_last_entry (symname f_symbol : List Char)
    (h : ∀ l ∈ text_lines f_symbol, l.length + 1 < 128) :
    (Coreinject.get_symbol_data symname f_symbol).1 = 0 ∧
    (match last_entry symname 'D' (text_lines f_symbol) with
      | some (o, s) =>
        (Coreinject.get_symbol_data symname f_symbol).2.1.core_offset = o ∧
          (Coreinject.get_symbol_data symname f_symbol).2.1.size = s
      | none => (Coreinject.get_symbol_data symname f_symbol).2.1 = Coreinject.symbol_data.zero) ∧
    (match last_entry symname 'I' (text_lines f_symbol) with
      | some (o, s) =>
        (Coreinject.get_symbol_data symname f_symbol).2.2.core_offset = o ∧
          (Coreinject.get_symbol_data symname f_symbol).2.2.size = s
      | none =>
        (Coreinject.get_symbol_data symname f_symbol).2.2 = Coreinject.symbol_data.zero) := by
  have hloop := get_symbol_data_loop_lines symname f_symbol.length f_symbol
    (Coreinject.symbol_data.zero, Coreinject.symbol_data.zero) (le_refl _) h
  obtain ⟨h1, h2⟩ := foldl_set_entry symname (text_lines f_symbol)
    (Coreinject.symbol_data.zero, Coreinject.symbol_data.zero)
  rw [← hloop] at h1 h2
  unfold Coreinject.get_symbol_data
  simp only
  refine ⟨trivial, ?_, ?_⟩
  · rw [h1]
    cases last_entry symname 'D' (text_lines f_symbol) with
    | some e => simp only; split <;> exact ⟨rfl, rfl⟩
    | none => simp [Coreinject.symbol_data.zero]
  · rw [h2]
    cases last_entry symname 'I' (text_lines f_symbol) with
    | some e => exact ⟨rfl, rfl⟩
    | none => rfl

/-- C4 (amended) on a symbol map with two `D` rows for one identifier: the
second row wins, and inject_data writes at its offset `0x20`. -/
theorem get_symbol_data_last_entry_witness :
    (∀ l ∈ text_lines Example.map_two_d, l.length + 1 < 128) ∧
    last_entry "x".toList 'D' (text_lines Example.map_two_d) = some (0x20, 8) ∧
    (Coreinject.get_symbol_data "x".toList Example.map_two_d).2.1.core_offset = 0x20 ∧
    (Coreinject.get_symbol_data "x".toList Example.map_two_d).2.1.size = 8 ∧
    (Coreinject.get_symbol_data "x".toList Example.map_two_d).2.2 =
      Coreinject.symbol_data.zero ∧
    Coreinject.inject_data Example.core_zero Example.map_two_d "dumps/x".toList
        (some [1, 2, 3, 4, 5, 6, 7, 8]) =
      (0, file_write Example.core_zero 0x20 [1, 2, 3, 4, 5, 6, 7, 8]) := by
  have h := get_symbol_data_last_entry "x".toList Example.map_two_d (by decide)
  have e1 : last_entry "x".toList 'D' (text_lines Example.map_two_d) = some (0x20, 8) := by
    decide
  have e2 : last_entry "x".toList 'I' (text_lines Example.map_two_d) = none := by decide
  rw [e1, e2] at h
  exact ⟨by decide, e1, h.2.1.1, h.2.1.2, h.2.2, by decide⟩

set_option maxRecDepth 100000 in
/-- C4 (as stated, refuted). A symbol map whose only line is a valid `D` row
for an identifier of 130 characters: the line does not fit the 128-byte line
buffer, get_symbol_data sees it in two pieces, neither of which names the
identifier, and returns the all-zero direct record instead of the offset and
size of that row. -/
theorem get_symbol_data_long_line :
    text_lines Example.map_long = ["10 8 D ".toList ++ Example.long_ident] ∧
    line_entry Example.long_ident ("10 8 D ".toList ++ Example.long_ident) =
      some ('D', 0x10, 8) ∧
    last_entry Example.long_ident 'D' (text_lines Example.map_long) = some (0x10, 8) ∧
    (Coreinject.get_symbol_data Example.long_ident Example.map_long).2.1 =
      Coreinject.symbol_data.zero := by
  decide

theorem text_lines_no_newline (f : List Char) : ∀ l ∈ text_lines f, '\n' ∉ l := by
  induction f with
  | nil => intro l hl; simp [text_lines] at hl
  | cons c s ih =>
    intro l hl
    by_cases hc : c = '\n'
    · simp only [text_lines, hc, if_true, List.mem_cons] at hl
      rcases hl with hl | hl
      · subst hl; simp
      · exact ih l hl
    · simp only [text_lines, hc, if_false] at hl
      cases hts : text_lines s with
      | nil =>
        rw [hts] at hl
        simp only [List.mem_singleton] at hl
        subst hl
        intro hm
        simp only [List.mem_singleton] at hm
        exact hc hm.symm
      | cons x xs =>
        rw [hts] at hl ih
        simp only [List.mem_cons] at hl
        rcases hl with hl | hl
        · subst hl
          intro hm
          rcases List.mem_cons.mp hm with e | e
          · exact hc e.symm
          · exact ih x (by simp) e
        · exact ih l (by simp [hl])

theorem text_lines_unlines (ls : List (List Char)) (h : ∀ l ∈ ls, '\n' ∉ l) :
    text_lines (unlines ls) = ls := by
  induction ls with
  | nil => rfl
  | cons l ls ih =>
    rw [unlines, text_lines_append_newline l _ (h l (by simp)),
      ih (fun x hx => h x (by simp [hx]))]

/-- Lines that hold no entry for the symbol can be taken out of the list
without changing what the remaining lines leave in the records. -/
theorem foldl_set_entry_filter (symname : List Char) (keep : List Char → Bool)
    (ls : List (List Char)) (h : ∀ l ∈ ls, keep l = false → line_entry symname l = none) :
    ∀ st : Coreinject.symbol_data × Coreinject.symbol_data,
      (ls.filter keep).foldl (fun st l => set_entry symname (line_entry symname l) st) st =
        ls.foldl (fun st l => set_entry symname (line_entry symname l) st) st := by
  induction ls with
  | nil => intro st; rfl
  | cons l ls ih =>
    intro st
    have ih2 := ih (fun x hx => h x (by simp [hx]))
    cases hk : keep l with
    | true => simp only [List.filter_cons, hk, if_true, List.foldl_cons, ih2]
    | false =>
      have := h l (by simp) hk
      simp only [List.filter_cons, hk, List.foldl_cons, this, Bool.false_eq_true, if_false]
      exact ih2 st

/-- C5 (amended). Skip-invalid rule: in a symbol map whose lines are shorter
than 128 bytes with their newline, lines that do not match the per-line grammar
(fewer than three scanned fields, fewer than three spaces before the name, or a
type character other than `D` or `I`) are ignored: get_symbol_data returns 0,
and the same direct and indirect records as for the map with any of those
lines removed. -/
theorem get_symbol_data_skip_invalid (symname f_symbol : List Char)
    (removed : List Char → Bool)
    (h : ∀ l ∈ text_lines f_symbol, l.length + 1 < 128)
    (hrem : ∀ l ∈ text_lines f_symbol, removed l = true → line_valid l = false) :
    (Coreinject.get_symbol_data symname f_symbol).1 = 0 ∧
    Coreinject.get_symbol_data symname
        (unlines ((text_lines f_symbol).filter (fun l => !removed l))) =
      Coreinject.get_symbol_data symname f_symbol := by
  refine ⟨rfl, ?_⟩
  have hnl : ∀ l ∈ (text_lines f_symbol).filter (fun l => !removed l), '\n' ∉ l :=
    fun l hl => text_lines_no_newline f_symbol l (List.mem_filter.mp hl).1
  have htl := text_lines_unlines _ hnl
  have h1 := get_symbol_data_loop_lines symname f_symbol.length f_symbol
    (Coreinject.symbol_data.zero, Coreinject.symbol_data.zero) (le_refl _) h
  have h2 := get_symbol_data_loop_lines symname
    (unlines ((text_lines f_symbol).filter (fun l => !removed l))).length
    (unlines ((text_lines f_symbol).filter (fun l => !removed l)))
    (Coreinject.symbol_data.zero, Coreinject.symbol_data.zero) (le_refl _)
    (by rw [htl]; exact fun l hl => h l (List.mem_filter.mp hl).1)
  rw [htl, foldl_set_entry_filter symname (fun l => !removed l) (text_lines f_symbol)
    (fun l hl hk => line_entry_invalid symname l (hrem l hl (by simpa using hk)))] at h2
  unfold Coreinject.get_symbol_data
  simp only
  rw [h1, h2]

/-- C5 (amended) on a symbol map with a comment line, a blank line and a row of
unknown type: with them removed the map is the single row `1100 8 D buf`, and
get_symbol_data gives the same records for both. -/
theorem get_symbol_data_skip_invalid_witness :
    (∀ l ∈ text_lines Example.map_noise, l.length + 1 < 128) ∧
    (∀ l ∈ text_lines Example.map_noise, (!line_valid l) = true → line_valid l = false) ∧
    unlines ((text_lines Example.map_noise).filter (fun l => !(!line_valid l))) =
      "1100 8 D buf\n".toList ∧
    Coreinject.get_symbol_data "buf".toList "1100 8 D buf\n".toList =
      Coreinject.get_symbol_data "buf".toList Example.map_noise ∧
    (Coreinject.get_symbol_data "buf".toList Example.map_noise).2.1.core_offset = 0x1100 := by
  have h := get_symbol_data_skip_invalid "buf".toList Example.map_noise
    (fun l => !line_valid l) (by decide) (by decide)
  have e : unlines ((text_lines Example.map_noise).filter (fun l => !(!line_valid l))) =
      "1100 8 D buf\n".toList := by decide
  rw [e] at h
  exact ⟨by decide, by decide, e, h.2, by decide⟩

set_option maxRecDepth 100000 in
/-- C5 (as stated, refuted). A symbol map whose only line is 127 characters
`z` followed by `1100 8 D buf`: the line does not match the grammar (it has no
scanned field), yet it is not ignored.  get_symbol_data reads it in two pieces
of which the second is a valid row, and returns a direct record for `buf` that
the map without the line (the empty map) does not give. -/
theorem get_symbol_data_junk_line :
    text_lines (Example.junk_line ++ ['\n']) = [Example.junk_line] ∧
    line_valid Example.junk_line = false ∧
    sscanf_lx_ld_c (Coreinject.strip_endline (c_str Example.junk_line)) = none ∧
    (Coreinject.get_symbol_data "buf".toList (Example.junk_line ++ ['\n'])).2.1.core_offset =
      0x1100 ∧
    (Coreinject.get_symbol_data "buf".toList (Example.junk_line ++ ['\n'])).2.1.size = 8 ∧
    (Coreinject.get_symbol_data "buf".toList (unlines [])).2.1 = Coreinject.symbol_data.zero ∧
    Coreinject.get_symbol_data "buf".toList (Example.junk_line ++ ['\n']) ≠
      Coreinject.get_symbol_data "buf".toList (unlines []) := by
  decide

end Minicoredumper

namespace Minicoredumper.Corestripper

/-! ## The source-core importer -/

/-- Consecutive writes are one write of the concatenated bytes. -/
theorem file_write_merge (f : List Nat) (pos : Nat) (a b : List Nat) :
    file_write (file_write f pos a) (pos + a.length) b = file_write f pos (a ++ b) := by
  apply file_ext
  · simp only [file_write_length, List.length_append]
    cases a with
    | nil => cases b <;> simp
    | cons x a =>
      cases b with
      | nil => simp
      | cons y b => simp; omega
  · intro i
    rw [file_write_getD, file_write_getD, file_write_getD]
    simp only [List.length_append, List.getD_eq_getElem?_getD]
    by_cases h1 : pos + a.length ≤ i ∧ i < pos + a.length + b.length
    · rw [if_pos h1, if_pos (by omega), List.getElem?_append_right (by omega)]
      congr 2
      omega
    · rw [if_neg h1]
      by_cases h2 : pos ≤ i ∧ i < pos + a.length
      · rw [if_pos h2, if_pos (by omega), List.getElem?_append_left (by omega)]
      · rw [if_neg h2, if_neg (by omega)]

/-- The page-copy loop of init_src_core appends `i` pages of the source to
the core, and does not return when the source is shorter. -/
theorem copy_pages_eq (PAGESZ : Nat) (i : Nat) :
    ∀ (src : List Nat) (di : dump_info), di.core_pos = di.core.length →
      copy_pages PAGESZ i src di =
        if i * PAGESZ ≤ src.length then
          some (src.drop (i * PAGESZ),
            { di with core := di.core ++ src.take (i * PAGESZ),
                      core_pos := di.core_pos + i * PAGESZ })
        else none := by
  induction i with
  | zero => intro src di _; simp [copy_pages]
  | succ i ih =>
    intro src di hinv
    unfold copy_pages read_file_fd
    by_cases hP : PAGESZ ≤ src.length
    · rw [if_pos hP]
      simp only
      rw [ih _ _ (by simp [hinv, file_write_append, List.length_take]; omega)]
      simp only [List.length_drop]
      by_cases h2 : (i + 1) * PAGESZ ≤ src.length
      · have h3 : i * PAGESZ ≤ src.length - PAGESZ := by
          have : (i + 1) * PAGESZ = i * PAGESZ + PAGESZ := by ring
          omega
        rw [if_pos h2, if_pos h3]
        have e1 : (i + 1) * PAGESZ = PAGESZ + i * PAGESZ := by ring
        simp only [hinv, file_write_append, List.drop_drop, e1, List.take_add,
          List.append_assoc, Nat.add_assoc]
      · have h3 : ¬ i * PAGESZ ≤ src.length - PAGESZ := by
          have : (i + 1) * PAGESZ = i * PAGESZ + PAGESZ := by ring
          omega
        rw [if_neg h2, if_neg h3]
    · rw [if_neg hP]
      have h2 : ¬ (i + 1) * PAGESZ ≤ src.length := by
        have : (i + 1) * PAGESZ = i * PAGESZ + PAGESZ := by ring
        omega
      rw [if_neg h2]

/-- The vma list that parse_vma_info collects from a program header table: one
entry per readable `PT_LOAD` header, the last header first. -/
theorem do_elf_ph_parse_loop_vma_cb (ps : List GElf_Phdr) :
    ∀ di : dump_info,
      do_elf_ph_parse_loop { p_type := PT_LOAD, p_flags := PF_R } vma_cb (ps.map some) di =
        (0, { di with vma := ((ps.filter readable_load).map vma_of).reverse ++ di.vma }) := by
  induction ps with
  | nil => intro di; rfl
  | cons p ps ih =>
    intro di
    simp only [List.map_cons, do_elf_ph_parse_loop]
    by_cases h1 : p.p_type = PT_LOAD
    · by_cases h2 : (p.p_flags &&& PF_R) = PF_R
      · have hr : readable_load p = true := by simp [readable_load, h1, h2]
        have h3 : ¬ (PF_R ≠ 0 ∧ p.p_flags &&& PF_R ≠ PF_R) := by simp [h2]
        rw [if_neg (by simp [h1]), if_neg h3]
        simp only [vma_cb, lt_self_iff_false, if_false, gt_iff_lt]
        rw [ih]
        simp [List.filter_cons, hr, vma_of]
      · have hr : readable_load p = false := by simp [readable_load, h2]
        have h3 : (PF_R ≠ 0 ∧ p.p_flags &&& PF_R ≠ PF_R) := ⟨by decide, h2⟩
        rw [if_neg (by simp [h1]), if_pos h3, ih]
        simp [List.filter_cons, hr]
    · have hr : readable_load p = false := by simp [readable_load, h1]
      rw [if_pos (by simpa using h1), ih]
      simp [List.filter_cons, hr]

/-- When the header walk with vma_cb returns 0, libelf has delivered every
program header. -/
theorem do_elf_ph_parse_loop_ret (phdrs : List (Option GElf_Phdr)) :
    ∀ di : dump_info,
      (do_elf_ph_parse_loop { p_type := PT_LOAD, p_flags := PF_R } vma_cb phdrs di).1 = 0 →
        ∃ ps : List GElf_Phdr, phdrs = ps.map some := by
  induction phdrs with
  | nil => intro di _; exact ⟨[], rfl⟩
  | cons x phdrs ih =>
    intro di h
    cases x with
    | none => simp [do_elf_ph_parse_loop] at h
    | some p =>
      simp only [do_elf_ph_parse_loop] at h
      have key : ∃ di2, (do_elf_ph_parse_loop { p_type := PT_LOAD, p_flags := PF_R } vma_cb
          phdrs di2).1 = 0 := by
        split at h
        · exact ⟨_, h⟩
        · split at h
          · exact ⟨_, h⟩
          · simp only [vma_cb, lt_self_iff_false, if_false, gt_iff_lt] at h
            exact ⟨_, h⟩
      obtain ⟨di2, h2⟩ := key
      obtain ⟨ps, hps⟩ := ih di2 h2
      exact ⟨p :: ps, by simp [hps]⟩

/-- The scan of parse_vma_info as a fold. -/
theorem parse_vma_info_scan_foldl (vs : List core_vma) :
    ∀ acc : Nat × Nat,
      parse_vma_info_scan vs acc =
        vs.foldl (fun acc v =>
          (if sub64 (add64 v.file_off v.file_end) v.start > acc.1
            then sub64 (add64 v.file_off v.file_end) v.start else acc.1,
           if v.file_off < acc.2 then v.file_off else acc.2)) acc := by
  induction vs with
  | nil => intro acc; rfl
  | cons v vs ih =>
    intro acc
    obtain ⟨a, b⟩ := acc
    simp only [parse_vma_info_scan, List.foldl_cons]
    rw [ih]

/-- The length that parse_vma_info computes for a vma is `p_offset + p_filesz`
in 64-bit arithmetic. -/
theorem vma_len (p : GElf_Phdr) :
    sub64 (add64 (vma_of p).file_off (vma_of p).file_end) (vma_of p).start =
      (p.p_offset + p.p_filesz) % 2 ^ 64 := by
  simp only [vma_of, sub64, add64]
  omega

/-- What the scan of parse_vma_info finds on the collected list: the largest
`p_offset + p_filesz` and the smallest `p_offset` of the readable `PT_LOAD`
headers, when no sum overflows 64 bits. -/
theorem parse_vma_info_scan_spec (ps : List GElf_Phdr)
    (h : ∀ p ∈ ps, readable_load p = true → p.p_offset + p.p_filesz < 2 ^ 64) :
    parse_vma_info_scan (((ps.filter readable_load).map vma_of).reverse) (0, ULONG_MAX) =
      (max_end readable_load ps, min_off readable_load ps) := by
  rw [parse_vma_info_scan_foldl, List.foldl_reverse]
  induction ps with
  | nil => rfl
  | cons p ps ih =>
    have ih2 := ih (fun q hq => h q (by simp [hq]))
    cases hr : readable_load p with
    | false => simp only [List.filter_cons, hr, max_end, min_off]; exact ih2
    | true =>
      have hp := h p (by simp) hr
      simp only [List.filter_cons, hr, if_true, List.map_cons, List.foldr_cons, max_end, min_off]
      rw [ih2, vma_len, Nat.mod_eq_of_lt hp]
      simp only [vma_of]
      congr 1
      · split <;> omega
      · split <;> omega

theorem min_off_le_max_end (ps : List GElf_Phdr)
    (h : max_end readable_load ps ≠ 0) :
    min_off readable_load ps ≤ max_end readable_load ps := by
  induction ps with
  | nil => simp [max_end] at h
  | cons p ps ih =>
    cases hr : readable_load p with
    | false =>
      simp only [max_end, min_off, hr] at h ⊢
      exact ih h
    | true =>
      simp only [max_end, min_off, hr, if_true] at h ⊢
      omega

/-- When copy_data from the streamed source returns, it returns 0, has read
`len` bytes and has written them at the position of the destination. -/
theorem copy_data_loop_some (fuel : Nat) :
    ∀ (src dest : List Nat) (pos len chunk : Nat) (r : Int × List Nat × List Nat × Nat),
      copy_data_loop read_file_fd fuel src dest pos len chunk = some r →
        r = (0, src.drop len, file_write dest pos (src.take len), pos + len) ∧
          len ≤ src.length := by
  induction fuel with
  | zero =>
    intro src dest pos len chunk r h
    cases len with
    | zero =>
      simp only [copy_data_loop, Option.some.injEq] at h
      subst h
      simp [file_write]
    | succ len => simp [copy_data_loop] at h
  | succ fuel ih =>
    intro src dest pos len chunk r h
    cases len with
    | zero =>
      simp only [copy_data_loop, Option.some.injEq] at h
      subst h
      simp [file_write]
    | succ len =>
      simp only [copy_data_loop, read_file_fd] at h
      by_cases hc : (if len + 1 < chunk then len + 1 else chunk) ≤ src.length
      · rw [if_pos hc] at h
        simp only at h
        obtain ⟨h1, h2⟩ := ih _ _ _ _ _ _ h
        generalize hcd : (if len + 1 < chunk then len + 1 else chunk) = c at *
        have hcl : c ≤ len + 1 := by rw [← hcd]; split <;> omega
        have hpos : pos + c = pos + (List.take c src).length := by
          rw [List.length_take]; omega
        simp only [List.length_drop] at h2
        refine ⟨?_, by omega⟩
        rw [h1, hpos, file_write_merge, List.drop_drop, ← List.take_add]
        have e1 : c + (len + 1 - c) = len + 1 := by omega
        have e2 : pos + (List.take c src).length + (len + 1 - c) = pos + (len + 1) := by
          rw [List.length_take]; omega
        rw [e1, e2]
      · rw [if_neg hc] at h
        simp at h

/-- The header walk with vma_cb leaves the core file and its position alone. -/
theorem do_elf_ph_parse_loop_core (phdrs : List (Option GElf_Phdr)) :
    ∀ di : dump_info,
      (do_elf_ph_parse_loop { p_type := PT_LOAD, p_flags := PF_R } vma_cb phdrs di).2.core =
          di.core ∧
        (do_elf_ph_parse_loop { p_type := PT_LOAD, p_flags := PF_R } vma_cb phdrs di).2.core_pos =
          di.core_pos := by
  induction phdrs with
  | nil => intro di; exact ⟨rfl, rfl⟩
  | cons x phdrs ih =>
    intro di
    cases x with
    | none => exact ⟨rfl, rfl⟩
    | some p =>
      simp only [do_elf_ph_parse_loop]
      split
      · exact ih di
      · split
        · exact ih di
        · simp only [vma_cb, lt_self_iff_false, if_false, gt_iff_lt]
          exact ih _

/-- The function parse_vma_info leaves the core file and its position alone. -/
theorem parse_vma_info_core (elf_read : elf_view) (di : dump_info) :
    (parse_vma_info elf_read di).2.core = di.core ∧
      (parse_vma_info elf_read di).2.core_pos = di.core_pos := by
  have hw : ∀ d : dump_info,
      (do_elf_ph_parse elf_read d { p_type := PT_LOAD, p_flags := PF_R } vma_cb).2.core =
          d.core ∧
        (do_elf_ph_parse elf_read d { p_type := PT_LOAD, p_flags := PF_R } vma_cb).2.core_pos =
          d.core_pos := by
    intro d
    unfold do_elf_ph_parse
    split
    · exact ⟨rfl, rfl⟩
    · split
      · exact ⟨rfl, rfl⟩
      · exact do_elf_ph_parse_loop_core _ d
  have hw2 := hw { di with vma_start := 0, vma_end := 0, vma := [] }
  unfold parse_vma_info
  simp only
  split
  · exact hw2
  · split
    · exact hw2
    · exact hw2

/-- What parse_vma_info returns on a header table that libelf delivers in full. -/
theorem parse_vma_info_of_headers (elf_read : elf_view) (di : dump_info) (ps : List GElf_Phdr)
    (h : elf_read di.core = some (ps.map some)) (hne : ps ≠ []) :
    parse_vma_info elf_read di =
      if (parse_vma_info_scan (((ps.filter readable_load).map vma_of).reverse)
            (0, ULONG_MAX)).1 = 0 ∨
          (parse_vma_info_scan (((ps.filter readable_load).map vma_of).reverse)
            (0, ULONG_MAX)).2 = ULONG_MAX then
        (-1, { di with vma_start := 0, vma_end := 0,
                       vma := ((ps.filter readable_load).map vma_of).reverse })
      else
        (0, { di with
          vma_start := (parse_vma_info_scan (((ps.filter readable_load).map vma_of).reverse)
            (0, ULONG_MAX)).2,
          vma_end := (parse_vma_info_scan (((ps.filter readable_load).map vma_of).reverse)
            (0, ULONG_MAX)).1,
          vma := ((ps.filter readable_load).map vma_of).reverse }) := by
  have hlen : ¬ (ps.map some).length = 0 := by
    simp only [List.length_map]
    intro h0
    exact hne (List.length_eq_zero.mp h0)
  unfold parse_vma_info do_elf_ph_parse
  simp only [h, hlen, if_false, do_elf_ph_parse_loop_vma_cb, ne_eq, not_true_eq_false,
    List.append_nil]

/-- When parse_vma_info returns 0, libelf has delivered a header table in full. -/
theorem parse_vma_info_ret (elf_read : elf_view) (di : dump_info)
    (h : (parse_vma_info elf_read di).1 = 0) :
    ∃ ps : List GElf_Phdr, elf_read di.core = some (ps.map some) ∧ ps ≠ [] := by
  unfold parse_vma_info do_elf_ph_parse at h
  simp only at h
  cases hv : elf_read di.core with
  | none => rw [hv] at h; simp at h
  | some phdrs =>
    rw [hv] at h
    simp only at h
    by_cases h0 : phdrs.length = 0
    · simp [h0] at h
    · simp only [h0, if_false] at h
      have hl : (do_elf_ph_parse_loop { p_type := PT_LOAD, p_flags := PF_R } vma_cb phdrs
          { di with vma_start := 0, vma_end := 0, vma := [] }).1 = 0 := by
        by_contra hc
        simp [hc] at h
      obtain ⟨ps, hps⟩ := do_elf_ph_parse_loop_ret phdrs _ hl
      refine ⟨ps, by rw [hps], ?_⟩
      intro he
      subst he
      simp [hps] at h0

/-- What a successful parse_vma_info has found. -/
theorem parse_vma_info_success (elf_read : elf_view) (di : dump_info)
    (h : (parse_vma_info elf_read di).1 = 0) :
    ∃ ps : List GElf_Phdr, elf_read di.core = some (ps.map some) ∧ ps ≠ [] ∧
      (parse_vma_info_scan (((ps.filter readable_load).map vma_of).reverse)
        (0, ULONG_MAX)).1 ≠ 0 ∧
      (parse_vma_info_scan (((ps.filter readable_load).map vma_of).reverse)
        (0, ULONG_MAX)).2 ≠ ULONG_MAX ∧
      (parse_vma_info elf_read di).2.vma_end =
        (parse_vma_info_scan (((ps.filter readable_load).map vma_of).reverse)
          (0, ULONG_MAX)).1 ∧
      (parse_vma_info elf_read di).2.vma_start =
        (parse_vma_info_scan (((ps.filter readable_load).map vma_of).reverse)
          (0, ULONG_MAX)).2 ∧
      (parse_vma_info elf_read di).2.vma = ((ps.filter readable_load).map vma_of).reverse := by
  obtain ⟨ps, hps, hne⟩ := parse_vma_info_ret elf_read di h
  have he := parse_vma_info_of_headers elf_read di ps hps hne
  refine ⟨ps, hps, hne, ?_⟩
  by_cases hbad : (parse_vma_info_scan (((ps.filter readable_load).map vma_of).reverse)
        (0, ULONG_MAX)).1 = 0 ∨
      (parse_vma_info_scan (((ps.filter readable_load).map vma_of).reverse)
        (0, ULONG_MAX)).2 = ULONG_MAX
  · rw [if_pos hbad] at he
    rw [he] at h
    simp at h
  · rw [if_neg hbad] at he
    rw [he]
    exact ⟨fun e => hbad (Or.inl e), fun e => hbad (Or.inr e), rfl, rfl, rfl⟩

/-- A successful init_src_core has, in one of its rounds, parsed the header
table of the pages imported so far; the core then reaches to the end of the
imported pages, to vma_end and to vma_start, whichever is largest. -/
theorem init_src_core_again_spec (elf_read : elf_view) (PAGESZ : Nat) (left : Nat) :
    ∀ (src : List Nat) (di : dump_info) (src1 : List Nat) (di1 : dump_info),
      di.core_pos = di.core.length →
      init_src_core_again elf_read PAGESZ left src di = some (0, src1, di1) →
      ∃ (k : Nat) (ps : List GElf_Phdr), 1 ≤ k ∧ k ≤ left ∧ 2 * PAGESZ * k ≤ src.length ∧
        elf_read (di.core ++ src.take (2 * PAGESZ * k)) = some (ps.map some) ∧ ps ≠ [] ∧
        (parse_vma_info_scan (((ps.filter readable_load).map vma_of).reverse)
          (0, ULONG_MAX)).1 ≠ 0 ∧
        (parse_vma_info_scan (((ps.filter readable_load).map vma_of).reverse)
          (0, ULONG_MAX)).2 ≠ ULONG_MAX ∧
        di1.vma_end = (parse_vma_info_scan (((ps.filter readable_load).map vma_of).reverse)
          (0, ULONG_MAX)).1 ∧
        di1.vma_start = (parse_vma_info_scan (((ps.filter readable_load).map vma_of).reverse)
          (0, ULONG_MAX)).2 ∧
        di1.core.length = max (max (di.core.length + 2 * PAGESZ * k) di1.vma_end)
          di1.vma_start := by
  induction left with
  | zero =>
    intro src di src1 di1 _ h
    simp [init_src_core_again] at h
  | succ left ih =>
    intro src di src1 di1 hinv h
    unfold init_src_core_again at h
    rw [copy_pages_eq PAGESZ 2 src di hinv] at h
    by_cases h2 : 2 * PAGESZ ≤ src.length
    · rw [if_pos h2] at h
      simp only at h
      obtain ⟨D, hD⟩ : ∃ D : dump_info, D = ({ di with
          core := di.core ++ src.take (2 * PAGESZ),
          core_pos := di.core_pos + 2 * PAGESZ } : dump_info) := ⟨_, rfl⟩
      rw [← hD] at h
      have hDcore : D.core = di.core ++ src.take (2 * PAGESZ) := by rw [hD]
      have hDpos : D.core_pos = di.core_pos + 2 * PAGESZ := by rw [hD]
      have hDlen : D.core.length = di.core.length + 2 * PAGESZ := by
        rw [hDcore, List.length_append, List.length_take]; omega
      obtain ⟨hc1, hc2⟩ := parse_vma_info_core elf_read D
      have hs := parse_vma_info_success elf_read D
      generalize parse_vma_info elf_read D = r at h hc1 hc2 hs
      obtain ⟨ret, R⟩ := r
      simp only at h hc1 hc2 hs
      by_cases hret : ret = 0
      · subst hret
        obtain ⟨ps, hps, hne, hs1, hs2, hs3, hs4, _⟩ := hs rfl
        simp only [ne_eq, not_true_eq_false, if_false] at h
        refine ⟨1, ps, le_refl _, by omega, by omega, ?_, hne, hs1, hs2, ?_⟩
        · rw [Nat.mul_one, ← hDcore]; exact hps
        · by_cases hgt : R.vma_start > di.core_pos + 2 * PAGESZ
          · rw [if_pos hgt] at h
            unfold copy_data at h
            split at h
            · cases h
            · next c hc =>
              obtain ⟨hc3, hc4⟩ := copy_data_loop_some _ _ _ _ _ _ _ hc
              simp only [Option.some.injEq, Prod.mk.injEq] at h
              obtain ⟨_, _, h3⟩ := h
              subst h3
              refine ⟨hs3, hs4, ?_⟩
              show c.2.2.1.length = _
              rw [hc3]
              simp only
              have hE : R.vma_end ≠ 0 := by rw [hs3]; exact hs1
              have hlt : (List.take (R.vma_start - (di.core_pos + 2 * PAGESZ))
                  (List.drop (2 * PAGESZ) src)).length =
                  R.vma_start - (di.core_pos + 2 * PAGESZ) := by
                rw [List.length_take]; omega
              have hne2 : List.take (R.vma_start - (di.core_pos + 2 * PAGESZ))
                  (List.drop (2 * PAGESZ) src) ≠ [] := by
                intro he
                rw [he] at hlt
                simp only [List.length_nil] at hlt
                omega
              rw [file_write_length, file_write_length, if_neg hne2,
                if_neg (List.cons_ne_nil 0 []), hlt, hc1, hDlen, List.length_singleton, hinv,
                Nat.mul_one]
              rw [hinv] at hgt
              show max (max (di.core.length + 2 * PAGESZ) (R.vma_end - 1 + 1))
                (di.core.length + 2 * PAGESZ + (R.vma_start - (di.core.length + 2 * PAGESZ))) =
                max (max (di.core.length + 2 * PAGESZ) R.vma_end) R.vma_start
              omega
          · rw [if_neg hgt] at h
            simp only [Option.some.injEq, Prod.mk.injEq] at h
            obtain ⟨_, _, h3⟩ := h
            subst h3
            refine ⟨hs3, hs4, ?_⟩
            show (file_write R.core (R.vma_end - 1) [0]).length = _
            have hE : R.vma_end ≠ 0 := by rw [hs3]; exact hs1
            rw [file_write_length, if_neg (List.cons_ne_nil 0 []), hc1, hDlen,
              List.length_singleton, Nat.mul_one]
            rw [hinv] at hgt
            show max (di.core.length + 2 * PAGESZ) (R.vma_end - 1 + 1) =
              max (max (di.core.length + 2 * PAGESZ) R.vma_end) R.vma_start
            omega
      · simp only [ne_eq, hret, not_false_eq_true, if_true] at h
        by_cases hl : 0 < left
        · rw [if_pos hl] at h
          obtain ⟨k, ps, hk1, hk2, hk3, hk4, hk5, hk6, hk7, hk8, hk9, hk10⟩ :=
            ih _ _ _ _ (by simp only [hc1, hDlen, hinv]) h
          simp only [hc1, List.length_drop] at hk3 hk4 hk10
          refine ⟨k + 1, ps, by omega, by omega, ?_, ?_, hk5, hk6, hk7, hk8, hk9, ?_⟩
          · have : 2 * PAGESZ * (k + 1) = 2 * PAGESZ + 2 * PAGESZ * k := by ring
            omega
          · have e : 2 * PAGESZ * (k + 1) = 2 * PAGESZ + 2 * PAGESZ * k := by ring
            rw [e, List.take_add, ← List.append_assoc, ← hDcore]
            exact hk4
          · have e : 2 * PAGESZ * (k + 1) = 2 * PAGESZ + 2 * PAGESZ * k := by ring
            rw [hk10, hDlen, e, Nat.add_assoc]
        · rw [if_neg hl] at h
          simp only [Option.some.injEq, Prod.mk.injEq] at h
          exact absurd h.1 hret
    · rw [if_neg h2] at h
      cases h

/-- A run of init_src_core that succeeds in its first round, on a header table
whose first loadable segment starts inside the two imported pages. -/
theorem init_src_core_first_round (elf_read : elf_view) (PAGESZ : Nat) (src : List Nat)
    (ps : List GElf_Phdr) (h2 : 2 * PAGESZ ≤ src.length)
    (hps : elf_read (src.take (2 * PAGESZ)) = some (ps.map some)) (hne : ps ≠ [])
    (hE : (parse_vma_info_scan (((ps.filter readable_load).map vma_of).reverse)
      (0, ULONG_MAX)).1 ≠ 0)
    (hS : (parse_vma_info_scan (((ps.filter readable_load).map vma_of).reverse)
      (0, ULONG_MAX)).2 ≠ ULONG_MAX)
    (hle : (parse_vma_info_scan (((ps.filter readable_load).map vma_of).reverse)
      (0, ULONG_MAX)).2 ≤ 2 * PAGESZ) :
    init_src_core elf_read PAGESZ src {} =
      some (0, src.drop (2 * PAGESZ),
        { core := file_write (src.take (2 * PAGESZ))
            ((parse_vma_info_scan (((ps.filter readable_load).map vma_of).reverse)
              (0, ULONG_MAX)).1 - 1) [0]
          core_pos := 2 * PAGESZ
          vma := ((ps.filter readable_load).map vma_of).reverse
          vma_start := (parse_vma_info_scan (((ps.filter readable_load).map vma_of).reverse)
            (0, ULONG_MAX)).2
          vma_end := (parse_vma_info_scan (((ps.filter readable_load).map vma_of).reverse)
            (0, ULONG_MAX)).1 }) := by
  have hp := parse_vma_info_of_headers elf_read
    { core := src.take (2 * PAGESZ), core_pos := 2 * PAGESZ } ps hps hne
  rw [if_neg (by simp only [not_or]; exact ⟨hE, hS⟩)] at hp
  unfold init_src_core init_src_core_again
  rw [copy_pages_eq PAGESZ 2 src {} rfl, if_pos h2]
  simp only [List.nil_append, Nat.zero_add, hp, ne_eq, not_true_eq_false, if_false, gt_iff_lt]
  rw [if_neg (by omega)]

/-- C9 (amended). Sparse-core length: after a successful init_src_core there
is a round `k` (at most the tenth) in which libelf read the program header
table from the `2 * PAGESZ * k` bytes imported so far, and, when no more bytes
were imported than that maximum, the length of the output core equals the
maximum of `p_offset + p_filesz` taken over the `PT_LOAD` program headers with
`PF_R` set (the headers that parse_vma_info collects), no sum overflowing 64
bits. -/
theorem init_src_core_length (elf_read : elf_view) (PAGESZ : Nat) (src src1 : List Nat)
    (di1 : dump_info) (h : init_src_core elf_read PAGESZ src {} = some (0, src1, di1)) :
    ∃ (k : Nat) (ps : List GElf_Phdr), 1 ≤ k ∧ k ≤ 10 ∧ 2 * PAGESZ * k ≤ src.length ∧
      elf_read (src.take (2 * PAGESZ * k)) = some (ps.map some) ∧
      ((∀ p ∈ ps, readable_load p = true → p.p_offset + p.p_filesz < 2 ^ 64) →
        2 * PAGESZ * k ≤ max_end readable_load ps →
        di1.core.length = max_end readable_load ps) := by
  obtain ⟨k, ps, hk1, hk2, hk3, hk4, _, hk6, _, hk8, hk9, hk10⟩ :=
    init_src_core_again_spec elf_read PAGESZ 10 src {} src1 di1 rfl h
  refine ⟨k, ps, hk1, hk2, hk3, by simpa using hk4, ?_⟩
  intro hov hle
  have hscan := parse_vma_info_scan_spec ps hov
  rw [hscan] at hk6 hk8 hk9
  simp only at hk6 hk8 hk9
  have hmin := min_off_le_max_end ps hk6
  rw [hk10, hk8, hk9]
  show max (max (0 + 2 * PAGESZ * k) (max_end readable_load ps)) (min_off readable_load ps) =
    max_end readable_load ps
  omega

/-- C9 (amended) on a source core of two pages with one readable `PT_LOAD`
header ending at `0x2000`: init_src_core succeeds in its first round and the
core is `0x2000` bytes long. -/
theorem init_src_core_length_witness :
    ∃ (src1 : List Nat) (di1 : dump_info),
      init_src_core Example.elf_one 4096 Example.src_two_pages {} = some (0, src1, di1) ∧
      di1.core.length = 0x2000 ∧
      ∃ (k : Nat) (ps : List GElf_Phdr), 1 ≤ k ∧ k ≤ 10 ∧
        2 * 4096 * k ≤ Example.src_two_pages.length ∧
        Example.elf_one (Example.src_two_pages.take (2 * 4096 * k)) = some (ps.map some) ∧
        ((∀ p ∈ ps, readable_load p = true → p.p_offset + p.p_filesz < 2 ^ 64) →
          2 * 4096 * k ≤ max_end readable_load ps →
          di1.core.length = max_end readable_load ps) := by
  have hscan : parse_vma_info_scan
      ((([Example.phdr_text].filter readable_load).map vma_of).reverse) (0, ULONG_MAX) =
      (0x2000, 0x1000) := by decide
  have hlen : 2 * 4096 ≤ Example.src_two_pages.length := by
    have e : Example.src_two_pages.length = 0x2000 := List.length_replicate _ _
    omega
  have hrun := init_src_core_first_round Example.elf_one 4096 Example.src_two_pages
    [Example.phdr_text] hlen rfl (by simp) (by rw [hscan]; decide) (by rw [hscan]; decide)
    (by rw [hscan]; decide)
  refine ⟨_, _, hrun, ?_, init_src_core_length _ _ _ _ _ hrun⟩
  rw [hscan]
  simp only [file_write_length, List.length_take, Example.src_two_pages, List.length_replicate]
  decide

/-- C9 (as stated, refuted). A source core with a readable `PT_LOAD` header
(file offset `0x1000`, size `0x1000`) and a `PT_LOAD` header without `PF_R`
(file offset `0x2000`, size `0x1000`): init_src_core succeeds and leaves a core
of `0x2000` bytes, while the maximum of `p_offset + p_filesz` over all
`PT_LOAD` headers is `0x3000`. -/
theorem init_src_core_unreadable_load :
    (∃ (src1 : List Nat) (di1 : dump_info),
      init_src_core Example.elf_two 4096 Example.src_three_pages {} = some (0, src1, di1) ∧
      di1.core.length = 0x2000) ∧
    max_end is_load [Example.phdr_text, Example.phdr_noaccess] = 0x3000 ∧
    max_end readable_load [Example.phdr_text, Example.phdr_noaccess] = 0x2000 := by
  have hscan : parse_vma_info_scan
      ((([Example.phdr_text, Example.phdr_noaccess].filter readable_load).map vma_of).reverse)
      (0, ULONG_MAX) = (0x2000, 0x1000) := by decide
  have hlen : 2 * 4096 ≤ Example.src_three_pages.length := by
    have e : Example.src_three_pages.length = 0x3000 := List.length_replicate _ _
    omega
  have hrun := init_src_core_first_round Example.elf_two 4096 Example.src_three_pages
    [Example.phdr_text, Example.phdr_noaccess] hlen rfl (by simp) (by rw [hscan]; decide)
    (by rw [hscan]; decide) (by rw [hscan]; decide)
  refine ⟨⟨_, _, hrun, ?_⟩, by decide, by decide⟩
  rw [hscan]
  simp only [file_write_length, List.length_take, Example.src_three_pages,
    List.length_replicate]
  decide

/-- C10 (the code differs). A source core whose only readable `PT_LOAD` header
has file offset `0x1000` and file size 0, page size 4096, every input byte
`0xff`: init_src_core succeeds with vma_start `0x1000`, and byte `0xfff` of
the output core, which lies before the first loadable segment, is 0 where the
input holds `0xff`: the zero byte written at `vma_end - 1` to size the core
lands inside the copied prefix. -/
theorem init_src_core_clobbers_prefix :
    ∃ (src1 : List Nat) (di1 : dump_info),
      init_src_core Example.elf_empty 4096 Example.src_ones {} = some (0, src1, di1) ∧
      di1.vma_start = 0x1000 ∧ di1.vma_end = 0x1000 ∧
      min_off readable_load [Example.phdr_empty] = 0x1000 ∧
      di1.core.getD 0xfff 0 = 0 ∧ Example.src_ones.getD 0xfff 0 = 0xff := by
  have hscan : parse_vma_info_scan
      ((([Example.phdr_empty].filter readable_load).map vma_of).reverse) (0, ULONG_MAX) =
      (0x1000, 0x1000) := by decide
  have hlen : 2 * 4096 ≤ Example.src_ones.length := by
    have e : Example.src_ones.length = 0x2000 := List.length_replicate _ _
    omega
  have hrun := init_src_core_first_round Example.elf_empty 4096 Example.src_ones
    [Example.phdr_empty] hlen rfl (by simp) (by rw [hscan]; decide) (by rw [hscan]; decide)
    (by rw [hscan]; decide)
  refine ⟨_, _, hrun, ?_, ?_, by decide, ?_, ?_⟩
  · rw [hscan]
  · rw [hscan]
  · rw [hscan]
    simp only [file_write_getD]
    rfl
  · unfold Example.src_ones
    rw [List.getD_eq_getElem?_getD, List.getElem?_replicate]
    rfl

end Minicoredumper.Corestripper

namespace Minicoredumper.Corestripper

/-! ## The minimal core -/

/-- The core that init_src_core leaves for the two segments of scenario 2: the
two imported pages, then holes up to `0x4000`. -/
theorem init_src_core_scenario2 (elf_read : elf_view) (src : List Nat)
    (h2 : 2 * 4096 ≤ src.length)
    (hps : elf_read (src.take (2 * 4096)) =
      some ([Example.phdr_seg1, Example.phdr_seg2].map some)) :
    init_src_core elf_read 4096 src {} =
      some (0, src.drop (2 * 4096),
        { core := file_write (src.take (2 * 4096)) (0x4000 - 1) [0]
          core_pos := 2 * 4096
          vma := [vma_of Example.phdr_seg2, vma_of Example.phdr_seg1]
          vma_start := 0x1000
          vma_end := 0x4000 }) := by
  have hscan : parse_vma_info_scan
      ((([Example.phdr_seg1, Example.phdr_seg2].filter readable_load).map vma_of).reverse)
      (0, ULONG_MAX) = (0x4000, 0x1000) := by decide
  have hrun := init_src_core_first_round elf_read 4096 src
    [Example.phdr_seg1, Example.phdr_seg2] h2 hps (by simp) (by rw [hscan]; decide)
    (by rw [hscan]; decide) (by rw [hscan]; decide)
  rw [hrun, hscan]
  rfl

/-- What the core of scenario 2 holds: the first two pages of the input, then
zeros up to `0x4000`. -/
theorem core_scenario2_bytes (src : List Nat) (h2 : 2 * 4096 ≤ src.length) :
    (file_write (src.take (2 * 4096)) (0x4000 - 1) [0]).length = 0x4000 ∧
    (∀ i, i < 0x2000 →
      (file_write (src.take (2 * 4096)) (0x4000 - 1) [0]).getD i 0 = src.getD i 0) ∧
    (∀ i, 0x2000 ≤ i → i < 0x4000 →
      (file_write (src.take (2 * 4096)) (0x4000 - 1) [0]).getD i 0 = 0) := by
  refine ⟨?_, ?_, ?_⟩
  · rw [file_write_length, if_neg (List.cons_ne_nil 0 []), List.length_take,
      List.length_singleton]
    omega
  · intro i hi
    rw [file_write_getD, if_neg (by omega), List.getD_eq_getElem?_getD,
      List.getD_eq_getElem?_getD, List.getElem?_take_of_lt (by omega)]
  · intro i h1 h3
    rw [file_write_getD]
    split
    · next hc =>
      have : i - (0x4000 - 1) = 0 := by omega
      rw [this]
      rfl
    · rw [List.getD_eq_getElem?_getD, List.getElem?_eq_none]
      · rfl
      · rw [List.length_take]; omega

/-- C11 (amended). Minimal-core scenario: for a source core with two
`PT_LOAD | PF_R` segments at file offsets `0x1000` (size `0x1000`) and `0x2000`
(size `0x2000`), a 4096-byte page and a header table that libelf reads from
the first two pages, init_src_core succeeds and leaves a core of exactly
`0x4000` bytes whose offsets `[0, 0x2000)`, the two pages imported before the
headers are parsed, equal the input, and whose offsets `[0x2000, 0x4000)` all
read as zero. -/
theorem init_src_core_minimal_core (elf_read : elf_view) (src : List Nat)
    (h2 : 2 * 4096 ≤ src.length)
    (hps : elf_read (src.take (2 * 4096)) =
      some ([Example.phdr_seg1, Example.phdr_seg2].map some)) :
    ∃ (src1 : List Nat) (di1 : dump_info),
      init_src_core elf_read 4096 src {} = some (0, src1, di1) ∧
      di1.core.length = 0x4000 ∧
      (∀ i, i < 0x2000 → di1.core.getD i 0 = src.getD i 0) ∧
      (∀ i, 0x2000 ≤ i → i < 0x4000 → di1.core.getD i 0 = 0) :=
  ⟨_, _, init_src_core_scenario2 elf_read src h2 hps, core_scenario2_bytes src h2⟩

/-- C11 (amended) on a source core of four pages, every byte 7. -/
theorem init_src_core_minimal_core_witness :
    2 * 4096 ≤ Example.src_four_pages.length ∧
    Example.elf_scenario2 (Example.src_four_pages.take (2 * 4096)) =
      some ([Example.phdr_seg1, Example.phdr_seg2].map some) ∧
    ∃ (src1 : List Nat) (di1 : dump_info),
      init_src_core Example.elf_scenario2 4096 Example.src_four_pages {} =
        some (0, src1, di1) ∧
      di1.core.length = 0x4000 ∧
      (∀ i, i < 0x2000 → di1.core.getD i 0 = Example.src_four_pages.getD i 0) ∧
      (∀ i, 0x2000 ≤ i → i < 0x4000 → di1.core.getD i 0 = 0) := by
  have e : Example.src_four_pages.length = 0x4000 := List.length_replicate _ _
  have h2 : 2 * 4096 ≤ Example.src_four_pages.length := by omega
  exact ⟨h2, rfl, init_src_core_minimal_core Example.elf_scenario2 Example.src_four_pages h2 rfl⟩

/-- C11 (as stated, refuted). Scenario 2 on an input whose every byte is 7:
init_src_core leaves a core of `0x4000` bytes, but offset `0x1000`, inside
`[0x1000, 0x4000)`, reads 7 as in the input and not zero: the second imported
page is part of the core. -/
theorem init_src_core_second_page_copied :
    ∃ (src1 : List Nat) (di1 : dump_info),
      init_src_core Example.elf_scenario2 4096 Example.src_four_pages {} =
        some (0, src1, di1) ∧
      di1.core.length = 0x4000 ∧
      di1.core.getD 0x1000 0 = 7 ∧ Example.src_four_pages.getD 0x1000 0 = 7 := by
  have e : Example.src_four_pages.length = 0x4000 := List.length_replicate _ _
  have h2 : 2 * 4096 ≤ Example.src_four_pages.length := by omega
  have hb := core_scenario2_bytes Example.src_four_pages h2
  have h7 : Example.src_four_pages.getD 0x1000 0 = 7 := by
    unfold Example.src_four_pages
    rw [List.getD_eq_getElem?_getD, List.getElem?_replicate]
    rfl
  refine ⟨_, _, init_src_core_scenario2 Example.elf_scenario2 Example.src_four_pages h2 rfl,
    hb.1, ?_, h7⟩
  rw [hb.2.1 0x1000 (by decide), h7]

end Minicoredumper.Corestripper

namespace Minicoredumper.Corestripper

/-! ## The VMA-scoped writer -/

theorem pread_mem_length (mem : Nat → Option Nat) (len : Nat) :
    ∀ (addr : Nat) (bytes : List Nat), pread_mem mem addr len = some bytes →
      bytes.length = len := by
  induction len with
  | zero =>
    intro addr bytes h
    simp only [pread_mem, Option.some.injEq] at h
    subst h
    rfl
  | succ len ih =>
    intro addr bytes h
    unfold pread_mem at h
    cases hm : mem addr with
    | none => simp [hm] at h
    | some b =>
      cases hr : pread_mem mem (addr + 1) len with
      | none => simp [hm, hr] at h
      | some bs =>
        simp only [hm, hr, Option.some.injEq] at h
        subst h
        simp [ih _ _ hr]

/-- A read of `m + n` bytes is a read of `m` bytes followed by one of `n`. -/
theorem pread_mem_split (mem : Nat → Option Nat) (m n : Nat) :
    ∀ (addr : Nat) (bytes : List Nat), pread_mem mem addr (m + n) = some bytes →
      pread_mem mem addr m = some (bytes.take m) ∧
        pread_mem mem (addr + m) n = some (bytes.drop m) := by
  induction m with
  | zero =>
    intro addr bytes h
    simp only [Nat.zero_add] at h
    exact ⟨by simp [pread_mem], by simpa using h⟩
  | succ m ih =>
    intro addr bytes h
    have e : m + 1 + n = (m + n) + 1 := by omega
    rw [e] at h
    unfold pread_mem at h
    cases hm : mem addr with
    | none => simp [hm] at h
    | some b =>
      cases hr : pread_mem mem (addr + 1) (m + n) with
      | none => simp [hm, hr] at h
      | some bs =>
        simp only [hm, hr, Option.some.injEq] at h
        subst h
        obtain ⟨h1, h2⟩ := ih _ _ hr
        refine ⟨?_, ?_⟩
        · unfold pread_mem
          simp only [hm, h1, List.take_succ_cons]
        · have e2 : addr + (m + 1) = addr + 1 + m := by omega
          rw [e2, h2]
          rfl

/-- The function copy_data from target memory that can be read: `len` bytes
go to the destination at its position. -/
theorem copy_data_loop_mem (mem : Nat → Option Nat) (fuel : Nat) :
    ∀ (pos : Nat) (dest : List Nat) (cpos len chunk : Nat) (bytes : List Nat),
      0 < chunk → len ≤ fuel → pread_mem mem pos len = some bytes →
      copy_data_loop (read_mem_fd mem) fuel pos dest cpos len chunk =
        some (0, pos + len, file_write dest cpos bytes, cpos + len) := by
  induction fuel with
  | zero =>
    intro pos dest cpos len chunk bytes _ hl h
    have : len = 0 := by omega
    subst this
    simp only [pread_mem, Option.some.injEq] at h
    subst h
    simp [copy_data_loop, file_write]
  | succ fuel ih =>
    intro pos dest cpos len chunk bytes hc hl h
    cases len with
    | zero =>
      simp only [pread_mem, Option.some.injEq] at h
      subst h
      simp [copy_data_loop, file_write]
    | succ len =>
      have hlen := pread_mem_length mem _ _ _ h
      generalize hcd : (if len + 1 < chunk then len + 1 else chunk) = c
      have hc1 : c ≤ len + 1 := by rw [← hcd]; split <;> omega
      have hc0 : 0 < c := by rw [← hcd]; split <;> omega
      have hsplit : len + 1 = c + (len + 1 - c) := by omega
      have h' := h
      rw [hsplit] at h'
      obtain ⟨h1, h2⟩ := pread_mem_split mem c (len + 1 - c) pos bytes h'
      have hih := ih (pos + c) (file_write dest cpos (bytes.take c)) (cpos + c) (len + 1 - c) c
        (bytes.drop c) hc0 (by omega) h2
      simp only [copy_data_loop, hcd, read_mem_fd, h1]
      rw [hih]
      have hpos : cpos + c = cpos + (List.take c bytes).length := by
        rw [List.length_take]; omega
      rw [hpos, file_write_merge, List.take_append_drop]
      have e1 : pos + c + (len + 1 - c) = pos + (len + 1) := by omega
      have e2 : cpos + (List.take c bytes).length + (len + 1 - c) = cpos + (len + 1) := by
        rw [List.length_take]; omega
      rw [e1, e2]

/-- The vma that get_vma_pos finds covers the address. -/
theorem get_vma_pos_covers (di : dump_info) (addr : Nat) (v : core_vma)
    (h : get_vma_pos di addr = some v) : v.start ≤ addr ∧ addr < v.mem_end ∧ v ∈ di.vma := by
  unfold get_vma_pos at h
  have h1 := List.find?_some h
  have h2 := List.mem_of_find?_eq_some h
  simp only [ge_iff_le, decide_eq_true_eq] at h1
  exact ⟨h1.1, h1.2, h2⟩

end Minicoredumper.Corestripper

namespace Minicoredumper.Corestripper

/-- What dump_vma does for an address that a vma covers: the range, widened
by the balloon, is clipped to the part of the vma that is in the file; an
empty range writes nothing, and the bytes of a range that can be read go to
the core at the offset of the range inside the segment. -/
theorem dump_vma_clipped (PAGESZ : Nat) (di : dump_info) (a n b : Nat) (v : core_vma)
    (hP : 0 < PAGESZ) (hv : get_vma_pos di a = some v) (hb : b ≤ a)
    (hov : a + n + b < 2 ^ 64) (hoff : v.file_off + (v.file_end - v.start) ≤ 2 ^ 63) :
    (min (a + n + b) v.file_end ≤ max (a - b) v.start →
      dump_vma PAGESZ di a n b = some (0, di)) ∧
    (max (a - b) v.start < min (a + n + b) v.file_end →
      ∀ bytes : List Nat,
        pread_mem di.mem (max (a - b) v.start)
          (min (a + n + b) v.file_end - max (a - b) v.start) = some bytes →
        dump_vma PAGESZ di a n b =
          some (0, { di with
            core := file_write di.core (v.file_off + (max (a - b) v.start - v.start)) bytes
            core_pos := v.file_off + (max (a - b) v.start - v.start) +
              (min (a + n + b) v.file_end - max (a - b) v.start) })) := by
  obtain ⟨hva, _, _⟩ := get_vma_pos_covers di a v hv
  have hs1 : (if b > 0 then sub64 a b else a) = a - b := by
    split
    · simp only [sub64]; omega
    · omega
  have he1 : (if b > 0 then add64 (add64 a n) b else add64 a n) = a + n + b := by
    split
    · simp only [add64]; omega
    · simp only [add64]; omega
  have hs2 : (if a - b < v.start then v.start else a - b) = max (a - b) v.start := by
    split <;> omega
  have he2 : (if a + n + b > v.file_end then v.file_end else a + n + b) =
      min (a + n + b) v.file_end := by
    split <;> omega
  unfold dump_vma
  simp only [hv, hs1, he1, hs2, he2]
  constructor
  · intro hle
    rw [if_pos hle]
  · intro hlt bytes hbytes
    rw [if_neg (by omega)]
    have hoffv : sub64 (add64 v.file_off (max (a - b) v.start)) v.start =
        v.file_off + (max (a - b) v.start - v.start) := by
      simp only [sub64, add64]; omega
    rw [hoffv, if_neg (by omega)]
    unfold copy_data
    have hchunk : 0 < (if min (a + n + b) v.file_end - max (a - b) v.start < PAGESZ
        then min (a + n + b) v.file_end - max (a - b) v.start else PAGESZ) := by
      split <;> omega
    rw [copy_data_loop_mem di.mem _ _ _ _ _ _ bytes hchunk (le_refl _) hbytes]

/-- C12. VMA-scoped write and containment: for a call dump_vma(a, n, b) whose
address `a` a vma `v` covers, without address overflow (`b ≤ a`,
`a + n + b < 2 ^ 64`, the segment inside the range of a file offset) and with a
positive page size, let `s = max(a - b, v.start)` and
`e = min(a + n + b, v.file_end)`.  When `s ≥ e` nothing is written; otherwise
the target memory `[s, e)`, when it can be read, is written to the core at file
offset `v.file_off + (s - v.start)`, and every written byte lies inside the
on-disk region `[v.file_off, v.file_off + (v.file_end - v.start))` of `v`. -/
theorem dump_vma_scoped (PAGESZ : Nat) (di : dump_info) (a n b : Nat) (v : core_vma)
    (hP : 0 < PAGESZ) (hv : get_vma_pos di a = some v) (hb : b ≤ a)
    (hov : a + n + b < 2 ^ 64) (hoff : v.file_off + (v.file_end - v.start) ≤ 2 ^ 63) :
    (min (a + n + b) v.file_end ≤ max (a - b) v.start →
      dump_vma PAGESZ di a n b = some (0, di)) ∧
    (max (a - b) v.start < min (a + n + b) v.file_end →
      ∀ bytes : List Nat,
        pread_mem di.mem (max (a - b) v.start)
          (min (a + n + b) v.file_end - max (a - b) v.start) = some bytes →
        dump_vma PAGESZ di a n b =
            some (0, { di with
              core := file_write di.core (v.file_off + (max (a - b) v.start - v.start)) bytes
              core_pos := v.file_off + (max (a - b) v.start - v.start) +
                (min (a + n + b) v.file_end - max (a - b) v.start) }) ∧
          v.file_off ≤ v.file_off + (max (a - b) v.start - v.start) ∧
          v.file_off + (max (a - b) v.start - v.start) + bytes.length ≤
            v.file_off + (v.file_end - v.start)) := by
  obtain ⟨h1, h2⟩ := dump_vma_clipped PAGESZ di a n b v hP hv hb hov hoff
  refine ⟨h1, fun hlt bytes hbytes => ⟨h2 hlt bytes hbytes, by omega, ?_⟩⟩
  rw [pread_mem_length _ _ _ _ hbytes]
  omega

/-- C12 on the segment and the 16 target bytes of scenario 3: they go to the
core at file offset `0x1100`. -/
theorem dump_vma_scoped_witness :
    (0 < 4096 ∧ get_vma_pos Example.di_buf 0x400100 = some Example.vma_text ∧
      0 ≤ 0x400100 ∧ 0x400100 + 0x10 + 0 < 2 ^ 64 ∧
      Example.vma_text.file_off + (Example.vma_text.file_end - Example.vma_text.start) ≤
        2 ^ 63) ∧
    (dump_vma 4096 Example.di_buf 0x400100 0x10 0).map (fun r => (r.1, r.2.core)) =
      some (0, file_write [] 0x1100 [0, 1, 2, 3, 4, 5, 6, 7, 8, 9, 10, 11, 12, 13, 14, 15]) := by
  have h := (dump_vma_scoped 4096 Example.di_buf 0x400100 0x10 0 Example.vma_text
    (by decide) (by decide) (by decide) (by decide) (by decide)).2 (by decide)
    [0, 1, 2, 3, 4, 5, 6, 7, 8, 9, 10, 11, 12, 13, 14, 15] (by decide)
  refine ⟨⟨by decide, by decide, by decide, by decide, by decide⟩, ?_⟩
  rw [h.1]
  rfl

end Minicoredumper.Corestripper

namespace Minicoredumper.Corestripper

/-! ## Stack capture -/

/-- Reading target memory that is readable everywhere. -/
theorem pread_mem_total (mem : Nat → Option Nat) (f : Nat → Nat) (h : ∀ a, mem a = some (f a))
    (len : Nat) : ∀ addr, pread_mem mem addr len = some ((List.range' addr len).map f) := by
  induction len with
  | zero => intro addr; rfl
  | succ len ih =>
    intro addr
    unfold pread_mem
    simp only [h, ih, List.range'_succ, List.map_cons]

/-- The length that dump_stacks asks dump_vma for. -/
theorem dump_stacks_task_eq (PAGESZ : Nat) (proc_stat : Int → Option (List Char))
    (di : dump_info) (pid : Int) (sp : Nat) (v : core_vma)
    (hfirst : di.first_pid = 0 ∨ di.first_pid = pid)
    (hsp : get_stack_pointer (proc_stat pid) = some sp) (hv : get_vma_pos di sp = some v)
    (hlt : sp < v.file_end) (hfe : v.file_end < 2 ^ 64) :
    dump_stacks_task PAGESZ proc_stat di pid =
      (dump_vma PAGESZ di sp
        (if di.cfg.stack_max_stack_size ≠ 0 ∧ v.file_end - sp > di.cfg.stack_max_stack_size
          then di.cfg.stack_max_stack_size else v.file_end - sp) 0).map Prod.snd := by
  have hskip : ¬ (di.first_pid ≠ 0 ∧ di.first_pid ≠ pid) := by
    rintro ⟨h1, h2⟩
    rcases hfirst with h | h
    · exact h1 h
    · exact h2 h
  have hsub : sub64 v.file_end sp = v.file_end - sp := by
    simp only [sub64]; omega
  unfold dump_stacks_task
  rw [if_neg hskip]
  simp only [hsp, hv, hsub]

/-- C13. Stack capture: for a task that dump_stacks does not skip, whose stack
pointer `sp` (item 29 of its stat file) lies in the vma `v` with
`sp < v.file_end`, dump_stacks asks dump_vma for the range that starts at `sp`
with length `v.file_end - sp`, or with length `max_stack_size` when that is
nonzero and `v.file_end - sp` exceeds it. -/
theorem dump_stacks_request (PAGESZ : Nat) (proc_stat : Int → Option (List Char))
    (di : dump_info) (pid : Int) (sp : Nat) (v : core_vma)
    (hfirst : di.first_pid = 0 ∨ di.first_pid = pid)
    (hsp : get_stack_pointer (proc_stat pid) = some sp) (hv : get_vma_pos di sp = some v)
    (hlt : sp < v.file_end) (hfe : v.file_end < 2 ^ 64) :
    dump_stacks_task PAGESZ proc_stat di pid =
      (dump_vma PAGESZ di sp
        (if di.cfg.stack_max_stack_size ≠ 0 ∧ v.file_end - sp > di.cfg.stack_max_stack_size
          then di.cfg.stack_max_stack_size else v.file_end - sp) 0).map Prod.snd :=
  dump_stacks_task_eq PAGESZ proc_stat di pid sp v hfirst hsp hv hlt hfe

set_option maxRecDepth 100000 in
/-- The stack pointer in the stat file of scenario 5. -/
theorem get_stack_pointer_1234 :
    get_stack_pointer (Example.proc_stat_1234 1234) = some 0x7ffff0080000 := by
  decide

/-- C13 on scenario 5: stack vma `[0x7ffff0000000, 0x7ffff0100000)`,
`sp = 0x7ffff0080000`, `max_stack_size = 0x1000`.  dump_stacks asks for
`0x1000` bytes at `sp`, and exactly the `0x1000` target bytes that start at
`sp` go to the core, at the file offset of `sp` in the segment. -/
theorem dump_stacks_request_witness :
    ((Example.di_stack.first_pid = 0 ∨ Example.di_stack.first_pid = 1234) ∧
      get_stack_pointer (Example.proc_stat_1234 1234) = some 0x7ffff0080000 ∧
      get_vma_pos Example.di_stack 0x7ffff0080000 = some Example.vma_stack ∧
      0x7ffff0080000 < Example.vma_stack.file_end ∧ Example.vma_stack.file_end < 2 ^ 64) ∧
    dump_stacks_task 4096 Example.proc_stat_1234 Example.di_stack 1234 =
      (dump_vma 4096 Example.di_stack 0x7ffff0080000 0x1000 0).map Prod.snd ∧
    (dump_stacks 4096 Example.elf_one Example.notes_none Example.proc_stat_1234
        Example.di_stack).map (fun r => (r.1, r.2.core)) =
      some (0, file_write [] (0x5000 + 0x80000)
        ((List.range' 0x7ffff0080000 0x1000).map (fun a => a % 256))) ∧
    ((List.range' 0x7ffff0080000 0x1000).map (fun a => a % 256)).length = 0x1000 := by
  have hsp := get_stack_pointer_1234
  have hv : get_vma_pos Example.di_stack 0x7ffff0080000 = some Example.vma_stack := by decide
  have h1 := dump_stacks_request 4096 Example.proc_stat_1234 Example.di_stack 1234
    0x7ffff0080000 Example.vma_stack (Or.inl rfl) hsp hv (by decide) (by decide)
  have hlen : (if Example.di_stack.cfg.stack_max_stack_size ≠ 0 ∧
      Example.vma_stack.file_end - 0x7ffff0080000 > Example.di_stack.cfg.stack_max_stack_size
      then Example.di_stack.cfg.stack_max_stack_size
      else Example.vma_stack.file_end - 0x7ffff0080000) = 0x1000 := by decide
  rw [hlen] at h1
  have h2 := (dump_vma_clipped 4096 Example.di_stack 0x7ffff0080000 0x1000 0 Example.vma_stack
    (by decide) hv (by decide) (by decide) (by decide)).2 (by decide)
    ((List.range' 0x7ffff0080000 0x1000).map (fun a => a % 256))
    (pread_mem_total _ (fun a => a % 256) (fun _ => rfl) _ _)
  refine ⟨⟨Or.inl rfl, hsp, hv, by decide, by decide⟩, h1, ?_, ?_⟩
  · have h3 : dump_stacks_loop 4096 Example.proc_stat_1234 [1234] Example.di_stack =
        (dump_vma 4096 Example.di_stack 0x7ffff0080000 0x1000 0).map Prod.snd := by
      simp only [dump_stacks_loop, h1]
      cases dump_vma 4096 Example.di_stack 0x7ffff0080000 0x1000 0 <;> rfl
    have h4 : dump_stacks 4096 Example.elf_one Example.notes_none Example.proc_stat_1234
        Example.di_stack =
        (dump_stacks_loop 4096 Example.proc_stat_1234 [1234] Example.di_stack).map
          (fun d => (0, d)) := rfl
    have hoff : Example.vma_stack.file_off +
        (max (0x7ffff0080000 - 0) Example.vma_stack.start - Example.vma_stack.start) =
        0x5000 + 0x80000 := by decide
    have hcore : Example.di_stack.core = [] := rfl
    rw [h4, h3, h2]
    simp only [Option.map_some', hoff, hcore]
  · rw [List.length_map, List.length_range']

end Minicoredumper.Corestripper

/-! ## Strings of the target -/

namespace Minicoredumper.Corestripper

/-- A read of one more byte. -/
theorem pread_mem_snoc (mem : Nat → Option Nat) (i : Nat) :
    ∀ addr : Nat, pread_mem mem addr (i + 1) =
      match pread_mem mem addr i, mem (addr + i) with
      | some p, some b => some (p ++ [b])
      | _, _ => none := by
  induction i with
  | zero =>
    intro addr
    simp only [pread_mem, Nat.add_zero]
    cases mem addr <;> rfl
  | succ i ih =>
    intro addr
    have e : addr + (i + 1) = addr + 1 + i := by omega
    rw [pread_mem, ih (addr + 1), pread_mem, e]
    cases mem addr with
    | none =>
      cases pread_mem mem (addr + 1) i with
      | none => rfl
      | some p => cases mem (addr + 1 + i) <;> rfl
    | some b =>
      cases pread_mem mem (addr + 1) i with
      | none => rfl
      | some p => cases mem (addr + 1 + i) <;> rfl

/-- The loop of alloc_remote_string, after `i` bytes without NUL, gives these
bytes and then the bytes up to the first NUL (at most as many as rounds are
left). -/
theorem alloc_remote_string_loop_scan (mem : Nat → Option Nat) (addr : Nat) (n : Nat) :
    ∀ (i : Nat) (pre : List Nat), pread_mem mem addr i = some pre →
      alloc_remote_string_loop mem addr n (i + 1) pre =
        (alloc_remote_string_scan mem n (addr + i)).map (pre ++ ·) := by
  induction n with
  | zero => intro i pre _; simp [alloc_remote_string_loop, alloc_remote_string_scan]
  | succ n ih =>
    intro i pre hpre
    have hlen := pread_mem_length mem i addr pre hpre
    simp only [alloc_remote_string_loop, alloc_remote_string_scan, pread_mem_snoc, hpre,
      Nat.add_sub_cancel]
    cases hb : mem (addr + i) with
    | none => rfl
    | some b =>
      simp only
      have hget : (pre ++ [b]).getD i 0 = b := by
        rw [List.getD_eq_getElem?_getD, List.getElem?_append_right (by omega)]
        simp [hlen]
      rw [hget]
      by_cases h0 : b = 0
      · simp only [h0, if_true, Option.map_some', List.append_nil]
        rw [← h0, List.take_append_of_le_length (by omega), List.take_of_length_le (by omega)]
      · simp only [h0, if_false]
        have hnext : pread_mem mem addr (i + 1) = some (pre ++ [b]) := by
          rw [pread_mem_snoc, hpre, hb]
        rw [ih (i + 1) (pre ++ [b]) hnext]
        have e : addr + (i + 1) = addr + i + 1 := by omega
        rw [e]
        cases alloc_remote_string_scan mem n (addr + i + 1) with
        | none => rfl
        | some t => simp

/-- The function alloc_remote_string gives the bytes before the first NUL, at
most 4095 of them. -/
theorem alloc_remote_string_eq_scan (di : dump_info) (addr : Nat) :
    alloc_remote_string di addr =
      if addr = 0 then (EINVAL, none)
      else
        match alloc_remote_string_scan di.mem 4095 addr with
        | none => (-1, none)
        | some s => (0, some s) := by
  unfold alloc_remote_string
  have h := alloc_remote_string_loop_scan di.mem addr 4095 0 [] rfl
  simp only [Nat.zero_add, Nat.add_zero, List.nil_append] at h
  rw [h]
  cases alloc_remote_string_scan di.mem 4095 addr <;> rfl

end Minicoredumper.Corestripper

/-! ## The text dump -/

namespace Minicoredumper.Corestripper

/-- Recording calls appends them to the record. -/
theorem run_calls_record (calls log : List (Nat × Nat × Int)) :
    run_calls (fun (log : List (Nat × Nat × Int)) off len idx => some (log ++ [(off, len, idx)]))
      calls log = some (log ++ calls) := by
  induction calls generalizing log with
  | nil => simp [run_calls]
  | cons c cs ih =>
    have h := ih (log ++ [c])
    simp only [run_calls, List.foldlM_cons, Option.bind_eq_bind, Option.some_bind] at h ⊢
    rw [h]; simp

/-- The loop of dump_data_file_text is a fixed list of calls, whatever the
call does: one call for each specifier of the rest of the format string, with
consecutive element indices. -/
theorem dump_data_file_text_loop_calls :
    ∀ (n : Nat) (fmt : List Char), fmt.length ≤ n → ∀ (i start : Nat) (idx : Int),
      ∃ (calls : List (Nat × Nat × Int)) (start1 : Nat),
        (∀ (σ : Type) (emit : σ → Nat → Nat → Int → Option σ) (s : σ),
          dump_data_file_text_loop emit fmt i start idx s =
            (run_calls emit calls s).map (fun t => (t, start1, idx + calls.length))) ∧
        calls.length = count_specifiers fmt ∧
        calls.map (fun c => c.2.2) = (List.range calls.length).map (fun (j : Nat) => idx + (j : Int)) := by
  intro n
  induction n with
  | zero =>
    intro fmt h i start idx
    have : fmt = [] := List.length_eq_zero.mp (by omega)
    subst this
    exact ⟨[], start, by intro σ emit s; simp [dump_data_file_text_loop, run_calls],
      by simp [count_specifiers], by simp⟩
  | succ n ih =>
    intro fmt h i start idx
    match fmt, h with
    | [], _ =>
      exact ⟨[], start, by intro σ emit s; simp [dump_data_file_text_loop, run_calls],
        by simp [count_specifiers], by simp⟩
    | [c], _ =>
      by_cases hc : c = '%'
      · refine ⟨[(start, i - start, idx)], i, ?_, by simp [count_specifiers, hc],
          by simp [List.range_succ]⟩
        intro σ emit s
        simp only [dump_data_file_text_loop, hc, if_true, run_calls, List.foldlM_cons,
          List.foldlM_nil, Option.bind_eq_bind]
        cases emit s start (i - start) idx <;> simp
      · refine ⟨[], start, ?_, by simp [count_specifiers, hc], by simp⟩
        intro σ emit s
        simp [dump_data_file_text_loop, hc, run_calls]
    | c :: d :: rest2, h =>
      by_cases hc : c = '%'
      · by_cases hd : d = '%'
        · obtain ⟨calls, s1, h1, h2, h3⟩ :=
            ih rest2 (by simp only [List.length_cons] at h; omega) (i + 2) start idx
          refine ⟨calls, s1, ?_, by simp [count_specifiers, hc, hd, h2], h3⟩
          intro σ emit s
          simp only [dump_data_file_text_loop, hc, hd, if_true]
          exact h1 σ emit s
        · obtain ⟨calls, s1, h1, h2, h3⟩ :=
            ih (d :: rest2) (by simp only [List.length_cons] at h ⊢; omega) (i + 1) i (idx + 1)
          refine ⟨(start, i - start, idx) :: calls, s1, ?_, ?_, ?_⟩
          · intro σ emit s
            simp only [dump_data_file_text_loop, hc, hd, if_true, if_false, run_calls,
              List.foldlM_cons, Option.bind_eq_bind]
            cases he : emit s start (i - start) idx with
            | none => simp
            | some t =>
              simp only [Option.some_bind]
              rw [h1 σ emit t]
              simp only [run_calls, List.length_cons, Nat.cast_add, Nat.cast_one]
              congr 1
              funext t
              congr 2
              omega
          · simp only [List.length_cons, count_specifiers, hc, hd, if_true, if_false, h2]
            omega
          · simp only [List.map_cons, List.length_cons, h3, List.range_succ_eq_map,
              List.map_map]
            simp only [List.map_cons, Nat.cast_zero, add_zero, List.cons.injEq, true_and,
              List.map_map]
            apply List.map_congr_left
            intro j _
            simp only [Function.comp, Nat.cast_succ]
            omega
      · obtain ⟨calls, s1, h1, h2, h3⟩ :=
          ih (d :: rest2) (by simp only [List.length_cons] at h ⊢; omega) (i + 1) start idx
        refine ⟨calls, s1, ?_, by simp [count_specifiers, hc, h2], h3⟩
        intro σ emit s
        simp only [dump_data_file_text_loop, hc, if_false]
        exact h1 σ emit s

end Minicoredumper.Corestripper

namespace Minicoredumper.Corestripper

/-- Running calls one after the other. -/
theorem run_calls_append {σ : Type} (emit : σ → Nat → Nat → Int → Option σ)
    (xs ys : List (Nat × Nat × Int)) (s : σ) :
    run_calls emit (xs ++ ys) s = (run_calls emit xs s).bind (run_calls emit ys) := by
  simp [run_calls, List.foldlM_append]

/-- The function dump_data_file_text makes the calls of `text_calls`, whatever
the call does; there is one more call than specifiers, and the indices are
-1, 0, 1, ... in order. -/
theorem text_calls_spec (fs : List Char) :
    (∀ (σ : Type) (emit : σ → Nat → Nat → Int → Option σ) (s : σ),
      dump_data_file_text_calls emit fs s = run_calls emit (text_calls fs) s) ∧
    (text_calls fs).length = 1 + count_specifiers fs ∧
    (text_calls fs).map (fun c => c.2.2) =
      (List.range (1 + count_specifiers fs)).map (fun (j : Nat) => (j : Int) - 1) := by
  obtain ⟨calls, s1, h1, h2, h3⟩ := dump_data_file_text_loop_calls fs.length fs le_rfl 0 0 (-1)
  have ht : text_calls fs = calls ++ [(s1, fs.length - s1, -1 + (calls.length : Int))] := by
    simp only [text_calls, dump_data_file_text_calls]
    rw [h1, run_calls_record]
    simp
  refine ⟨?_, ?_, ?_⟩
  · intro σ emit s
    simp only [dump_data_file_text_calls]
    rw [h1, ht, run_calls_append]
    cases run_calls emit calls s with
    | none => simp
    | some t => simp [run_calls]
  · rw [ht, List.length_append, h2]
    simp only [List.length_singleton]
    omega
  · rw [ht, List.map_append, h3, ← h2, Nat.add_comm 1, List.range_succ, List.map_append]
    simp only [List.map_cons, List.map_nil]
    congr 1

/-- The function dump_data_file_text is the run of its calls of print_fmt_token. -/
theorem dump_data_file_text_run (asprintf : host_printf) (di : dump_info) (dd : mcd_dump_data)
    (file : List Nat) (fmt : List Char) (h : dd.fmt = some fmt) :
    dump_data_file_text asprintf di dd file =
      (run_calls (fun ft off len idx =>
          (print_fmt_token asprintf ft di (c_str fmt) dd.es.length dd.es off len idx).map
            Prod.snd) (text_calls (c_str fmt)) file).map (fun ft => (0, ft)) := by
  simp only [dump_data_file_text, h]
  rw [(text_calls_spec (c_str fmt)).1]

/-- C14: for every format string, dump_data_file_text is the run of the calls
`text_calls` of print_fmt_token on the file, and these are exactly 1 + k calls,
where k is the number of unescaped `%` specifiers (`%%` is an escaped percent);
the element indices of the calls are -1, 0, 1, ..., k - 1 in order, so the
leading token has no element and the i-th specifier has element i. -/
theorem dump_data_file_text_token_accounting (asprintf : host_printf) (di : dump_info)
    (dd : mcd_dump_data) (file : List Nat) (fmt : List Char) (h : dd.fmt = some fmt) :
    dump_data_file_text asprintf di dd file =
      (run_calls (fun ft off len idx =>
          (print_fmt_token asprintf ft di (c_str fmt) dd.es.length dd.es off len idx).map
            Prod.snd) (text_calls (c_str fmt)) file).map (fun ft => (0, ft)) ∧
    (text_calls (c_str fmt)).length = 1 + count_specifiers (c_str fmt) ∧
    (text_calls (c_str fmt)).map (fun c => c.2.2) =
      (List.range (1 + count_specifiers (c_str fmt))).map (fun (j : Nat) => (j : Int) - 1) :=
  ⟨dump_data_file_text_run asprintf di dd file fmt h, (text_calls_spec (c_str fmt)).2⟩

/-- The calls for the format `x=%d y=%s\n`. -/
theorem text_calls_fmt_msg :
    text_calls (c_str Example.fmt_msg) = [(0, 2, -1), (2, 5, 0), (7, 3, 1)] := by
  decide

/-- Witness of C14 on the format `x=%d y=%s\n`, which has two specifiers:
three calls, with indices -1, 0 and 1. -/
theorem dump_data_file_text_token_accounting_witness :
    Example.dd_msg.fmt = some Example.fmt_msg ∧
    count_specifiers (c_str Example.fmt_msg) = 2 ∧
    (text_calls (c_str Example.fmt_msg)).length = 1 + count_specifiers (c_str Example.fmt_msg) ∧
    (text_calls (c_str Example.fmt_msg)).map (fun c => c.2.2) =
      (List.range (1 + count_specifiers (c_str Example.fmt_msg))).map
        (fun (j : Nat) => (j : Int) - 1) :=
  ⟨rfl, by decide,
    (dump_data_file_text_token_accounting Example.printf_model Example.di_msg Example.dd_msg []
      Example.fmt_msg rfl).2⟩

end Minicoredumper.Corestripper

namespace Minicoredumper.Corestripper

/-- A slice of a C string holds no NUL, so it is its own C string. -/
theorem c_str_slice (f : List Char) (o l : Nat) :
    c_str (((c_str f).drop o).take l) = ((c_str f).drop o).take l := by
  unfold c_str
  rw [List.takeWhile_eq_self_iff]
  intro x hx
  have hm := List.mem_of_mem_drop (List.mem_of_mem_take hx)
  have hp := List.mem_takeWhile_imp hm
  exact hp

/-- C16: for every non-empty token with an element index that is not below the
number of elements, or whose element has a length below 1, print_fmt_token
returns 0 and appends the token's bytes as they stand in the format string,
whatever the host formatter and the target's memory are. -/
theorem print_fmt_token_raw (asprintf : host_printf) (ft : List Nat) (di : dump_info)
    (fmt : List Char) (n : Int) (es : List dump_data_elem) (off len : Nat) (idx : Int)
    (hlen : 0 < len) (hidx : 0 ≤ idx)
    (h : n ≤ idx ∨ ∃ e, es.get? idx.toNat = some e ∧ e.length < 1) :
    print_fmt_token asprintf ft di (c_str fmt) n es off len idx =
      some (0, ft ++ text_bytes (((c_str fmt).drop off).take len)) := by
  have h0 : len ≠ 0 := by omega
  have h1 : idx ≠ -1 := by omega
  have h2 : ¬ idx < 0 := by omega
  simp only [print_fmt_token, h0, h1, h2, if_false, c_str_slice]
  by_cases hn : idx ≥ n
  · simp only [hn, if_true]
  · simp only [hn, if_false]
    rcases h with h | ⟨e, he, hl⟩
    · omega
    · simp only [he, hl, if_true]

/-- Witness of C16 on the format `x=%d y=%s\n` with one element only: the
token of the second specifier is written as it stands. -/
theorem print_fmt_token_raw_witness :
    print_fmt_token Example.printf_model [] Example.di_msg (c_str Example.fmt_msg) 1
        Example.dd_msg_short.es 7 3 1 =
      some (0, [] ++ text_bytes (((c_str Example.fmt_msg).drop 7).take 3)) :=
  print_fmt_token_raw Example.printf_model [] Example.di_msg Example.fmt_msg 1
    Example.dd_msg_short.es 7 3 1 (by decide) (by decide) (Or.inl (by decide))

/-- One call of print_fmt_token appends the rendering of its token. -/
theorem print_fmt_token_render (asprintf : host_printf) (ft : List Nat) (di : dump_info)
    (fmt : List Char) (es : List dump_data_elem) (c : Nat × Nat × Int) (o : List Nat)
    (h : render_token asprintf di (c_str fmt) es c = some o) :
    (print_fmt_token asprintf ft di (c_str fmt) es.length es c.1 c.2.1 c.2.2).map Prod.snd =
      some (ft ++ o) := by
  obtain ⟨off, len, idx⟩ := c
  simp only [render_token] at h
  by_cases hl : len = 0
  · simp only [hl, if_true, Option.some.injEq] at h
    subst h
    simp [print_fmt_token, hl]
  · simp only [hl, if_false, Option.bind_eq_some, Option.map_eq_some'] at h
    obtain ⟨a, ha, t, ht, ho⟩ := h
    subst ho
    simp only [token_of] at ht
    simp only [print_fmt_token, hl, if_false, c_str_slice]
    simp only [token_arg] at ha
    by_cases h1 : idx = -1
    · simp only [h1, if_true, Option.some.injEq] at ha
      subst ha
      simp [h1, ht, print_fmt_token_out]
    · by_cases h2 : idx < 0
      · simp [h1, h2] at ha
      · simp only [h1, h2, if_false, List.get?_eq_getElem?] at ha ⊢
        cases he : es[idx.toNat]? with
        | none => simp [he] at ha
        | some e =>
          have hlt : idx.toNat < es.length := by
            by_contra hc
            rw [List.getElem?_eq_none (by omega)] at he
            cases he
          have hn : ¬ idx ≥ (es.length : Int) := by omega
          simp only [he] at ha
          simp only [hn, if_false]
          cases hd : pread_mem di.mem e.data_ptr e.length with
          | none => simp [hd] at ha
          | some data =>
            have hdl := pread_mem_length di.mem e.length e.data_ptr data hd
            simp only [hd] at ha
            simp only [read_remote, hd, print_fmt_token_switch]
            by_cases hi : e.fmt_type = PA_INT
            · simp only [hi, if_true, Option.map_eq_some', load_le] at ha
              obtain ⟨v, hv, hav⟩ := ha
              subst hav
              have h4 : 4 ≤ data.length := by
                by_contra hc
                simp [hc] at hv
              have hel : ¬ e.length < 1 := by omega
              simp only [h4, if_true, Option.some.injEq] at hv
              subst hv
              simp [hi, hel, load_le, h4, ht, print_fmt_token_out]
            · by_cases hs : e.fmt_type = PA_STRING
              · have hne1 : PA_STRING ≠ PA_INT := by decide
                have hne2 : PA_STRING ≠ PA_CHAR := by decide
                simp only [hs, hne1, if_true, if_false, Option.bind_eq_some, load_le] at ha
                obtain ⟨p, hp, hap⟩ := ha
                have h8 : 8 ≤ data.length := by
                  by_contra hc
                  simp [hc] at hp
                have hel : ¬ e.length < 1 := by omega
                simp only [h8, if_true, Option.some.injEq] at hp
                subst hp
                by_cases hp0 : le_decode (List.take 8 data) = 0
                · simp [hp0] at hap
                · simp only [hp0, if_false, Option.map_eq_some'] at hap
                  obtain ⟨s, hs1, hs2⟩ := hap
                  subst hs2
                  simp [hs, hne1, hne2, hel, load_le, h8, alloc_remote_string_eq_scan, hp0, hs1, ht,
                    print_fmt_token_out]
              · simp [hi, hs] at ha

end Minicoredumper.Corestripper

namespace Minicoredumper.Corestripper

/-- Calls that each render append their renderings in order. -/
theorem run_calls_render (asprintf : host_printf) (di : dump_info) (fmt : List Char)
    (es : List dump_data_elem) (calls : List (Nat × Nat × Int)) (outs : List (List Nat))
    (hr : List.Forall₂ (fun c o => render_token asprintf di (c_str fmt) es c = some o)
      calls outs) :
    ∀ ft : List Nat,
      run_calls (fun ft off len idx =>
          (print_fmt_token asprintf ft di (c_str fmt) es.length es off len idx).map Prod.snd)
        calls ft = some (ft ++ outs.flatten) := by
  induction hr with
  | nil => intro ft; simp [run_calls]
  | cons h _ ih =>
    intro ft
    have h1 := print_fmt_token_render asprintf ft di fmt es _ _ h
    simp only [run_calls, List.foldlM_cons, Option.bind_eq_bind] at ih ⊢
    rw [h1]
    simp only [Option.some_bind]
    rw [ih]
    simp

/-- C15: for a text descriptor with format string `fmt`, when every token of
the format renders (the leading token without value, the token of the i-th
specifier against the value of element i read from the target: the `int` of an
integer element, the NUL-terminated string at the pointer of a string element),
dump_data_file_text returns 0 and appends to the file the host renderings of
the tokens in order. -/
theorem dump_data_file_text_rendering (asprintf : host_printf) (di : dump_info)
    (dd : mcd_dump_data) (file : List Nat) (fmt : List Char) (outs : List (List Nat))
    (h : dd.fmt = some fmt)
    (hr : List.Forall₂ (fun c o => render_token asprintf di (c_str fmt) dd.es c = some o)
      (text_calls (c_str fmt)) outs) :
    dump_data_file_text asprintf di dd file = some (0, file ++ outs.flatten) := by
  rw [dump_data_file_text_run asprintf di dd file fmt h,
    run_calls_render asprintf di fmt dd.es _ outs hr file]
  rfl

/-- The token `x=` of the example renders as it stands. -/
theorem render_msg_0 :
    render_token Example.printf_model Example.di_msg (c_str Example.fmt_msg) Example.dd_msg.es
      (0, 2, -1) = some (text_bytes "x=".toList) := by
  decide

/-- The token `%d y=` of the example renders the `int` 42 of the target. -/
theorem render_msg_1 :
    render_token Example.printf_model Example.di_msg (c_str Example.fmt_msg) Example.dd_msg.es
      (2, 5, 0) = some (text_bytes "42 y=".toList) := by
  decide

set_option maxRecDepth 100000 in
/-- The token `%s\n` of the example renders the string `hi` of the target. -/
theorem render_msg_2 :
    render_token Example.printf_model Example.di_msg (c_str Example.fmt_msg) Example.dd_msg.es
      (7, 3, 1) = some (text_bytes "hi\n".toList) := by
  decide

/-- Witness of C15: the format `x=%d y=%s\n` with an `int` element holding 42
and a string element pointing at `hi` appends `x=42 y=hi\n` to an empty file. -/
theorem dump_data_file_text_rendering_witness :
    dump_data_file_text Example.printf_model Example.di_msg Example.dd_msg [] =
      some (0, text_bytes "x=42 y=hi\n".toList) :=
  (dump_data_file_text_rendering Example.printf_model Example.di_msg Example.dd_msg []
    Example.fmt_msg [text_bytes "x=".toList, text_bytes "42 y=".toList, text_bytes "hi\n".toList]
    rfl
    (by
      rw [text_calls_fmt_msg]
      exact List.Forall₂.cons render_msg_0
        (List.Forall₂.cons render_msg_1 (List.Forall₂.cons render_msg_2 List.Forall₂.nil)))).trans
    (by decide)

end Minicoredumper.Corestripper

/-! ## The walk over the descriptors -/

namespace Minicoredumper.Corestripper

/-- One round of the loop of dyn_dump when alloc_remote_data_content returns an
error: the walk goes on at the link of the descriptor, with the dump context as
it was. -/
theorem dyn_dump_loop_skip (abi : dump_data_abi) (PAGESZ : Nat) (asprintf : host_printf)
    (fopen_errno : List Char → Option Int) (fuel iter : Nat) (di : dump_info) (ret r : Int)
    (dd : mcd_dump_data) (hi : iter ≠ 0)
    (ha : alloc_remote_data_content abi di iter = some (r, dd)) (hr : r ≠ 0) :
    dyn_dump_loop abi PAGESZ asprintf fopen_errno (fuel + 1) iter di ret =
      dyn_dump_loop abi PAGESZ asprintf fopen_errno fuel dd.next di r := by
  simp only [dyn_dump_loop, hi, if_false, ha, hr, ne_eq, not_false_eq_true, if_true]

/-- A descriptor out of scope: alloc_remote_data_content returns -1 and keeps
the link. -/
theorem alloc_remote_data_content_scope (abi : dump_data_abi) (di : dump_info) (addr : Nat)
    (bytes : List Nat) (hr : read_remote di addr abi.sizeof_dd = some bytes)
    (hs : (abi.decode_dd bytes).dump_scope > di.cfg.dump_scope) :
    ∃ dd, alloc_remote_data_content abi di addr = some (-1, dd) ∧
      dd.next = (abi.decode_dd bytes).next := by
  simp only [alloc_remote_data_content, hr, hs, if_true]
  exact ⟨_, rfl, rfl⟩

/-- C17: for every descriptor of the list (at the address `iter`, not null)
whose dump_scope is greater than the configured dump_scope, the round of the
loop of dyn_dump leaves the dump context as it was (nothing is written to the
core, no file under `dumps` is made or appended to, no line is added to the
symbol map) and the walk goes on at the next descriptor of the list. -/
theorem dyn_dump_scope_filter (abi : dump_data_abi) (PAGESZ : Nat) (asprintf : host_printf)
    (fopen_errno : List Char → Option Int) (fuel iter : Nat) (di : dump_info) (ret : Int)
    (bytes : List Nat) (hi : iter ≠ 0)
    (hr : read_remote di iter abi.sizeof_dd = some bytes)
    (hs : (abi.decode_dd bytes).dump_scope > di.cfg.dump_scope) :
    dyn_dump_loop abi PAGESZ asprintf fopen_errno (fuel + 1) iter di ret =
      dyn_dump_loop abi PAGESZ asprintf fopen_errno fuel (abi.decode_dd bytes).next di (-1) := by
  obtain ⟨dd, h1, h2⟩ := alloc_remote_data_content_scope abi di iter bytes hr hs
  rw [dyn_dump_loop_skip abi PAGESZ asprintf fopen_errno fuel iter di ret (-1) dd hi h1
    (by decide), h2]

set_option maxRecDepth 100000 in
/-- The walk over a descriptor `msg` of scope 5 followed by the binary
descriptor `buf`, with the configured scope 0: only `buf` is dumped. -/
theorem dyn_dump_scope5 :
    (dyn_dump Example.abi_words 4096 Example.printf_model Example.fopen_ok 8
      (Example.di_walk Example.raw_msg_scope5)).map
      (fun r => (r.1, r.2.dumps, r.2.symbol_map)) =
      some (0, [("buf".toList, [0, 1, 2, 3, 4, 5, 6, 7, 8, 9, 10, 11, 12, 13, 14, 15])],
        "1100 8 D buf\n".toList) := by
  decide

set_option maxRecDepth 100000 in
/-- The descriptor at 0x600100 of the example with scope 5, as bytes. -/
theorem read_remote_scope5 :
    read_remote (Example.di_walk Example.raw_msg_scope5) 0x600100
      Example.abi_words.sizeof_dd = some (Example.encode_dd Example.raw_msg_scope5) := by
  decide

/-- Witness of C17: the first descriptor of the example has scope 5 and the
configured scope is 0; the round leaves the dump context alone and goes on at
0x600200, and the whole walk dumps `buf` only. -/
theorem dyn_dump_scope_filter_witness :
    (dyn_dump_loop Example.abi_words 4096 Example.printf_model Example.fopen_ok (7 + 1) 0x600100
        (Example.di_walk Example.raw_msg_scope5) 0 =
      dyn_dump_loop Example.abi_words 4096 Example.printf_model Example.fopen_ok 7
        (Example.abi_words.decode_dd (Example.encode_dd Example.raw_msg_scope5)).next
        (Example.di_walk Example.raw_msg_scope5) (-1)) ∧
    (Example.abi_words.decode_dd (Example.encode_dd Example.raw_msg_scope5)).next = 0x600200 ∧
    (dyn_dump Example.abi_words 4096 Example.printf_model Example.fopen_ok 8
      (Example.di_walk Example.raw_msg_scope5)).map
      (fun r => (r.1, r.2.dumps, r.2.symbol_map)) =
      some (0, [("buf".toList, [0, 1, 2, 3, 4, 5, 6, 7, 8, 9, 10, 11, 12, 13, 14, 15])],
        "1100 8 D buf\n".toList) :=
  ⟨dyn_dump_scope_filter Example.abi_words 4096 Example.printf_model Example.fopen_ok 7 0x600100
      (Example.di_walk Example.raw_msg_scope5) 0 (Example.encode_dd Example.raw_msg_scope5)
      (by decide) read_remote_scope5 (by decide),
    by decide, dyn_dump_scope5⟩

end Minicoredumper.Corestripper

namespace Minicoredumper.Corestripper

/-- The dump of a descriptor that alloc_remote_data_content has fetched: to a
file under `dumps` when it has an identifier, to the core otherwise. -/
theorem dyn_dump_loop_dump (abi : dump_data_abi) (PAGESZ : Nat) (asprintf : host_printf)
    (fopen_errno : List Char → Option Int) (fuel iter : Nat) (di di1 : dump_info) (ret r2 : Int)
    (dd : mcd_dump_data) (hi : iter ≠ 0)
    (ha : alloc_remote_data_content abi di iter = some (0, dd))
    (hd : (if dd.ident.isSome then dump_data_content_file abi asprintf fopen_errno di dd
      else dump_data_content_core PAGESZ di dd) = some (r2, di1)) :
    dyn_dump_loop abi PAGESZ asprintf fopen_errno (fuel + 1) iter di ret =
      if r2 ≠ 0 then some (r2, di1)
      else dyn_dump_loop abi PAGESZ asprintf fopen_errno fuel dd.next di1 r2 := by
  simp only [dyn_dump_loop, hi, if_false, ha, ne_eq, not_true_eq_false, hd]

/-- C18 (amended): in the walk of dyn_dump over the descriptors, a descriptor
that alloc_remote_data_content cannot fetch (it is out of scope, or its
identifier or format string cannot be read) does not stop the walk, which goes
on at the next descriptor; a dump that returns an error (for example a text
descriptor without a format string, or a file under `dumps` that cannot be
opened) ends the walk: dyn_dump returns that error, and no descriptor that
follows is dumped; after a dump that returns 0 the walk goes on at the next
descriptor. -/
theorem dyn_dump_walk_step (abi : dump_data_abi) (PAGESZ : Nat) (asprintf : host_printf)
    (fopen_errno : List Char → Option Int) (fuel iter : Nat) (di : dump_info) (ret : Int)
    (hi : iter ≠ 0) :
    (∀ (r : Int) (dd : mcd_dump_data),
      alloc_remote_data_content abi di iter = some (r, dd) → r ≠ 0 →
      dyn_dump_loop abi PAGESZ asprintf fopen_errno (fuel + 1) iter di ret =
        dyn_dump_loop abi PAGESZ asprintf fopen_errno fuel dd.next di r) ∧
    (∀ (dd : mcd_dump_data) (r2 : Int) (di1 : dump_info),
      alloc_remote_data_content abi di iter = some (0, dd) →
      (if dd.ident.isSome then dump_data_content_file abi asprintf fopen_errno di dd
        else dump_data_content_core PAGESZ di dd) = some (r2, di1) → r2 ≠ 0 →
      dyn_dump_loop abi PAGESZ asprintf fopen_errno (fuel + 1) iter di ret = some (r2, di1)) ∧
    (∀ (dd : mcd_dump_data) (di1 : dump_info),
      alloc_remote_data_content abi di iter = some (0, dd) →
      (if dd.ident.isSome then dump_data_content_file abi asprintf fopen_errno di dd
        else dump_data_content_core PAGESZ di dd) = some (0, di1) →
      dyn_dump_loop abi PAGESZ asprintf fopen_errno (fuel + 1) iter di ret =
        dyn_dump_loop abi PAGESZ asprintf fopen_errno fuel dd.next di1 0) := by
  refine ⟨?_, ?_, ?_⟩
  · intro r dd ha hr
    exact dyn_dump_loop_skip abi PAGESZ asprintf fopen_errno fuel iter di ret r dd hi ha hr
  · intro dd r2 di1 ha hd hr
    rw [dyn_dump_loop_dump abi PAGESZ asprintf fopen_errno fuel iter di di1 ret r2 dd hi ha hd]
    simp only [hr, ne_eq, not_false_eq_true, if_true]
  · intro dd di1 ha hd
    rw [dyn_dump_loop_dump abi PAGESZ asprintf fopen_errno fuel iter di di1 ret 0 dd hi ha hd]
    simp only [ne_eq, not_true_eq_false, if_false]

set_option maxRecDepth 100000 in
/-- The text descriptor `msg` without format string, as alloc_remote_data_content
fetches it: in scope, followed by the descriptor at 0x600200. -/
theorem alloc_msg_nofmt :
    alloc_remote_data_content Example.abi_words (Example.di_walk Example.raw_msg_nofmt)
        0x600100 =
      some (0, { ident := some "msg".toList, type := 1, next := 0x600200 }) := by
  decide

set_option maxRecDepth 100000 in
/-- The walk over the text descriptor `msg` without format string followed by
the binary descriptor `buf`: dyn_dump returns `EINVAL` and `buf` is not dumped. -/
theorem dyn_dump_nofmt :
    (dyn_dump Example.abi_words 4096 Example.printf_model Example.fopen_ok 8
      (Example.di_walk Example.raw_msg_nofmt)).map
      (fun r => (r.1, r.2.dumps, r.2.symbol_map)) =
      some (EINVAL, [("msg".toList, [])], []) := by
  decide

set_option maxRecDepth 100000 in
/-- The walk from the descriptor `buf` of the same target on: `buf` is in scope
and its dump returns 0. -/
theorem dyn_dump_loop_buf :
    (dyn_dump_loop Example.abi_words 4096 Example.printf_model Example.fopen_ok 8 0x600200
      (Example.di_walk Example.raw_msg_nofmt) 0).map
      (fun r => (r.1, r.2.dumps, r.2.symbol_map)) =
      some (0, [("buf".toList, [0, 1, 2, 3, 4, 5, 6, 7, 8, 9, 10, 11, 12, 13, 14, 15])],
        "1100 8 D buf\n".toList) := by
  decide

/-- C18 (as stated, refuted): in the list of the example the first descriptor,
the text descriptor `msg` without format string, is in scope and its dump
returns `EINVAL`; the binary descriptor `buf` follows it, is in scope and can
be dumped (the walk from it on writes `dumps/buf`), yet dyn_dump returns
`EINVAL` with `dumps/msg` as the only file: `buf` is not dumped. -/
theorem dyn_dump_stops_at_failed_dump :
    alloc_remote_data_content Example.abi_words (Example.di_walk Example.raw_msg_nofmt)
        0x600100 =
      some (0, { ident := some "msg".toList, type := 1, next := 0x600200 }) ∧
    (dyn_dump_loop Example.abi_words 4096 Example.printf_model Example.fopen_ok 8 0x600200
      (Example.di_walk Example.raw_msg_nofmt) 0).map
      (fun r => (r.1, r.2.dumps, r.2.symbol_map)) =
      some (0, [("buf".toList, [0, 1, 2, 3, 4, 5, 6, 7, 8, 9, 10, 11, 12, 13, 14, 15])],
        "1100 8 D buf\n".toList) ∧
    (dyn_dump Example.abi_words 4096 Example.printf_model Example.fopen_ok 8
      (Example.di_walk Example.raw_msg_nofmt)).map
      (fun r => (r.1, r.2.dumps, r.2.symbol_map)) =
      some (EINVAL, [("msg".toList, [])], []) :=
  ⟨alloc_msg_nofmt, dyn_dump_loop_buf, dyn_dump_nofmt⟩

/-- Witness of C18 (amended) on the list of the example, where `dumps/msg`
cannot be opened: the dump of the first descriptor returns the error of
`fopen` and the walk ends with it, the dump context as it was. -/
theorem dyn_dump_walk_step_witness :
    alloc_remote_data_content Example.abi_words (Example.di_walk Example.raw_msg_nofmt)
        0x600100 =
      some (0, { ident := some "msg".toList, type := 1, next := 0x600200 }) ∧
    dyn_dump_loop Example.abi_words 4096 Example.printf_model Example.fopen_no_msg (7 + 1)
        0x600100 (Example.di_walk Example.raw_msg_nofmt) 0 =
      some (13, Example.di_walk Example.raw_msg_nofmt) :=
  ⟨alloc_msg_nofmt,
    (dyn_dump_walk_step Example.abi_words 4096 Example.printf_model Example.fopen_no_msg 7
      0x600100 (Example.di_walk Example.raw_msg_nofmt) 0 (by decide)).2.1
      { ident := some "msg".toList, type := 1, next := 0x600200 } 13
      (Example.di_walk Example.raw_msg_nofmt) alloc_msg_nofmt rfl (by decide)⟩

end Minicoredumper.Corestripper

/-! ## The binary dump file and the entry checks of dyn_dump -/

namespace Minicoredumper.Corestripper

/-- The little-endian bytes of a value are as many as asked for. -/
theorem le_encode_length (n : Nat) : ∀ v : Nat, (le_encode n v).length = n := by
  induction n with
  | zero => intro v; rfl
  | succ n ih => intro v; simp [le_encode, ih]

/-- Decoding the `n` little-endian bytes of a value gives the value modulo `256 ^ n`. -/
theorem le_decode_le_encode (n : Nat) : ∀ v : Nat, le_decode (le_encode n v) = v % 256 ^ n := by
  induction n with
  | zero => intro v; simp [le_encode, le_decode, Nat.mod_one]
  | succ n ih =>
    intro v
    simp only [le_encode, le_decode, ih]
    rw [pow_succ', Nat.mod_mul]

/-- C19: dump_data_file_bin on a binary descriptor whose first element has the
data pointer `addr` (read from the target at `data_ptr` when the data pointer
is indirect, `data_ptr` itself when it is direct) and the length `length` (read
through the length pointer when the length is indirect) returns 0 and appends
to the file, when the data pointer is indirect, the 8 little-endian bytes of
`addr` and then the `length` bytes of the target at `addr`, and when it is
direct just these `length` bytes. -/
theorem dump_data_file_bin_format (di : dump_info) (dd : mcd_dump_data) (file : List Nat)
    (es : dump_data_elem) (rest : List dump_data_elem) (addr length : Nat) (buf : List Nat)
    (hes : dd.es = es :: rest)
    (haddr : if (es.flags &&& MCD_DATA_PTR_INDIRECT) ≠ 0
      then (read_remote di es.data_ptr 8).map le_decode = some addr else addr = es.data_ptr)
    (hlen : if (es.flags &&& MCD_LENGTH_INDIRECT) ≠ 0
      then (read_remote di es.length 8).map le_decode = some length else length = es.length)
    (hbuf : read_remote di addr length = some buf) :
    (dump_data_file_bin di dd file).map (fun r => (r.1, r.2.2)) =
      some (0, file ++
        (if (es.flags &&& MCD_DATA_PTR_INDIRECT) ≠ 0 then le_encode 8 addr else []) ++ buf) ∧
    (le_encode 8 addr).length = 8 ∧ le_decode (le_encode 8 addr) = addr % 2 ^ 64 ∧
    buf.length = length := by
  refine ⟨?_, le_encode_length 8 addr, le_decode_le_encode 8 addr, ?_⟩
  · simp only [dump_data_file_bin, hes]
    by_cases h1 : (es.flags &&& MCD_DATA_PTR_INDIRECT) ≠ 0
    · rw [if_pos h1] at haddr
      by_cases h2 : (es.flags &&& MCD_LENGTH_INDIRECT) ≠ 0
      · rw [if_pos h2] at hlen
        simp [h1, h2, haddr, hlen, hbuf]
      · rw [if_neg h2] at hlen
        subst hlen
        simp [h1, h2, haddr, hbuf]
    · rw [if_neg h1] at haddr
      subst haddr
      by_cases h2 : (es.flags &&& MCD_LENGTH_INDIRECT) ≠ 0
      · rw [if_pos h2] at hlen
        simp [h1, h2, hlen, hbuf]
      · rw [if_neg h2] at hlen
        subst hlen
        simp [h1, h2, hbuf]
  · exact pread_mem_length di.mem length addr buf hbuf

/-- Witness of C19 on an indirect element: the pointer at 0x400108 holds
0x400200, where the 3 bytes `68 69 00` lie; the file gets the 8 bytes of the
pointer and then the 3 bytes. -/
theorem dump_data_file_bin_format_witness :
    (dump_data_file_bin Example.di_msg Example.dd_ptr []).map (fun r => (r.1, r.2.2)) =
      some (0, [0, 2, 0x40, 0, 0, 0, 0, 0, 104, 105, 0]) :=
  (dump_data_file_bin_format Example.di_msg Example.dd_ptr []
    { data_ptr := 0x400108, length := 3, flags := MCD_DATA_PTR_INDIRECT } [] 0x400200 3
    [104, 105, 0] rfl (by decide) (by decide) (by decide)).1.trans (by decide)

end Minicoredumper.Corestripper

namespace Minicoredumper.Corestripper

/-- C20: the entry checks of dyn_dump.  It returns `ENOKEY` and leaves the dump
context as it was (nothing is dumped) when the symbol `mcd_dump_data_version` is
not found, when the `int` read at that symbol differs from `DUMP_DATA_VERSION`,
and when the version is right but the symbol `mcd_dump_data_head` is not found;
it returns 0, with the dump context as it was, when the pointer read at
`mcd_dump_data_head` is null. -/
theorem dyn_dump_entry_checks (abi : dump_data_abi) (PAGESZ : Nat) (asprintf : host_printf)
    (fopen_errno : List Char → Option Int) (fuel : Nat) (di : dump_info) :
    (sym_address di "mcd_dump_data_version".toList = none →
      dyn_dump abi PAGESZ asprintf fopen_errno fuel di = some (ENOKEY, di)) ∧
    (∀ (a : Nat) (vb : List Nat),
      sym_address di "mcd_dump_data_version".toList = some a →
      read_remote di a 4 = some vb → signed_of 32 (le_decode vb) ≠ abi.DUMP_DATA_VERSION →
      dyn_dump abi PAGESZ asprintf fopen_errno fuel di = some (ENOKEY, di)) ∧
    (∀ (a : Nat) (vb : List Nat),
      sym_address di "mcd_dump_data_version".toList = some a →
      read_remote di a 4 = some vb → signed_of 32 (le_decode vb) = abi.DUMP_DATA_VERSION →
      sym_address di "mcd_dump_data_head".toList = none →
      dyn_dump abi PAGESZ asprintf fopen_errno fuel di = some (ENOKEY, di)) ∧
    (∀ (a a2 : Nat) (vb pb : List Nat),
      sym_address di "mcd_dump_data_version".toList = some a →
      read_remote di a 4 = some vb → signed_of 32 (le_decode vb) = abi.DUMP_DATA_VERSION →
      sym_address di "mcd_dump_data_head".toList = some a2 →
      read_remote di a2 8 = some pb → le_decode pb = 0 →
      dyn_dump abi PAGESZ asprintf fopen_errno fuel di = some (0, di)) := by
  refine ⟨?_, ?_, ?_, ?_⟩
  · intro h
    simp only [dyn_dump, h]
  · intro a vb h1 h2 h3
    simp only [dyn_dump, h1, h2, h3, ne_eq, not_false_eq_true, if_true]
  · intro a vb h1 h2 h3 h4
    simp only [dyn_dump, h1, h2, h3, h4, ne_eq, not_true_eq_false, if_false]
  · intro a a2 vb pb h1 h2 h3 h4 h5 h6
    simp only [dyn_dump, h1, h2, h3, h4, h5, h6, ne_eq, not_true_eq_false, if_false, if_true]

/-- Witness of C20: a target without symbols, a target with version 2 where
the dumper knows version 1, a target without the symbol of the list head, and
a target whose list head is null. -/
theorem dyn_dump_entry_checks_witness :
    dyn_dump Example.abi_words 4096 Example.printf_model Example.fopen_ok 8
        (Example.di_entry [] 1 0x600100) =
      some (ENOKEY, Example.di_entry [] 1 0x600100) ∧
    dyn_dump Example.abi_words 4096 Example.printf_model Example.fopen_ok 8
        (Example.di_entry Example.syms_both 2 0x600100) =
      some (ENOKEY, Example.di_entry Example.syms_both 2 0x600100) ∧
    dyn_dump Example.abi_words 4096 Example.printf_model Example.fopen_ok 8
        (Example.di_entry (Example.syms_both.take 1) 1 0x600100) =
      some (ENOKEY, Example.di_entry (Example.syms_both.take 1) 1 0x600100) ∧
    dyn_dump Example.abi_words 4096 Example.printf_model Example.fopen_ok 8
        (Example.di_entry Example.syms_both 1 0) =
      some (0, Example.di_entry Example.syms_both 1 0) :=
  ⟨(dyn_dump_entry_checks Example.abi_words 4096 Example.printf_model Example.fopen_ok 8
      (Example.di_entry [] 1 0x600100)).1 (by decide),
    (dyn_dump_entry_checks Example.abi_words 4096 Example.printf_model Example.fopen_ok 8
      (Example.di_entry Example.syms_both 2 0x600100)).2.1 0x600000 [2, 0, 0, 0]
      (by decide) (by decide) (by decide),
    (dyn_dump_entry_checks Example.abi_words 4096 Example.printf_model Example.fopen_ok 8
      (Example.di_entry (Example.syms_both.take 1) 1 0x600100)).2.2.1 0x600000 [1, 0, 0, 0]
      (by decide) (by decide) (by decide) (by decide),
    (dyn_dump_entry_checks Example.abi_words 4096 Example.printf_model Example.fopen_ok 8
      (Example.di_entry Example.syms_both 1 0)).2.2.2 0x600000 0x600008 [1, 0, 0, 0]
      [0, 0, 0, 0, 0, 0, 0, 0] (by decide) (by decide) (by decide) (by decide) (by decide)
      (by decide)⟩

end Minicoredumper.Corestripper

/-! ## The walk over the program headers -/

namespace Minicoredumper.Corestripper

/-- The loop of do_elf_ph_parse on a header table that libelf delivers in full
is the visit of the headers that pass the filter; it returns -1 when a visit
returned a negative value and 0 otherwise. -/
theorem do_elf_ph_parse_loop_visit {σ : Type} (type : GElf_Phdr)
    (callback : σ → GElf_Phdr → Int × σ) (ps : List GElf_Phdr) :
    ∀ s : σ,
      do_elf_ph_parse_loop type callback (ps.map some) s =
        (if (visit_headers callback (ps.filter (phdr_matches type)) s).1.any
            (fun c => decide (c.2 < 0)) then -1 else 0,
          (visit_headers callback (ps.filter (phdr_matches type)) s).2) := by
  induction ps with
  | nil => intro s; simp [do_elf_ph_parse_loop, visit_headers]
  | cons p ps ih =>
    intro s
    simp only [List.map_cons, do_elf_ph_parse_loop]
    by_cases h1 : p.p_type = type.p_type
    · by_cases h2 : (p.p_flags &&& type.p_flags) = type.p_flags
      · have hm : phdr_matches type p = true := by simp [phdr_matches, h1, h2]
        simp only [h1, h2, ne_eq, not_true_eq_false, and_false, if_false, List.filter_cons, hm,
          if_true, visit_headers]
        by_cases h3 : (callback s p).1 < 0
        · have h4 : (callback s p).1 ≠ 0 := by omega
          simp [h3, h4]
        · by_cases h5 : (callback s p).1 > 0
          · have h4 : (callback s p).1 ≠ 0 := by omega
            simp [h3, h4, h5]
          · have h4 : (callback s p).1 = 0 := by omega
            simp only [h4, lt_self_iff_false, if_false, gt_iff_lt, ne_eq, not_true_eq_false,
              List.any_cons, decide_False, Bool.false_or]
            exact ih _
      · have hm : phdr_matches type p = false := by simp [phdr_matches, h2]
        have h0 : type.p_flags ≠ 0 := by
          intro h0
          rw [h0] at h2
          simp at h2
        simp only [h1, ne_eq, not_true_eq_false, if_false, h0, not_false_eq_true, h2, and_self,
          if_true, List.filter_cons, hm]
        exact ih s
    · have hm : phdr_matches type p = false := by simp [phdr_matches, h1]
      simp only [h1, ne_eq, not_false_eq_true, if_true, List.filter_cons, hm]
      exact ih s

/-- The visit of a list of headers reaches a prefix of the list; only the last
visit can have returned nonzero, and the visit ends before the end of the list
only after a visit that returned nonzero. -/
theorem visit_headers_prefix {σ : Type} (callback : σ → GElf_Phdr → Int × σ)
    (ms : List GElf_Phdr) :
    ∀ s : σ,
      (visit_headers callback ms s).1.map Prod.fst <+: ms ∧
      (∀ c ∈ (visit_headers callback ms s).1.dropLast, c.2 = 0) ∧
      ((visit_headers callback ms s).1.map Prod.fst = ms ∨
        ∃ c, (visit_headers callback ms s).1.getLast? = some c ∧ c.2 ≠ 0) := by
  induction ms with
  | nil => intro s; simp [visit_headers]
  | cons p ps ih =>
    intro s
    simp only [visit_headers]
    by_cases h : (callback s p).1 = 0
    swap
    · simp only [ne_eq, h, not_false_eq_true, if_true, List.map_cons, List.map_nil,
        List.dropLast_single, List.not_mem_nil, false_implies, implies_true, true_and]
      refine ⟨?_, Or.inr ⟨_, rfl, h⟩⟩
      exact ⟨ps, rfl⟩
    · simp only [ne_eq, h, not_true_eq_false, if_false, List.map_cons]
      obtain ⟨h1, h2, h3⟩ := ih (callback s p).2
      refine ⟨?_, ?_, ?_⟩
      · obtain ⟨t, ht⟩ := h1
        exact ⟨t, by rw [List.cons_append, ht]⟩
      · intro c hc
        cases hv : (visit_headers callback ps (callback s p).2).1 with
        | nil => rw [hv] at hc; simp at hc
        | cons v vs =>
          rw [hv, List.dropLast_cons₂] at hc
          rcases List.mem_cons.mp hc with hc | hc
          · rw [hc]
          · exact h2 c (by rw [hv]; exact hc)
      · rcases h3 with h3 | ⟨c, hc, hne⟩
        · exact Or.inl (by rw [h3])
        · refine Or.inr ⟨c, ?_, hne⟩
          cases hv : (visit_headers callback ps (callback s p).2).1 with
          | nil => rw [hv] at hc; simp at hc
          | cons v vs =>
            rw [hv] at hc
            rw [List.getLast?_cons_cons]
            exact hc

end Minicoredumper.Corestripper

namespace Minicoredumper.Corestripper

/-- C21: for a header table `ps` that libelf delivers in full and a wanted
(type, flags), do_elf_ph_parse visits, in header order, the headers with the
wanted `p_type` and `(p_flags & wanted_flags) == wanted_flags`, up to and
including the first one for which the visitor returns nonzero (the visits are
a prefix of the matching headers, only the last visit can have returned
nonzero, and the visits end early only after a nonzero return); it returns 0
when the visitor asked to stop or every matching header was visited, and -1
when a visit returned a negative value or there are no program headers.  The
loop does the same for a visitor on any state. -/
theorem do_elf_ph_parse_walk (elf_read : elf_view) (di : dump_info) (type : GElf_Phdr)
    (callback : dump_info → GElf_Phdr → Int × dump_info) (ps : List GElf_Phdr)
    (h : elf_read di.core = some (ps.map some)) :
    do_elf_ph_parse elf_read di type callback =
      (if ps = [] then (-1, di)
       else (if (visit_headers callback (ps.filter (phdr_matches type)) di).1.any
              (fun c => decide (c.2 < 0)) then -1 else 0,
            (visit_headers callback (ps.filter (phdr_matches type)) di).2)) ∧
    ((visit_headers callback (ps.filter (phdr_matches type)) di).1.map Prod.fst <+:
        ps.filter (phdr_matches type) ∧
      (∀ c ∈ (visit_headers callback (ps.filter (phdr_matches type)) di).1.dropLast, c.2 = 0) ∧
      ((visit_headers callback (ps.filter (phdr_matches type)) di).1.map Prod.fst =
          ps.filter (phdr_matches type) ∨
        ∃ c, (visit_headers callback (ps.filter (phdr_matches type)) di).1.getLast? = some c ∧
          c.2 ≠ 0)) ∧
    (∀ (σ : Type) (cb : σ → GElf_Phdr → Int × σ) (s : σ),
      do_elf_ph_parse_loop type cb (ps.map some) s =
        (if (visit_headers cb (ps.filter (phdr_matches type)) s).1.any
            (fun c => decide (c.2 < 0)) then -1 else 0,
          (visit_headers cb (ps.filter (phdr_matches type)) s).2)) := by
  refine ⟨?_, visit_headers_prefix callback _ di, ?_⟩
  · simp only [do_elf_ph_parse, h, List.length_map]
    by_cases hp : ps = []
    · simp [hp]
    · have hl : ¬ ps.length = 0 := fun hl => hp (List.length_eq_zero.mp hl)
      rw [if_neg hl, if_neg hp]
      exact do_elf_ph_parse_loop_visit type callback ps di
  · intro σ cb s
    exact do_elf_ph_parse_loop_visit type cb ps s

/-- Witness of C21 on a table with a note header and three `PT_LOAD` headers,
walked for readable `PT_LOAD` headers with a visitor that asks to stop at the
header that can be written: the first two `PT_LOAD` headers are visited, the
third is not, and the walk returns 0. -/
theorem do_elf_ph_parse_walk_witness :
    Example.elf_four ({} : dump_info).core =
      some ([Example.phdr_note, Example.phdr_text, Example.phdr_rw, Example.phdr_seg2].map some) ∧
    do_elf_ph_parse_loop { p_type := PT_LOAD, p_flags := PF_R } Example.stop_at_writable
        ([Example.phdr_note, Example.phdr_text, Example.phdr_rw, Example.phdr_seg2].map some) 0 =
      (0, 2) ∧
    (visit_headers Example.stop_at_writable
        ([Example.phdr_note, Example.phdr_text, Example.phdr_rw, Example.phdr_seg2].filter
          (phdr_matches { p_type := PT_LOAD, p_flags := PF_R })) 0).1 =
      [(Example.phdr_text, 0), (Example.phdr_rw, 1)] :=
  ⟨rfl,
    ((do_elf_ph_parse_walk Example.elf_four {} { p_type := PT_LOAD, p_flags := PF_R } vma_cb
      [Example.phdr_note, Example.phdr_text, Example.phdr_rw, Example.phdr_seg2] rfl).2.2
      Nat Example.stop_at_writable 0).trans (by decide),
    by decide⟩

end Minicoredumper.Corestripper

/-! ## The retries of the header import -/

namespace Minicoredumper.Corestripper

/-- The header walk with vma_cb changes nothing but the vma list. -/
theorem do_elf_ph_parse_loop_state (phdrs : List (Option GElf_Phdr)) :
    ∀ d : dump_info,
      ∃ vs, (do_elf_ph_parse_loop { p_type := PT_LOAD, p_flags := PF_R } vma_cb phdrs d).2 =
        { d with vma := vs } := by
  induction phdrs with
  | nil => intro d; exact ⟨d.vma, rfl⟩
  | cons p ps ih =>
    intro d
    cases p with
    | none => exact ⟨d.vma, rfl⟩
    | some p =>
      simp only [do_elf_ph_parse_loop]
      split
      · exact ih d
      · split
        · exact ih d
        · simp only [vma_cb, lt_self_iff_false, if_false, gt_iff_lt]
          obtain ⟨vs, hvs⟩ := ih { d with vma :=
            { start := p.p_vaddr, file_end := add64 p.p_vaddr p.p_filesz,
              mem_end := add64 p.p_vaddr p.p_memsz, file_off := p.p_offset,
              flags := p.p_flags } :: d.vma }
          exact ⟨vs, hvs⟩

/-- The function parse_vma_info changes nothing but the vma list and its bounds. -/
theorem parse_vma_info_state (elf_read : elf_view) (d : dump_info) :
    ∃ vs a b, (parse_vma_info elf_read d).2 =
      { d with vma := vs, vma_start := a, vma_end := b } := by
  simp only [parse_vma_info, do_elf_ph_parse]
  cases elf_read d.core with
  | none => exact ⟨[], 0, 0, rfl⟩
  | some phdrs =>
    simp only
    by_cases hl : phdrs.length = 0
    · simp only [hl, if_true, ne_eq]
      exact ⟨[], 0, 0, rfl⟩
    · simp only [hl, if_false]
      obtain ⟨vs, hvs⟩ := do_elf_ph_parse_loop_state phdrs
        { d with vma_start := 0, vma_end := 0, vma := [] }
      generalize do_elf_ph_parse_loop { p_type := PT_LOAD, p_flags := PF_R } vma_cb phdrs
        { d with vma_start := 0, vma_end := 0, vma := [] } = r at hvs
      obtain ⟨ret, R⟩ := r
      simp only at hvs
      subst hvs
      simp only
      split
      · exact ⟨vs, 0, 0, rfl⟩
      · split
        · exact ⟨vs, 0, 0, rfl⟩
        · exact ⟨vs, _, _, rfl⟩

/-- The function parse_vma_info starts from an empty vma list: what the list
and its bounds were before does not matter. -/
theorem parse_vma_info_reset (elf_read : elf_view) (d : dump_info) (vs : List core_vma)
    (a b : Nat) :
    parse_vma_info elf_read { d with vma := vs, vma_start := a, vma_end := b } =
      parse_vma_info elf_read d := rfl

/-- The function parse_vma_info returns 0 or -1. -/
theorem parse_vma_info_values (elf_read : elf_view) (d : dump_info) :
    (parse_vma_info elf_read d).1 = 0 ∨ (parse_vma_info elf_read d).1 = -1 := by
  simp only [parse_vma_info]
  split
  · exact Or.inr rfl
  · split
    · exact Or.inr rfl
    · exact Or.inl rfl

end Minicoredumper.Corestripper

namespace Minicoredumper.Corestripper

/-- Importing two more pages after `2 * k` pages. -/
theorem import_pages_succ (PAGESZ : Nat) (src : List Nat) (di : dump_info) (k : Nat) :
    import_pages PAGESZ (src.drop (2 * PAGESZ)) (import_pages PAGESZ src di 1) k =
      import_pages PAGESZ src di (k + 1) := by
  have e : 2 * PAGESZ * (k + 1) = 2 * PAGESZ + 2 * PAGESZ * k := by ring
  simp only [import_pages, Nat.mul_one, e, List.take_add, List.append_assoc, Nat.add_assoc]

/-- The page copy of one attempt of init_src_core. -/
theorem copy_pages_import (PAGESZ : Nat) (src : List Nat) (di : dump_info)
    (hinv : di.core_pos = di.core.length) (h2 : 2 * PAGESZ ≤ src.length) :
    copy_pages PAGESZ 2 src di = some (src.drop (2 * PAGESZ), import_pages PAGESZ src di 1) := by
  rw [copy_pages_eq PAGESZ 2 src di hinv, if_pos h2]
  simp only [import_pages, Nat.mul_one]

/-- An attempt of init_src_core does not look at the vma list it starts with. -/
theorem init_src_core_again_reset (elf_read : elf_view) (PAGESZ : Nat) (m : Nat)
    (src : List Nat) (d : dump_info) (vs : List core_vma) (a b : Nat) :
    init_src_core_again elf_read PAGESZ (m + 1) src
        { d with vma := vs, vma_start := a, vma_end := b } =
      init_src_core_again elf_read PAGESZ (m + 1) src d := by
  have hc : ∀ (i : Nat) (s : List Nat) (d : dump_info),
      copy_pages PAGESZ i s { d with vma := vs, vma_start := a, vma_end := b } =
        (copy_pages PAGESZ i s d).map
          (fun r => (r.1, { r.2 with vma := vs, vma_start := a, vma_end := b })) := by
    intro i
    induction i with
    | zero => intro s d; rfl
    | succ i ih =>
      intro s d
      simp only [copy_pages]
      cases read_file_fd s PAGESZ with
      | ok buf s1 =>
        exact ih s1 { d with core := file_write d.core d.core_pos buf,
                             core_pos := d.core_pos + PAGESZ }
      | error => rfl
      | hang => rfl
  unfold init_src_core_again
  rw [hc]
  cases copy_pages PAGESZ 2 src d with
  | none => rfl
  | some r => rfl

/-- An attempt of init_src_core that fails, when more attempts are left: the
next attempt starts with two more pages in the core. -/
theorem init_src_core_again_retry (elf_read : elf_view) (PAGESZ : Nat) (m : Nat)
    (src : List Nat) (di : dump_info) (hinv : di.core_pos = di.core.length)
    (h2 : 2 * PAGESZ ≤ src.length)
    (hf : (parse_vma_info elf_read (import_pages PAGESZ src di 1)).1 ≠ 0) :
    init_src_core_again elf_read PAGESZ (m + 2) src di =
      init_src_core_again elf_read PAGESZ (m + 1) (src.drop (2 * PAGESZ))
        (import_pages PAGESZ src di 1) := by
  conv => lhs; unfold init_src_core_again
  rw [copy_pages_import PAGESZ src di hinv h2]
  simp only [hf, ne_eq, not_false_eq_true, if_true, Nat.zero_lt_succ]
  obtain ⟨vs, a, b, hst⟩ := parse_vma_info_state elf_read (import_pages PAGESZ src di 1)
  rw [hst]
  exact init_src_core_again_reset elf_read PAGESZ m _ (import_pages PAGESZ src di 1) vs a b

/-- The last attempt of init_src_core, when it fails: the function returns -1. -/
theorem init_src_core_again_last (elf_read : elf_view) (PAGESZ : Nat)
    (src : List Nat) (di : dump_info) (hinv : di.core_pos = di.core.length)
    (h2 : 2 * PAGESZ ≤ src.length)
    (hf : (parse_vma_info elf_read (import_pages PAGESZ src di 1)).1 ≠ 0) :
    ∃ D : dump_info, init_src_core_again elf_read PAGESZ 1 src di =
        some (-1, src.drop (2 * PAGESZ), D) ∧
      D.core = (import_pages PAGESZ src di 1).core := by
  conv => enter [1, D, 1, 1]; unfold init_src_core_again
  rw [copy_pages_import PAGESZ src di hinv h2]
  simp only [hf, ne_eq, not_false_eq_true, if_true, lt_self_iff_false, if_false]
  rcases parse_vma_info_values elf_read (import_pages PAGESZ src di 1) with h0 | h1
  · exact absurd h0 hf
  · rw [h1]
    exact ⟨_, rfl, (parse_vma_info_core elf_read _).1⟩

/-- When the first `k` attempts of init_src_core fail and more attempts are
left, the next attempt starts with `2 * k` pages in the core. -/
theorem init_src_core_again_fails (elf_read : elf_view) (PAGESZ : Nat) (k : Nat) :
    ∀ (left : Nat) (src : List Nat) (di : dump_info), di.core_pos = di.core.length →
      k < left → 2 * PAGESZ * k ≤ src.length →
      (∀ j, 1 ≤ j → j ≤ k → (parse_vma_info elf_read (import_pages PAGESZ src di j)).1 ≠ 0) →
      init_src_core_again elf_read PAGESZ left src di =
        init_src_core_again elf_read PAGESZ (left - k) (src.drop (2 * PAGESZ * k))
          (import_pages PAGESZ src di k) := by
  induction k with
  | zero =>
    intro left src di _ _ _ _
    have e : import_pages PAGESZ src di 0 = di := by
      simp [import_pages]
    rw [e]
    simp
  | succ k ih =>
    intro left src di hinv hk hlen hf
    obtain ⟨m, hm⟩ : ∃ m, left = m + 2 := ⟨left - 2, by omega⟩
    subst hm
    have e : 2 * PAGESZ * (k + 1) = 2 * PAGESZ + 2 * PAGESZ * k := by ring
    have h2 : 2 * PAGESZ ≤ src.length := by omega
    rw [init_src_core_again_retry elf_read PAGESZ m src di hinv h2 (hf 1 (le_refl 1) (by omega))]
    have hinv1 : (import_pages PAGESZ src di 1).core_pos =
        (import_pages PAGESZ src di 1).core.length := by
      simp only [import_pages, List.length_append, List.length_take, Nat.mul_one]
      omega
    rw [ih (m + 1) (src.drop (2 * PAGESZ)) (import_pages PAGESZ src di 1) hinv1 (by omega)
      (by rw [List.length_drop]; omega)
      (by
        intro j hj1 hj2
        rw [import_pages_succ]
        exact hf (j + 1) (by omega) (by omega))]
    rw [import_pages_succ, List.drop_drop, e]
    have e2 : m + 2 - (k + 1) = m + 1 - k := by omega
    rw [e2]

end Minicoredumper.Corestripper

namespace Minicoredumper.Corestripper

/-- The copy loop on the streamed source returns when the source holds the
bytes asked for. -/
theorem copy_data_loop_returns (fuel : Nat) :
    ∀ (src dest : List Nat) (pos len chunk : Nat), 0 < chunk → len ≤ fuel →
      len ≤ src.length →
      ∃ r, copy_data_loop read_file_fd fuel src dest pos len chunk = some r := by
  induction fuel with
  | zero =>
    intro src dest pos len chunk _ hl _
    have : len = 0 := by omega
    subst this
    exact ⟨_, rfl⟩
  | succ fuel ih =>
    intro src dest pos len chunk hc hl hs
    cases len with
    | zero => exact ⟨(0, src, dest, pos), by simp [copy_data_loop]⟩
    | succ len =>
      simp only [copy_data_loop, read_file_fd]
      by_cases h1 : len + 1 < chunk
      · simp only [h1, if_true, hs]
        exact ih _ _ _ _ _ (by omega) (by omega) (by rw [List.length_drop]; omega)
      · have h2 : chunk ≤ src.length := by omega
        simp only [h1, if_false, h2, if_true]
        exact ih _ _ _ _ _ hc (by omega) (by rw [List.length_drop]; omega)

/-- An attempt of init_src_core that succeeds does not depend on the number of
attempts that are left. -/
theorem init_src_core_again_success (elf_read : elf_view) (PAGESZ : Nat) (m : Nat)
    (src : List Nat) (di : dump_info) (hinv : di.core_pos = di.core.length)
    (h2 : 2 * PAGESZ ≤ src.length)
    (hs : (parse_vma_info elf_read (import_pages PAGESZ src di 1)).1 = 0) :
    init_src_core_again elf_read PAGESZ (m + 1) src di =
      init_src_core_again elf_read PAGESZ 1 src di := by
  conv => lhs; unfold init_src_core_again
  conv => rhs; unfold init_src_core_again
  rw [copy_pages_import PAGESZ src di hinv h2]
  simp only [hs, ne_eq, not_true_eq_false, if_false]

/-- An attempt of init_src_core that succeeds returns 0 when it returns, and it
returns when the source reaches to the first segment. -/
theorem init_src_core_again_returns (elf_read : elf_view) (PAGESZ : Nat)
    (src : List Nat) (di : dump_info) (hinv : di.core_pos = di.core.length)
    (h2 : 2 * PAGESZ ≤ src.length)
    (hs : (parse_vma_info elf_read (import_pages PAGESZ src di 1)).1 = 0) :
    (∀ res, init_src_core_again elf_read PAGESZ 1 src di = some res → res.1 = 0) ∧
    (0 < PAGESZ →
      (parse_vma_info elf_read (import_pages PAGESZ src di 1)).2.vma_start ≤
        di.core_pos + src.length →
      ∃ res, init_src_core_again elf_read PAGESZ 1 src di = some res) := by
  unfold init_src_core_again
  rw [copy_pages_import PAGESZ src di hinv h2]
  simp only [hs, ne_eq, not_true_eq_false, if_false]
  have hpos : (import_pages PAGESZ src di 1).core_pos = di.core_pos + 2 * PAGESZ := by
    simp [import_pages]
  generalize parse_vma_info elf_read (import_pages PAGESZ src di 1) = r at hs ⊢
  obtain ⟨ret, R⟩ := r
  simp only at hs ⊢
  subst hs
  by_cases hgt : R.vma_start > (import_pages PAGESZ src di 1).core_pos
  · simp only [hgt, if_true]
    refine ⟨?_, ?_⟩
    · intro res h
      cases hc : copy_data PAGESZ read_file_fd (List.drop (2 * PAGESZ) src)
          (file_write R.core (R.vma_end - 1) [0]) (import_pages PAGESZ src di 1).core_pos
          (R.vma_start - (import_pages PAGESZ src di 1).core_pos) with
      | none => rw [hc] at h; cases h
      | some c =>
        rw [hc] at h
        simp only [Option.some.injEq] at h
        rw [← h]
    · intro hP hin
      obtain ⟨c, hc⟩ := copy_data_loop_returns
        (R.vma_start - (import_pages PAGESZ src di 1).core_pos) (List.drop (2 * PAGESZ) src)
        (file_write R.core (R.vma_end - 1) [0]) (import_pages PAGESZ src di 1).core_pos
        (R.vma_start - (import_pages PAGESZ src di 1).core_pos)
        (if R.vma_start - (import_pages PAGESZ src di 1).core_pos < PAGESZ
          then R.vma_start - (import_pages PAGESZ src di 1).core_pos else PAGESZ)
        (by split <;> omega) (le_refl _) (by rw [List.length_drop]; omega)
      unfold copy_data
      rw [hc]
      exact ⟨_, rfl⟩
  · simp only [hgt, if_false]
    refine ⟨?_, ?_⟩
    · intro res h
      simp only [Option.some.injEq] at h
      rw [← h]
    · intro _ _
      exact ⟨_, rfl⟩

end Minicoredumper.Corestripper

namespace Minicoredumper.Corestripper

/-- Importing two more pages after `2 * k` pages, seen from the start. -/
theorem import_pages_next (PAGESZ : Nat) (src : List Nat) (di : dump_info) (k : Nat) :
    import_pages PAGESZ (src.drop (2 * PAGESZ * k)) (import_pages PAGESZ src di k) 1 =
      import_pages PAGESZ src di (k + 1) := by
  have e : 2 * PAGESZ * (k + 1) = 2 * PAGESZ * k + 2 * PAGESZ := by ring
  simp only [import_pages, Nat.mul_one, e, List.take_add, List.append_assoc, Nat.add_assoc]

/-- The file position after an import on a fresh core is the length of the core. -/
theorem import_pages_inv (PAGESZ : Nat) (src : List Nat) (k : Nat)
    (h : 2 * PAGESZ * k ≤ src.length) :
    (import_pages PAGESZ src {} k).core_pos = (import_pages PAGESZ src {} k).core.length := by
  simp only [import_pages, List.nil_append, List.length_take, Nat.zero_add]
  omega

/-- C22: init_src_core on a fresh core.  Before its attempt number `j` to parse
the headers, `2 * j` pages of the input are in the core.  When attempt `k`
(at most the tenth) is the first that succeeds, the function stops there: it is
the run of that one attempt on the `2 * (k - 1)` pages imported before, it
returns 0 whenever it returns, and it returns when the input reaches to the
first segment.  When all ten attempts fail it returns -1, with twenty pages
imported. -/
theorem init_src_core_retry (elf_read : elf_view) (PAGESZ : Nat) (src : List Nat) :
    (∀ k, 1 ≤ k → k ≤ 10 → 2 * PAGESZ * k ≤ src.length →
      (∀ j, 1 ≤ j → j < k →
        (parse_vma_info elf_read (import_pages PAGESZ src {} j)).1 ≠ 0) →
      (parse_vma_info elf_read (import_pages PAGESZ src {} k)).1 = 0 →
      init_src_core elf_read PAGESZ src {} =
          init_src_core_again elf_read PAGESZ 1 (src.drop (2 * PAGESZ * (k - 1)))
            (import_pages PAGESZ src {} (k - 1)) ∧
        (∀ res, init_src_core elf_read PAGESZ src {} = some res → res.1 = 0) ∧
        (0 < PAGESZ →
          (parse_vma_info elf_read (import_pages PAGESZ src {} k)).2.vma_start ≤ src.length →
          ∃ res, init_src_core elf_read PAGESZ src {} = some res)) ∧
    (20 * PAGESZ ≤ src.length →
      (∀ j, 1 ≤ j → j ≤ 10 →
        (parse_vma_info elf_read (import_pages PAGESZ src {} j)).1 ≠ 0) →
      ∃ D : dump_info,
        init_src_core elf_read PAGESZ src {} = some (-1, src.drop (20 * PAGESZ), D) ∧
        D.core = src.take (20 * PAGESZ)) := by
  refine ⟨?_, ?_⟩
  · intro k hk1 hk10 hlen hf hs
    obtain ⟨n, rfl⟩ : ∃ n, k = n + 1 := ⟨k - 1, by omega⟩
    have e : 2 * PAGESZ * (n + 1) = 2 * PAGESZ * n + 2 * PAGESZ := by ring
    have hn : 2 * PAGESZ * n ≤ src.length := by omega
    have h0 : ({} : dump_info).core_pos = ({} : dump_info).core.length := rfl
    have hrun : init_src_core elf_read PAGESZ src {} =
        init_src_core_again elf_read PAGESZ 1 (src.drop (2 * PAGESZ * n))
          (import_pages PAGESZ src {} n) := by
      unfold init_src_core
      rw [init_src_core_again_fails elf_read PAGESZ n 10 src {} h0 (by omega) hn
        (fun j hj1 hj2 => hf j hj1 (by omega))]
      obtain ⟨m, hm⟩ : ∃ m, 10 - n = m + 1 := ⟨10 - n - 1, by omega⟩
      rw [hm]
      exact init_src_core_again_success elf_read PAGESZ m _ _
        (import_pages_inv PAGESZ src n hn) (by rw [List.length_drop]; omega)
        (by rw [import_pages_next]; exact hs)
    have hret := init_src_core_again_returns elf_read PAGESZ (src.drop (2 * PAGESZ * n))
      (import_pages PAGESZ src {} n) (import_pages_inv PAGESZ src n hn)
      (by rw [List.length_drop]; omega) (by rw [import_pages_next]; exact hs)
    rw [import_pages_next] at hret
    refine ⟨by rw [Nat.add_sub_cancel]; exact hrun, ?_, ?_⟩
    · intro res h
      rw [hrun] at h
      exact hret.1 res h
    · intro hP hin
      rw [hrun]
      refine hret.2 hP ?_
      have hp : (import_pages PAGESZ src {} n).core_pos = 2 * PAGESZ * n := by
        simp [import_pages]
      rw [hp, List.length_drop]
      omega
  · intro hlen hf
    have h0 : ({} : dump_info).core_pos = ({} : dump_info).core.length := rfl
    have h9 : 2 * PAGESZ * 9 ≤ src.length := by omega
    unfold init_src_core
    rw [init_src_core_again_fails elf_read PAGESZ 9 10 src {} h0 (by omega) h9
      (fun j hj1 hj2 => hf j hj1 (by omega))]
    obtain ⟨D, hD, hc⟩ := init_src_core_again_last elf_read PAGESZ (src.drop (2 * PAGESZ * 9))
      (import_pages PAGESZ src {} 9) (import_pages_inv PAGESZ src 9 h9)
      (by rw [List.length_drop]; omega)
      (by rw [import_pages_next]; exact hf 10 (by omega) (le_refl 10))
    refine ⟨D, ?_, ?_⟩
    · rw [hD, List.drop_drop]
      have e : 2 * PAGESZ * 9 + 2 * PAGESZ = 20 * PAGESZ := by ring
      rw [e]
    · rw [hc, import_pages_next]
      have e : 2 * PAGESZ * (9 + 1) = 20 * PAGESZ := by ring
      simp only [import_pages, List.nil_append, e]

/-- Witness of C22: on the source core of scenario 2 the first attempt
succeeds and init_src_core returns 0; on an input of twenty pages (of one byte
each) in which libelf never finds an ELF file all ten attempts fail and
init_src_core returns -1 with the twenty pages imported. -/
theorem init_src_core_retry_witness :
    (∀ res, init_src_core Example.elf_scenario2 4096 Example.src_four_pages {} = some res →
      res.1 = 0) ∧
    (∃ res, init_src_core Example.elf_scenario2 4096 Example.src_four_pages {} = some res) ∧
    ∃ D : dump_info,
      init_src_core Example.elf_none 1 (List.replicate 20 7) {} =
        some (-1, (List.replicate 20 7).drop (20 * 1), D) ∧
      D.core = (List.replicate 20 7).take (20 * 1) := by
  have e : Example.src_four_pages.length = 0x4000 := List.length_replicate _ _
  have h := (init_src_core_retry Example.elf_scenario2 4096 Example.src_four_pages).1 1
    (le_refl 1) (by decide) (by omega) (fun j h1 h2 => absurd h1 (by omega)) rfl
  refine ⟨h.2.1, h.2.2 (by decide) ?_, ?_⟩
  · have hv : (parse_vma_info Example.elf_scenario2
        (import_pages 4096 Example.src_four_pages {} 1)).2.vma_start = 0x1000 := rfl
    rw [hv, e]
    decide
  · exact (init_src_core_retry Example.elf_none 1 (List.replicate 20 7)).2 (by decide)
      (fun _ _ _ => (by decide : (-1 : Int) ≠ 0))

end Minicoredumper.Corestripper

/-! ## The task list -/

namespace Minicoredumper.Corestripper

/-- The first pass of get_task_list counts the entries that are not hidden. -/
theorem get_task_list_count_eq (es : List (List Char)) :
    ∀ count : Nat, get_task_list_count es count = count + (es.filter visible).length := by
  induction es with
  | nil => intro count; simp [get_task_list_count]
  | cons de rest ih =>
    intro count
    simp only [get_task_list_count, List.filter_cons, visible]
    by_cases h : de.head? = some '.'
    · simp only [h, if_true, ne_eq, not_true_eq_false, decide_False, Bool.false_eq_true,
        if_false]
      exact ih count
    · simp only [h, if_false, ne_eq, not_false_eq_true, decide_True, if_true,
        List.length_cons]
      rw [ih]
      omega

/-- When the second pass of get_task_list delivers a pid list, it has read a
front part of the directory with exactly as many visible entries as it was
asked for, and the pids are those of these entries in order. -/
theorem get_task_list_read_some (es : List (List Char)) :
    ∀ (n : Nat) (acc pids : List Int) (rest : List (List Char)),
      get_task_list_read es n acc = some (pids, rest) →
      ∃ (front : List (List Char)) (new : List Int),
        es = front ++ rest ∧ pids = acc ++ new ∧ (front.filter visible).length = n ∧
        List.Forall₂ (fun de pid => entry_pid de = some pid) (front.filter visible) new := by
  induction es with
  | nil =>
    intro n acc pids rest h
    cases n with
    | zero =>
      simp only [get_task_list_read, Option.some.injEq, Prod.mk.injEq] at h
      exact ⟨[], [], by simp [h.2], by simp [h.1], rfl, List.Forall₂.nil⟩
    | succ n => simp [get_task_list_read] at h
  | cons de es ih =>
    intro n acc pids rest h
    cases n with
    | zero =>
      simp only [get_task_list_read, Option.some.injEq, Prod.mk.injEq] at h
      exact ⟨[], [], by simp [h.2], by simp [h.1], rfl, List.Forall₂.nil⟩
    | succ n =>
      simp only [get_task_list_read] at h
      by_cases hd : de.head? = some '.'
      · simp only [hd, if_true] at h
        obtain ⟨front, new, h1, h2, h3, h4⟩ := ih _ _ _ _ h
        have hv : visible de = false := by simp [visible, hd]
        exact ⟨de :: front, new, by rw [h1]; rfl, h2, by simp [List.filter_cons, hv, h3],
          by simp only [List.filter_cons, hv]; exact h4⟩
      · simp only [hd, if_false] at h
        have hv : visible de = true := by simp [visible, hd]
        cases hs : scan_d de with
        | none => simp [hs] at h
        | some r =>
          simp only [hs] at h
          obtain ⟨front, new, h1, h2, h3, h4⟩ := ih _ _ _ _ h
          refine ⟨de :: front, r.1 :: new, by rw [h1]; rfl, by simp [h2],
            by simp [List.filter_cons, hv, h3], ?_⟩
          simp only [List.filter_cons, hv, if_true]
          exact List.Forall₂.cons (by simp [entry_pid, hs]) h4

/-- The second pass of get_task_list fails when the directory holds fewer
visible entries than it was asked for. -/
theorem get_task_list_read_short (es : List (List Char)) :
    ∀ (n : Nat) (acc : List Int), (es.filter visible).length < n →
      get_task_list_read es n acc = none := by
  induction es with
  | nil =>
    intro n acc h
    cases n with
    | zero => simp at h
    | succ n => rfl
  | cons de es ih =>
    intro n acc h
    cases n with
    | zero => simp at h
    | succ n =>
      simp only [get_task_list_read]
      by_cases hd : de.head? = some '.'
      · have hv : visible de = false := by simp [visible, hd]
        simp only [hd, if_true]
        exact ih _ _ (by simpa [List.filter_cons, hv] using h)
      · have hv : visible de = true := by simp [visible, hd]
        simp only [hd, if_false]
        cases hs : scan_d de with
        | none => rfl
        | some r =>
          simp only
          exact ih _ _ (by
            simp only [List.filter_cons, hv, if_true, List.length_cons] at h
            omega)

end Minicoredumper.Corestripper

namespace Minicoredumper.Corestripper

/-- C23: get_task_list on a directory that can be opened.  When the first pass
has counted tasks and the second pass meets fewer or more visible entries than
that, it returns 1 and leaves the task list empty; when it returns 0, the task
list holds as many pids as the first pass counted visible entries, and (when
there are any) these are the pids of the visible entries of the second pass,
one for each, in directory order. -/
theorem get_task_list_stable (pass1 pass2 : List (List Char)) (di : dump_info) :
    (0 < (pass1.filter visible).length →
      (pass2.filter visible).length ≠ (pass1.filter visible).length →
      get_task_list (some (pass1, pass2)) di = (1, { di with tsks := [] })) ∧
    (∀ d : dump_info, get_task_list (some (pass1, pass2)) di = (0, d) →
      d.tsks.length = (pass1.filter visible).length ∧
      (0 < (pass1.filter visible).length →
        List.Forall₂ (fun de pid => entry_pid de = some pid) (pass2.filter visible) d.tsks)) := by
  have hc : get_task_list_count pass1 0 = (pass1.filter visible).length := by
    rw [get_task_list_count_eq]; omega
  refine ⟨?_, ?_⟩
  · intro h0 hne
    simp only [get_task_list, hc]
    rw [if_neg (by omega)]
    cases hr : get_task_list_read pass2 (pass1.filter visible).length [] with
    | none => rfl
    | some r =>
      obtain ⟨pids, rest⟩ := r
      obtain ⟨front, new, h1, _, h3, _⟩ := get_task_list_read_some pass2 _ _ _ _ hr
      have hlt : ¬ (pass2.filter visible).length < (pass1.filter visible).length := by
        intro hlt
        rw [get_task_list_read_short pass2 _ [] hlt] at hr
        cases hr
      have hrest : rest ≠ [] := by
        intro he
        rw [he, List.append_nil] at h1
        rw [h1] at hne
        exact hne h3
      simp only [hrest, ne_eq, not_false_eq_true, if_true]
  · intro d h
    simp only [get_task_list, hc] at h
    by_cases h0 : (pass1.filter visible).length = 0
    · rw [if_pos h0] at h
      simp only [Prod.mk.injEq, true_and] at h
      rw [← h]
      exact ⟨by simp [h0], fun hpos => absurd h0 (by omega)⟩
    · rw [if_neg h0] at h
      cases hr : get_task_list_read pass2 (pass1.filter visible).length [] with
      | none => rw [hr] at h; simp at h
      | some r =>
        obtain ⟨pids, rest⟩ := r
        rw [hr] at h
        simp only at h
        by_cases hrest : rest = []
        · simp only [hrest, ne_eq, not_true_eq_false, if_false, Prod.mk.injEq, true_and] at h
          obtain ⟨front, new, h1, h2, h3, h4⟩ := get_task_list_read_some pass2 _ _ _ _ hr
          rw [hrest, List.append_nil] at h1
          subst h1
          simp only [List.nil_append] at h2
          subst h2
          rw [← h]
          refine ⟨?_, fun _ => h4⟩
          show pids.length = _
          rw [← h3]
          exact (List.Forall₂.length_eq h4).symm
        · simp only [hrest, ne_eq, not_false_eq_true, if_true, Prod.mk.injEq] at h
          exact absurd h.1 (by decide)

/-- Witness of C23: a directory with two tasks that a third task joins between
the passes gives an error and an empty task list; the directory read twice
alike gives the two pids in order. -/
theorem get_task_list_stable_witness :
    get_task_list (some (Example.task_dir, Example.task_dir_grown)) {} =
      (1, { ({} : dump_info) with tsks := [] }) ∧
    (get_task_list (some (Example.task_dir, Example.task_dir)) {}).2.tsks = [1234, 1235] ∧
    ({ ({} : dump_info) with tsks := [1234, 1235] }).tsks.length =
      (Example.task_dir.filter visible).length ∧
    List.Forall₂ (fun de pid => entry_pid de = some pid) (Example.task_dir.filter visible)
      ({ ({} : dump_info) with tsks := [1234, 1235] }).tsks :=
  ⟨(get_task_list_stable Example.task_dir Example.task_dir_grown {}).1 (by decide) (by decide),
    by decide,
    ((get_task_list_stable Example.task_dir Example.task_dir {}).2
      { ({} : dump_info) with tsks := [1234, 1235] } rfl).1,
    ((get_task_list_stable Example.task_dir Example.task_dir {}).2
      { ({} : dump_info) with tsks := [1234, 1235] } rfl).2 (by decide)⟩

end Minicoredumper.Corestripper

/-! ## The cap on strings of the target -/

namespace Minicoredumper.Corestripper

/-- The bytes before a NUL that can be read with the bytes before it. -/
theorem alloc_remote_string_scan_nul (mem : Nat → Option Nat) (s : List Nat) :
    ∀ (n a : Nat), s.length < n → pread_mem mem a (s.length + 1) = some (s ++ [0]) →
      (∀ b ∈ s, b ≠ 0) → alloc_remote_string_scan mem n a = some s := by
  induction s with
  | nil =>
    intro n a hn h _
    obtain ⟨m, rfl⟩ : ∃ m, n = m + 1 := ⟨n - 1, by simp at hn; omega⟩
    simp only [List.length_nil, Nat.zero_add, List.nil_append, pread_mem] at h
    simp only [alloc_remote_string_scan]
    cases hm : mem a with
    | none => simp [hm] at h
    | some b =>
      simp only [hm, Option.some.injEq, List.cons.injEq, and_true] at h
      simp [h]
  | cons b t ih =>
    intro n a hn h hnz
    obtain ⟨m, rfl⟩ : ∃ m, n = m + 1 := ⟨n - 1, by simp at hn; omega⟩
    simp only [List.length_cons, List.cons_append] at h hn
    rw [pread_mem] at h
    simp only [alloc_remote_string_scan]
    cases hm : mem a with
    | none => simp [hm] at h
    | some c =>
      cases hr : pread_mem mem (a + 1) (t.length + 1) with
      | none => simp [hm, hr] at h
      | some bs =>
        simp only [hm, hr, Option.some.injEq, List.cons.injEq] at h
        obtain ⟨hc, hbs⟩ := h
        subst hc
        subst hbs
        have hc0 : c ≠ 0 := hnz c (by simp)
        simp only [hc0, if_false]
        rw [ih m (a + 1) (by omega) hr (fun x hx => hnz x (by simp [hx]))]
        rfl

/-- When the first `n` bytes can be read and none is NUL, the scan gives them. -/
theorem alloc_remote_string_scan_full (mem : Nat → Option Nat) (n : Nat) :
    ∀ (a : Nat) (s : List Nat), pread_mem mem a n = some s → (∀ b ∈ s, b ≠ 0) →
      alloc_remote_string_scan mem n a = some s := by
  induction n with
  | zero =>
    intro a s h _
    simp only [pread_mem, Option.some.injEq] at h
    rw [← h]
    rfl
  | succ n ih =>
    intro a s h hnz
    rw [pread_mem] at h
    simp only [alloc_remote_string_scan]
    cases hm : mem a with
    | none => simp [hm] at h
    | some c =>
      cases hr : pread_mem mem (a + 1) n with
      | none => simp [hm, hr] at h
      | some bs =>
        simp only [hm, hr, Option.some.injEq] at h
        subst h
        have hc0 : c ≠ 0 := hnz c (by simp)
        simp only [hc0, if_false]
        rw [ih (a + 1) bs hr (fun x hx => hnz x (by simp [hx]))]
        rfl

/-- Reading a memory that holds the same byte everywhere. -/
theorem pread_mem_const (v : Nat) (n : Nat) :
    ∀ a : Nat, pread_mem (fun _ => some v) a n = some (List.replicate n v) := by
  induction n with
  | zero => intro a; rfl
  | succ n ih => intro a; simp [pread_mem, ih, List.replicate_succ]

/-- C24: for every non-null address `a` of the target, alloc_remote_string
returns 0 and the bytes at `a` up to but excluding the first NUL, when these
bytes and the NUL can be read and the NUL is among the first 4095 bytes; when
the first 4095 bytes can be read and none of them is NUL, it returns 0 and
exactly these 4095 bytes.  For the null address it returns `EINVAL` and no
string. -/
theorem alloc_remote_string_cap (di : dump_info) :
    (∀ (a : Nat) (s : List Nat), a ≠ 0 → s.length < 4095 →
      pread_mem di.mem a (s.length + 1) = some (s ++ [0]) → (∀ b ∈ s, b ≠ 0) →
      alloc_remote_string di a = (0, some s)) ∧
    (∀ (a : Nat) (s : List Nat), a ≠ 0 → pread_mem di.mem a 4095 = some s →
      (∀ b ∈ s, b ≠ 0) → alloc_remote_string di a = (0, some s) ∧ s.length = 4095) ∧
    alloc_remote_string di 0 = (EINVAL, none) := by
  refine ⟨?_, ?_, rfl⟩
  · intro a s ha hl hr hnz
    rw [alloc_remote_string_eq_scan, if_neg ha,
      alloc_remote_string_scan_nul di.mem s 4095 a hl hr hnz]
  · intro a s ha hr hnz
    rw [alloc_remote_string_eq_scan, if_neg ha,
      alloc_remote_string_scan_full di.mem 4095 a s hr hnz]
    exact ⟨rfl, pread_mem_length di.mem 4095 a s hr⟩

/-- Witness of C24: the string `hi` of the text dump example, and a target
whose every byte is 1, where the string is cut after 4095 bytes. -/
theorem alloc_remote_string_cap_witness :
    alloc_remote_string Example.di_msg 0x400200 = (0, some [104, 105]) ∧
    alloc_remote_string Example.di_ones 0x1000 = (0, some (List.replicate 4095 1)) ∧
    (List.replicate 4095 1).length = 4095 :=
  ⟨(alloc_remote_string_cap Example.di_msg).1 0x400200 [104, 105] (by decide) (by decide)
      (by decide) (by decide),
    (alloc_remote_string_cap Example.di_ones).2.1 0x1000 (List.replicate 4095 1) (by decide)
      (pread_mem_const 1 4095 0x1000) (fun b hb => by
        rw [List.eq_of_mem_replicate hb]; decide)⟩

end Minicoredumper.Corestripper

/-! ## Symbol lookup -/

namespace Minicoredumper.Corestripper

/-- A symbol table without a symbol of the wanted name gives nothing. -/
theorem sym_address_table_none (symname : List Char) (syms : List (Option (List Char × Nat))) :
    sym_address_table symname syms = none ↔
      ∀ (n : List Char) (v : Nat), some (n, v) ∈ syms → n ≠ symname := by
  induction syms with
  | nil => simp [sym_address_table]
  | cons e rest ih =>
    cases e with
    | none =>
      simp only [sym_address_table, ih, List.mem_cons]
      constructor
      · intro h n v hm
        rcases hm with hm | hm
        · cases hm
        · exact h n v hm
      · intro h n v hm
        exact h n v (Or.inr hm)
    | some p =>
      obtain ⟨name, val⟩ := p
      simp only [sym_address_table, List.mem_cons]
      by_cases hn : name = symname
      · simp only [hn, if_true]
        constructor
        · intro h; cases h
        · intro h; exact absurd rfl (h symname val (Or.inl rfl))
      · simp only [hn, if_false, ih]
        constructor
        · intro h n v hm
          rcases hm with hm | hm
          · simp only [Option.some.injEq, Prod.mk.injEq] at hm
            rw [hm.1]; exact hn
          · exact h n v hm
        · intro h n v hm
          exact h n v (Or.inr hm)

/-- The first symbol of the wanted name in a symbol table. -/
theorem sym_address_table_first (symname : List Char) (v : Nat)
    (post : List (Option (List Char × Nat))) (pre : List (Option (List Char × Nat))) :
    (∀ (n : List Char) (w : Nat), some (n, w) ∈ pre → n ≠ symname) →
      sym_address_table symname (pre ++ some (symname, v) :: post) = some v := by
  induction pre with
  | nil => intro _; simp [sym_address_table]
  | cons e rest ih =>
    intro h
    cases e with
    | none =>
      simp only [List.cons_append, sym_address_table]
      exact ih (fun n w hm => h n w (List.mem_cons_of_mem _ hm))
    | some p =>
      obtain ⟨name, val⟩ := p
      have hn : name ≠ symname := h name val (by simp)
      simp only [List.cons_append, sym_address_table, hn, if_false]
      exact ih (fun n w hm => h n w (List.mem_cons_of_mem _ hm))

/-- C26: sym_address scans the registered symbol objects in list order and the
symbols of each in table order.  When an object holds a symbol of the wanted
name, no object before it holds one, and no symbol before it in the table of
that object has the name, sym_address gives the load base of the object plus
the `st_value` of that symbol (as an `unsigned long`); it gives nothing
(return value -1, the output address not written) exactly when no registered
object holds a symbol of that name. -/
theorem sym_address_first_match (di : dump_info) (symname : List Char) :
    (∀ (before after : List sym_data) (sd : sym_data)
        (pre post : List (Option (List Char × Nat))) (v : Nat),
      di.sym_data_list = before ++ sd :: after →
      (∀ o ∈ before, ∀ (n : List Char) (w : Nat), some (n, w) ∈ o.syms → n ≠ symname) →
      sd.syms = pre ++ some (symname, v) :: post →
      (∀ (n : List Char) (w : Nat), some (n, w) ∈ pre → n ≠ symname) →
      sym_address di symname = some ((sd.start + v) % 2 ^ 64)) ∧
    (sym_address di symname = none ↔
      ∀ o ∈ di.sym_data_list, ∀ (n : List Char) (w : Nat), some (n, w) ∈ o.syms →
        n ≠ symname) := by
  unfold sym_address
  generalize di.sym_data_list = l
  refine ⟨?_, ?_⟩
  · intro before after sd pre post v hl hb hs hp
    subst hl
    induction before with
    | nil =>
      simp only [List.nil_append, sym_address_list, hs,
        sym_address_table_first symname v post pre hp]
      rfl
    | cons o rest ih =>
      have ho : sym_address_table symname o.syms = none :=
        (sym_address_table_none symname o.syms).mpr (hb o (by simp))
      simp only [List.cons_append, sym_address_list, ho]
      exact ih (fun x hx => hb x (List.mem_cons_of_mem _ hx))
  · induction l with
    | nil => simp [sym_address_list]
    | cons o rest ih =>
      simp only [sym_address_list, List.mem_cons, forall_eq_or_imp]
      cases ht : sym_address_table symname o.syms with
      | none =>
        simp only [ih]
        exact ⟨fun h => ⟨(sym_address_table_none symname o.syms).mp ht, h⟩, fun h => h.2⟩
      | some v =>
        constructor
        · intro h; cases h
        · intro h
          rw [(sym_address_table_none symname o.syms).mpr h.1] at ht
          cases ht

/-- Witness of C26 on the symbol table of the walk example: the symbol
`mcd_dump_data_head` is the third entry, after an entry that cannot be fetched
and a symbol of another name. -/
theorem sym_address_first_match_witness :
    sym_address (Example.di_walk Example.raw_buf) "mcd_dump_data_head".toList =
      some ((0 + 0x600008) % 2 ^ 64) :=
  (sym_address_first_match (Example.di_walk Example.raw_buf) "mcd_dump_data_head".toList).1
    [] [] Example.syms_walk [none, some ("mcd_dump_data_version".toList, 0x600000)] [] 0x600008
    rfl (by simp) rfl (by
      intro n w hm
      simp only [List.mem_cons, Option.some.injEq, Prod.mk.injEq, List.mem_singleton,
        List.not_mem_nil, or_false] at hm
      rcases hm with hm | hm
      · cases hm
      · rw [hm.1]; decide)

end Minicoredumper.Corestripper

/-! ## The tokens of a format string -/

namespace Minicoredumper.Corestripper

/-- The slices up to one more boundary. -/
theorem slices_between_append (bs : List Nat) :
    ∀ (a l : Nat), slices_between a (bs ++ [l]) =
      slices_between a bs ++ [(bs.getLastD a, l - bs.getLastD a)] := by
  induction bs with
  | nil => intro a l; rfl
  | cons b bs ih =>
    intro a l
    simp only [List.cons_append, slices_between, List.append_eq]
    rw [ih b l, List.getLastD_cons]

/-- The loop of dump_data_file_text, run with a call that records its
arguments, records the slices between the pending start and the specifiers of
the rest of the format string, and ends with the last specifier as start. -/
theorem dump_data_file_text_loop_slices :
    ∀ (n : Nat) (fmt : List Char), fmt.length ≤ n → ∀ (i start : Nat) (idx : Int)
      (log : List (Nat × Nat × Int)),
      ∃ (log1 : List (Nat × Nat × Int)) (idx1 : Int),
        dump_data_file_text_loop
            (fun (log : List (Nat × Nat × Int)) off len idx => some (log ++ [(off, len, idx)]))
            fmt i start idx log =
          some (log1, (specifier_positions_from fmt i).getLastD start, idx1) ∧
        log1.map (fun c => (c.1, c.2.1)) =
          log.map (fun c => (c.1, c.2.1)) ++
            slices_between start (specifier_positions_from fmt i) := by
  intro n
  induction n with
  | zero =>
    intro fmt h i start idx log
    have : fmt = [] := List.length_eq_zero.mp (by omega)
    subst this
    exact ⟨log, idx, rfl, by simp [specifier_positions_from, slices_between]⟩
  | succ n ih =>
    intro fmt h i start idx log
    match fmt, h with
    | [], _ => exact ⟨log, idx, rfl, by simp [specifier_positions_from, slices_between]⟩
    | [c], _ =>
      by_cases hc : c = '%'
      · exact ⟨log ++ [(start, i - start, idx)], idx + 1,
          by simp [dump_data_file_text_loop, hc, specifier_positions_from],
          by simp [hc, specifier_positions_from, slices_between]⟩
      · exact ⟨log, idx, by simp [dump_data_file_text_loop, hc, specifier_positions_from],
          by simp [hc, specifier_positions_from, slices_between]⟩
    | c :: d :: rest2, h =>
      by_cases hc : c = '%'
      · by_cases hd : d = '%'
        · obtain ⟨log1, idx1, h1, h2⟩ :=
            ih rest2 (by simp only [List.length_cons] at h; omega) (i + 2) start idx log
          refine ⟨log1, idx1, ?_, ?_⟩
          · simp only [dump_data_file_text_loop, hc, hd, if_true, specifier_positions_from]
            exact h1
          · simp only [hc, hd, if_true, specifier_positions_from]
            exact h2
        · obtain ⟨log1, idx1, h1, h2⟩ :=
            ih (d :: rest2) (by simp only [List.length_cons] at h ⊢; omega) (i + 1) i (idx + 1)
              (log ++ [(start, i - start, idx)])
          refine ⟨log1, idx1, ?_, ?_⟩
          · simp only [dump_data_file_text_loop, hc, hd, if_true, if_false,
              specifier_positions_from, List.getLastD_cons]
            exact h1
          · simp only [hc, hd, if_true, if_false, specifier_positions_from, slices_between]
            rw [h2]
            simp
      · obtain ⟨log1, idx1, h1, h2⟩ :=
          ih (d :: rest2) (by simp only [List.length_cons] at h ⊢; omega) (i + 1) start idx log
        refine ⟨log1, idx1, ?_, ?_⟩
        · simp only [dump_data_file_text_loop, hc, if_false, specifier_positions_from]
          exact h1
        · simp only [hc, if_false, specifier_positions_from]
          exact h2

/-- The slices of the calls of dump_data_file_text lie between the start of
the format string, its specifiers, and its end. -/
theorem text_calls_slices (f : List Char) :
    (text_calls f).map (fun c => (c.1, c.2.1)) =
      slices_between 0 (specifier_positions f ++ [f.length]) := by
  obtain ⟨log1, idx1, h1, h2⟩ := dump_data_file_text_loop_slices f.length f le_rfl 0 0 (-1) []
  simp only [text_calls, dump_data_file_text_calls, h1, Option.getD_some, List.map_append, h2,
    List.map_nil, List.nil_append, List.map_cons, slices_between_append, specifier_positions]

end Minicoredumper.Corestripper

namespace Minicoredumper.Corestripper

/-- The specifier positions of a format string ascend and lie before its end. -/
theorem specifier_positions_chain :
    ∀ (n : Nat) (fmt : List Char), fmt.length ≤ n → ∀ (i a : Nat), a ≤ i →
      List.Chain (fun x y => x ≤ y) a (specifier_positions_from fmt i ++ [i + fmt.length]) := by
  intro n
  induction n with
  | zero =>
    intro fmt h i a ha
    have : fmt = [] := List.length_eq_zero.mp (by omega)
    subst this
    simp [specifier_positions_from, ha]
  | succ n ih =>
    intro fmt h i a ha
    match fmt, h with
    | [], _ => simp [specifier_positions_from, ha]
    | [c], _ =>
      by_cases hc : c = '%'
      · simp [specifier_positions_from, hc, ha]
      · simp only [specifier_positions_from, hc, if_false, List.nil_append, List.length_cons,
          List.length_nil, List.chain_cons, List.Chain.nil, and_true]
        omega
    | c :: d :: rest2, h =>
      have e1 : i + (c :: d :: rest2).length = i + 1 + (d :: rest2).length := by
        simp only [List.length_cons]; omega
      have e2 : i + (c :: d :: rest2).length = i + 2 + rest2.length := by
        simp only [List.length_cons]; omega
      by_cases hc : c = '%'
      · subst hc
        by_cases hd : d = '%'
        · subst hd
          simp only [specifier_positions_from, if_true]
          rw [e2]
          exact ih rest2 (by simp only [List.length_cons] at h; omega) (i + 2) a (by omega)
        · simp only [specifier_positions_from, hd, if_true, if_false, List.cons_append,
            List.chain_cons]
          rw [e1]
          exact ⟨ha, ih (d :: rest2) (by simp only [List.length_cons] at h ⊢; omega) (i + 1) i
            (by omega)⟩
      · simp only [specifier_positions_from, hc, if_false]
        rw [e1]
        exact ih (d :: rest2) (by simp only [List.length_cons] at h ⊢; omega) (i + 1) a
          (by omega)

/-- At every specifier position stands a percent sign. -/
theorem specifier_positions_percent :
    ∀ (n : Nat) (fmt : List Char), fmt.length ≤ n → ∀ (pre : List Char),
      ∀ p ∈ specifier_positions_from fmt pre.length, (pre ++ fmt)[p]? = some '%' := by
  intro n
  induction n with
  | zero =>
    intro fmt h pre p hp
    have : fmt = [] := List.length_eq_zero.mp (by omega)
    subst this
    simp [specifier_positions_from] at hp
  | succ n ih =>
    intro fmt h pre p hp
    have hhere : ∀ rest : List Char, (pre ++ '%' :: rest)[pre.length]? = some '%' := by
      intro rest
      rw [List.getElem?_append_right (le_refl _)]
      simp
    match fmt, h with
    | [], _ => simp [specifier_positions_from] at hp
    | [c], _ =>
      by_cases hc : c = '%'
      · simp only [specifier_positions_from, hc, if_true, List.mem_singleton] at hp
        rw [hp, hc]
        exact hhere []
      · simp [specifier_positions_from, hc] at hp
    | c :: d :: rest2, h =>
      have a1 : pre ++ c :: d :: rest2 = (pre ++ [c]) ++ d :: rest2 := by simp
      have a2 : pre ++ c :: d :: rest2 = (pre ++ [c, d]) ++ rest2 := by simp
      have l1 : (pre ++ [c]).length = pre.length + 1 := by simp
      have l2 : (pre ++ [c, d]).length = pre.length + 2 := by simp
      by_cases hc : c = '%'
      · by_cases hd : d = '%'
        · simp only [specifier_positions_from, hc, hd, if_true] at hp
          rw [a2]
          rw [← l2] at hp
          exact ih rest2 (by simp only [List.length_cons] at h; omega) _ p hp
        · simp only [specifier_positions_from, hc, hd, if_true, if_false, List.mem_cons] at hp
          rcases hp with hp | hp
          · rw [hp, hc]
            exact hhere _
          · rw [a1]
            rw [← l1] at hp
            exact ih (d :: rest2) (by simp only [List.length_cons] at h ⊢; omega) _ p hp
      · simp only [specifier_positions_from, hc, if_false] at hp
        rw [a1]
        rw [← l1] at hp
        exact ih (d :: rest2) (by simp only [List.length_cons] at h ⊢; omega) _ p hp

/-- Ascending boundaries end at or after their start. -/
theorem chain_le_getLastD (bs : List Nat) :
    ∀ a : Nat, List.Chain (fun x y => x ≤ y) a bs → a ≤ bs.getLastD a := by
  induction bs with
  | nil => intro a _; exact le_refl a
  | cons b bs ih =>
    intro a h
    rw [List.chain_cons] at h
    rw [List.getLastD_cons]
    exact le_trans h.1 (ih b h.2)

/-- The slices between ascending boundaries, put together, are the text from
the first boundary to the last. -/
theorem slices_between_flatten (f : List Char) (bs : List Nat) :
    ∀ a : Nat, List.Chain (fun x y => x ≤ y) a bs →
      ((slices_between a bs).map (fun s => (f.drop s.1).take s.2)).flatten =
        (f.drop a).take (bs.getLastD a - a) := by
  induction bs with
  | nil => intro a _; simp [slices_between]
  | cons b bs ih =>
    intro a h
    rw [List.chain_cons] at h
    have hl := chain_le_getLastD bs b h.2
    simp only [slices_between, List.map_cons, List.flatten_cons, List.getLastD_cons]
    rw [ih b h.2]
    have e : bs.getLastD b - a = (b - a) + (bs.getLastD b - b) := by omega
    rw [e, List.take_add, List.drop_drop]
    have e2 : a + (b - a) = b := by omega
    rw [e2]

/-- The slices between ascending boundaries follow one another without gap or
overlap. -/
theorem slices_between_chain (bs : List Nat) :
    ∀ (a : Nat) (x : Nat × Nat), x.1 + x.2 = a → List.Chain (fun x y => x ≤ y) a bs →
      List.Chain (fun (x y : Nat × Nat) => x.1 + x.2 = y.1) x (slices_between a bs) := by
  induction bs with
  | nil => intro a x _ _; exact List.Chain.nil
  | cons b bs ih =>
    intro a x hx h
    rw [List.chain_cons] at h
    simp only [slices_between, List.chain_cons]
    exact ⟨hx, ih b (a, b - a) (by simp only; omega) h.2⟩

/-- The offsets of the slices up to a last boundary are the start and the
boundaries before the last. -/
theorem slices_between_offsets (bs : List Nat) :
    ∀ (a l : Nat), (slices_between a (bs ++ [l])).map Prod.fst = a :: bs := by
  induction bs with
  | nil => intro a l; rfl
  | cons b bs ih =>
    intro a l
    simp only [List.cons_append, slices_between, List.map_cons, List.append_eq]
    rw [ih b l]

end Minicoredumper.Corestripper

namespace Minicoredumper.Corestripper

/-- C28: for every format string, the slices (offset, length) that
dump_data_file_text hands to print_fmt_token, put together in call order, are
the format string; every slice begins where the one before it ends, the first
at offset 0, so they are contiguous and do not overlap; and the slices after
the first begin at the positions of the unescaped specifiers, in order, where a
percent sign stands. -/
theorem text_calls_partition (f : List Char) :
    ((text_calls f).map (token_of f)).flatten = f ∧
    List.Chain' (fun (a b : Nat × Nat × Int) => a.1 + a.2.1 = b.1) (text_calls f) ∧
    (text_calls f).map (fun c => c.1) = 0 :: specifier_positions f ∧
    ∀ p ∈ specifier_positions f, f[p]? = some '%' := by
  have hs := text_calls_slices f
  have hchain := specifier_positions_chain f.length f le_rfl 0 0 le_rfl
  rw [Nat.zero_add] at hchain
  have hc : List.Chain (fun x y => x ≤ y) 0 (specifier_positions f ++ [f.length]) := hchain
  refine ⟨?_, ?_, ?_, ?_⟩
  · have e : (text_calls f).map (token_of f) =
        ((text_calls f).map (fun c => (c.1, c.2.1))).map (fun s => (f.drop s.1).take s.2) := by
      rw [List.map_map]
      rfl
    rw [e, hs, slices_between_flatten f _ 0 hc]
    simp
  · have h1 := slices_between_chain (specifier_positions f ++ [f.length]) 0 (0, 0) rfl hc
    rw [← hs] at h1
    have h1c : List.Chain' (fun (x y : Nat × Nat) => x.1 + x.2 = y.1)
        ((0, 0) :: (text_calls f).map (fun c => (c.1, c.2.1))) := h1
    exact (List.chain'_map (fun (c : Nat × Nat × Int) => (c.1, c.2.1))).mp h1c.tail
  · have e : (text_calls f).map (fun c => c.1) =
        ((text_calls f).map (fun c => (c.1, c.2.1))).map Prod.fst := by
      rw [List.map_map]
      rfl
    rw [e, hs, slices_between_offsets]
  · intro p hp
    exact specifier_positions_percent f.length f le_rfl [] p hp

end Minicoredumper.Corestripper

/-! ## Binary dumps that the symbol map does not know -/

namespace Minicoredumper.Coreinject

/-- The read loop of get_symbol_data handles the rows that `fgets` delivers. -/
theorem get_symbol_data_loop_rows (symname : List Char) (fuel : Nat) :
    ∀ (f : List Char) (st : symbol_data × symbol_data),
      get_symbol_data_loop symname fuel f st =
        (map_rows_read fuel f).foldl
          (fun st l => set_entry symname (line_entry symname l) st) st := by
  induction fuel with
  | zero => intro f st; rfl
  | succ fuel ih =>
    intro f st
    simp only [get_symbol_data_loop, map_rows_read]
    cases fgets 128 f with
    | none => rfl
    | some r =>
      simp only [List.foldl_cons]
      rw [ih, get_symbol_data_line_eq]

/-- Rows without payload for the symbol leave both sizes 0. -/
theorem foldl_set_entry_no_payload (symname : List Char) (rows : List (List Char)) :
    ∀ st : symbol_data × symbol_data,
      (∀ row ∈ rows, ∀ e, line_entry symname row = some e → e.2.2 = 0) →
      st.1.size = 0 → st.2.size = 0 →
      ((rows.foldl (fun st l => set_entry symname (line_entry symname l) st) st).1.size = 0 ∧
        (rows.foldl (fun st l => set_entry symname (line_entry symname l) st) st).2.size = 0) := by
  induction rows with
  | nil => intro st _ h1 h2; exact ⟨h1, h2⟩
  | cons row rows ih =>
    intro st h h1 h2
    simp only [List.foldl_cons]
    apply ih _ (fun r hr => h r (List.mem_cons_of_mem _ hr))
    · cases he : line_entry symname row with
      | none => exact h1
      | some e =>
        obtain ⟨t, o, s⟩ := e
        have hs : s = 0 := h row (by simp) _ he
        simp only [set_entry]
        split
        · exact hs
        · exact h1
    · cases he : line_entry symname row with
      | none => exact h2
      | some e =>
        obtain ⟨t, o, s⟩ := e
        have hs : s = 0 := h row (by simp) _ he
        simp only [set_entry]
        split
        · exact h2
        · exact hs

/-- A binary dump that can be opened and for whose name the symbol map holds no
row with payload: inject_data returns 0 and leaves the core as it is. -/
theorem inject_data_no_payload (f_core : List Nat) (f_symbol b_fname : List Char)
    (f_dump : List Nat)
    (h : ∀ row ∈ map_rows_read f_symbol.length f_symbol,
      ∀ e, line_entry (basename (c_str b_fname)) row = some e → e.2.2 = 0) :
    inject_data f_core f_symbol b_fname (some f_dump) = (0, f_core) := by
  have hz := foldl_set_entry_no_payload (basename (c_str b_fname))
    (map_rows_read f_symbol.length f_symbol) (symbol_data.zero, symbol_data.zero) h rfl rfl
  rw [← get_symbol_data_loop_rows] at hz
  simp only [inject_data, get_symbol_data, hz.1, hz.2, ne_eq, not_true_eq_false, and_self,
    if_false, gt_iff_lt, lt_self_iff_false]

/-- The loop of main over binary dumps that all return 0 without a write. -/
theorem main_loop_no_payload (f_symbols : List Char)
    (fopen_dump : List Char → Option (List Nat)) (args : List (List Char)) :
    ∀ (f_core : List Nat) (log : List Int),
      (∀ arg ∈ args, ∃ f_dump, fopen_dump arg = some f_dump ∧
        ∀ row ∈ map_rows_read f_symbols.length f_symbols,
          ∀ e, line_entry (basename (c_str arg)) row = some e → e.2.2 = 0) →
      main_loop f_symbols fopen_dump args 0 f_core log =
        (0, f_core, log ++ List.replicate args.length 0) := by
  induction args with
  | nil => intro f_core log _; simp [main_loop]
  | cons arg args ih =>
    intro f_core log h
    obtain ⟨f_dump, hf, hr⟩ := h arg (by simp)
    simp only [main_loop, hf, inject_data_no_payload f_core f_symbols arg f_dump hr, ne_eq,
      not_true_eq_false, if_false]
    rw [ih f_core _ (fun a ha => h a (List.mem_cons_of_mem _ ha))]
    simp [List.replicate_succ]

end Minicoredumper.Coreinject

namespace Minicoredumper.Coreinject

/-- C29: get_symbol_data returns 0 on every input.  For a binary dump that can
be opened and whose basename has no row with payload among the rows that the
injector reads from the symbol map (no valid `D` or `I` row for it, or only
such rows with size 0), inject_data returns 0 and leaves the core as it is;
when every binary dump of the command line is of that kind, the exit status
of the injector is 0 and the core is unchanged. -/
theorem inject_data_unknown_ident (f_symbol : List Char) :
    (∀ symname : List Char, (get_symbol_data symname f_symbol).1 = 0) ∧
    (∀ (f_core : List Nat) (b_fname : List Char) (f_dump : List Nat),
      (∀ row ∈ map_rows_read f_symbol.length f_symbol,
        ∀ e, line_entry (basename (c_str b_fname)) row = some e → e.2.2 = 0) →
      inject_data f_core f_symbol b_fname (some f_dump) = (0, f_core)) ∧
    (∀ (argv : List (List Char)) (f_core : List Nat)
        (fopen_dump : List Char → Option (List Nat)),
      4 ≤ argv.length →
      (∀ arg ∈ argv.drop 3, ∃ f_dump, fopen_dump arg = some f_dump ∧
        ∀ row ∈ map_rows_read f_symbol.length f_symbol,
          ∀ e, line_entry (basename (c_str arg)) row = some e → e.2.2 = 0) →
      (main argv (some f_core) (some f_symbol) fopen_dump).1 = 0 ∧
        (main argv (some f_core) (some f_symbol) fopen_dump).2.1 = some f_core) := by
  refine ⟨fun _ => rfl, ?_, ?_⟩
  · intro f_core b_fname f_dump h
    exact inject_data_no_payload f_core f_symbol b_fname f_dump h
  · intro argv f_core fopen_dump h4 h
    have hl : ¬ argv.length < 4 := by omega
    simp only [main, hl, if_false,
      main_loop_no_payload f_symbol fopen_dump (argv.drop 3) f_core [] h, and_self]

/-- The rows of the example map say nothing about `y`. -/
theorem rows_map_z_y :
    ∀ row ∈ map_rows_read Example.map_z.length Example.map_z,
      line_entry (basename (c_str "dumps/y".toList)) row = none := by
  decide

/-- The rows of the example map give `z` the size 0 only. -/
theorem rows_map_z_z :
    ∀ row ∈ map_rows_read Example.map_z.length Example.map_z,
      (line_entry (basename (c_str "dumps/z".toList)) row).map (fun e => e.2.2) = none ∨
      (line_entry (basename (c_str "dumps/z".toList)) row).map (fun e => e.2.2) = some 0 := by
  decide

/-- Witness of C29 on a symbol map with a row for `x` and a row of size 0 for
`z`: the dumps `dumps/y` and `dumps/z` are injected without a write and the
exit status is 0. -/
theorem inject_data_unknown_ident_witness :
    inject_data Example.core_zero Example.map_z "dumps/y".toList (some Example.dump_short) =
      (0, Example.core_zero) ∧
    inject_data Example.core_zero Example.map_z "dumps/z".toList (some Example.dump_short) =
      (0, Example.core_zero) ∧
    (main Example.argv_yz (some Example.core_zero) (some Example.map_z) Example.fopen_any).1 = 0 ∧
    (main Example.argv_yz (some Example.core_zero) (some Example.map_z) Example.fopen_any).2.1 =
      some Example.core_zero := by
  have hy : ∀ row ∈ map_rows_read Example.map_z.length Example.map_z,
      ∀ e, line_entry (basename (c_str "dumps/y".toList)) row = some e → e.2.2 = 0 := by
    intro row hr e he
    rw [rows_map_z_y row hr] at he
    cases he
  have hz : ∀ row ∈ map_rows_read Example.map_z.length Example.map_z,
      ∀ e, line_entry (basename (c_str "dumps/z".toList)) row = some e → e.2.2 = 0 := by
    intro row hr e he
    have h := rows_map_z_z row hr
    rw [he] at h
    simp only [Option.map_some', Option.some.injEq] at h
    rcases h with h | h
    · cases h
    · exact h
  refine ⟨(inject_data_unknown_ident Example.map_z).2.1 _ _ _ hy,
    (inject_data_unknown_ident Example.map_z).2.1 _ _ _ hz, ?_⟩
  exact (inject_data_unknown_ident Example.map_z).2.2 Example.argv_yz Example.core_zero
    Example.fopen_any (by decide) (by
      intro arg ha
      have ha2 : arg = "dumps/y".toList ∨ arg = "dumps/z".toList := by
        simpa [Example.argv_yz] using ha
      rcases ha2 with h | h
      · subst h; exact ⟨_, rfl, hy⟩
      · subst h; exact ⟨_, rfl, hz⟩)

end Minicoredumper.Coreinject

/-! ## The first thread -/

namespace Minicoredumper.Corestripper

/-- The function dump_vma leaves the first pid alone. -/
theorem dump_vma_first_pid (PAGESZ : Nat) (di : dump_info) (start len balloon : Nat)
    (r : Int × dump_info) (h : dump_vma PAGESZ di start len balloon = some r) :
    r.2.first_pid = di.first_pid := by
  unfold dump_vma at h
  cases hv : get_vma_pos di start with
  | none =>
    rw [hv] at h
    cases h
    rfl
  | some tmp =>
    rw [hv] at h
    simp only at h
    split_ifs at h <;> first
      | (cases h; rfl)
      | (split at h
         · cases h
         · cases h; rfl)

/-- The stack dump of a task leaves the first pid alone. -/
theorem dump_task_stack_first_pid (PAGESZ : Nat) (proc_stat : Int → Option (List Char))
    (di d : dump_info) (pid : Int) (h : dump_task_stack PAGESZ proc_stat di pid = some d) :
    d.first_pid = di.first_pid := by
  unfold dump_task_stack at h
  split at h
  · simp only [Option.some.injEq] at h; rw [← h]
  · split at h
    · simp only [Option.some.injEq] at h; rw [← h]
    · simp only [Option.map_eq_some'] at h
      obtain ⟨r, hr, hd⟩ := h
      rw [← hd]
      exact dump_vma_first_pid _ _ _ _ _ r hr

/-- The body of the task loop of dump_stacks: a task is skipped when a first
pid is known and is not its pid, otherwise its stack is dumped. -/
theorem dump_stacks_task_skip (PAGESZ : Nat) (proc_stat : Int → Option (List Char))
    (di : dump_info) (pid : Int) :
    dump_stacks_task PAGESZ proc_stat di pid =
      if di.first_pid ≠ 0 ∧ di.first_pid ≠ pid then some di
      else dump_task_stack PAGESZ proc_stat di pid := by
  unfold dump_stacks_task dump_task_stack
  split
  · rfl
  · cases get_stack_pointer (proc_stat pid) with
    | none => rfl
    | some sp =>
      cases get_vma_pos di sp with
      | none => rfl
      | some v => rfl

/-- The task loop of dump_stacks when no first pid is known: the stack of
every task is dumped. -/
theorem dump_stacks_loop_all (PAGESZ : Nat) (proc_stat : Int → Option (List Char))
    (tsks : List Int) :
    ∀ di : dump_info, di.first_pid = 0 →
      dump_stacks_loop PAGESZ proc_stat tsks di =
        tsks.foldlM (dump_task_stack PAGESZ proc_stat) di := by
  induction tsks with
  | nil => intro di _; rfl
  | cons pid rest ih =>
    intro di h0
    simp only [dump_stacks_loop, dump_stacks_task_skip, h0, ne_eq, not_true_eq_false,
      false_and, if_false, List.foldlM_cons, Option.bind_eq_bind]
    cases hd : dump_task_stack PAGESZ proc_stat di pid with
    | none => rfl
    | some d =>
      simp only [Option.some_bind]
      exact ih d (by rw [dump_task_stack_first_pid _ _ _ _ _ hd, h0])

/-- The task loop of dump_stacks when the first pid is known: only the stack
of the task with that pid is dumped. -/
theorem dump_stacks_loop_first (PAGESZ : Nat) (proc_stat : Int → Option (List Char))
    (p : Int) (hp : p ≠ 0) (tsks : List Int) :
    ∀ di : dump_info, di.first_pid = p →
      dump_stacks_loop PAGESZ proc_stat tsks di =
        (tsks.filter (fun t => decide (t = p))).foldlM (dump_task_stack PAGESZ proc_stat) di := by
  induction tsks with
  | nil => intro di _; rfl
  | cons pid rest ih =>
    intro di h0
    simp only [dump_stacks_loop, dump_stacks_task_skip, List.filter_cons]
    by_cases h : pid = p
    · have h2 : ¬ (di.first_pid ≠ 0 ∧ di.first_pid ≠ pid) := fun hh => hh.2 (by rw [h0, h])
      rw [if_neg h2]
      simp only [h, decide_True, if_true, List.foldlM_cons, Option.bind_eq_bind]
      cases hd : dump_task_stack PAGESZ proc_stat di p with
      | none => rfl
      | some d =>
        simp only [Option.some_bind]
        exact ih d (by rw [dump_task_stack_first_pid _ _ _ _ _ hd, h0])
    · have h2 : di.first_pid ≠ 0 ∧ di.first_pid ≠ pid :=
        ⟨by rw [h0]; exact hp, fun hh => h (by rw [← hh, h0])⟩
      rw [if_pos h2]
      simp only [h, decide_False, Bool.false_eq_true, if_false]
      exact ih di h0

end Minicoredumper.Corestripper

namespace Minicoredumper.Corestripper

/-- Notes of other types are passed over by note_cb. -/
theorem note_cb_loop_clean (ns : List (Option (Nat × Int))) (d : dump_info)
    (h : ∀ e ∈ ns, ∃ t q, e = some (t, q) ∧ t ≠ NT_PRSTATUS) :
    note_cb_loop ns d = (0, d) := by
  induction ns with
  | nil => rfl
  | cons e rest ih =>
    obtain ⟨t, q, he, ht⟩ := h e (by simp)
    subst he
    simp only [note_cb_loop, ht, ne_eq, not_false_eq_true, if_true]
    exact ih (fun x hx => h x (List.mem_cons_of_mem _ hx))

/-- The first `NT_PRSTATUS` note of a segment gives the first pid. -/
theorem note_cb_loop_first (pre post : List (Option (Nat × Int))) (p : Int) (d : dump_info)
    (h : ∀ e ∈ pre, ∃ t q, e = some (t, q) ∧ t ≠ NT_PRSTATUS) :
    note_cb_loop (pre ++ some (NT_PRSTATUS, p) :: post) d = (1, { d with first_pid := p }) := by
  induction pre with
  | nil => simp [note_cb_loop]
  | cons e rest ih =>
    obtain ⟨t, q, he, ht⟩ := h e (by simp)
    subst he
    simp only [List.cons_append, note_cb_loop, ht, ne_eq, not_false_eq_true, if_true]
    exact ih (fun x hx => h x (List.mem_cons_of_mem _ hx))

/-- What note_cb returns on the notes of a segment: 0 or -1 with the dump
context as it was, or 1 with the pid of an `NT_PRSTATUS` note as first pid. -/
theorem note_cb_loop_cases (ns : List (Option (Nat × Int))) (d : dump_info) :
    note_cb_loop ns d = (0, d) ∨ note_cb_loop ns d = (-1, d) ∨
      ∃ p, some (NT_PRSTATUS, p) ∈ ns ∧ note_cb_loop ns d = (1, { d with first_pid := p }) := by
  induction ns with
  | nil => exact Or.inl rfl
  | cons e rest ih =>
    cases e with
    | none => exact Or.inr (Or.inl rfl)
    | some tq =>
      obtain ⟨t, q⟩ := tq
      simp only [note_cb_loop]
      by_cases ht : t = NT_PRSTATUS
      · subst ht
        simp only [ne_eq, not_true_eq_false, if_false]
        exact Or.inr (Or.inr ⟨q, by simp, rfl⟩)
      · simp only [ne_eq, ht, not_false_eq_true, if_true]
        rcases ih with h | h | ⟨p, hp, h⟩
        · exact Or.inl h
        · exact Or.inr (Or.inl h)
        · exact Or.inr (Or.inr ⟨p, List.mem_cons_of_mem _ hp, h⟩)

/-- The walk over the note segments changes nothing but the first pid, and that
only to the pid of an `NT_PRSTATUS` note of a segment. -/
theorem note_walk_state (notes : note_view) (type : GElf_Phdr)
    (phdrs : List (Option GElf_Phdr)) (core : List Nat) :
    ∀ d : dump_info, d.core = core →
      (do_elf_ph_parse_loop type (note_cb notes) phdrs d).2 = d ∨
        ∃ (p : Int) (ph : GElf_Phdr) (ns : List (Option (Nat × Int))),
          notes core ph = some ns ∧ some (NT_PRSTATUS, p) ∈ ns ∧
          (do_elf_ph_parse_loop type (note_cb notes) phdrs d).2 = { d with first_pid := p } := by
  induction phdrs with
  | nil => intro d _; exact Or.inl rfl
  | cons e rest ih =>
    intro d hc
    cases e with
    | none => exact Or.inl rfl
    | some ph =>
      simp only [do_elf_ph_parse_loop]
      split
      · exact ih d hc
      · split
        · exact ih d hc
        · simp only [note_cb]
          cases hn : notes d.core ph with
          | none => exact Or.inl rfl
          | some ns =>
            simp only
            rcases note_cb_loop_cases ns d with h | h | ⟨p, hp, h⟩
            · rw [h]
              simp only [lt_self_iff_false, if_false, gt_iff_lt]
              exact ih d hc
            · rw [h]
              exact Or.inl rfl
            · rw [h]
              exact Or.inr ⟨p, ph, ns, by rw [← hc]; exact hn, hp, rfl⟩

/-- The visit of the note segments up to the first `NT_PRSTATUS` note. -/
theorem visit_headers_note (notes : note_view) (ph : GElf_Phdr) (after : List GElf_Phdr)
    (pre post : List (Option (Nat × Int))) (p : Int) (d : dump_info)
    (hph : notes d.core ph = some (pre ++ some (NT_PRSTATUS, p) :: post))
    (hpre : ∀ e ∈ pre, ∃ t q, e = some (t, q) ∧ t ≠ NT_PRSTATUS) (before : List GElf_Phdr)
    (hb : ∀ h ∈ before, ∃ ns, notes d.core h = some ns ∧
      ∀ e ∈ ns, ∃ t q, e = some (t, q) ∧ t ≠ NT_PRSTATUS) :
    visit_headers (note_cb notes) (before ++ ph :: after) d =
      (before.map (fun h => (h, (0 : Int))) ++ [(ph, 1)], { d with first_pid := p }) := by
  induction before with
  | nil =>
    have h1 : note_cb notes d ph = (1, { d with first_pid := p }) := by
      simp only [note_cb, hph]
      exact note_cb_loop_first pre post p d hpre
    simp [visit_headers, h1]
  | cons h rest ih =>
    obtain ⟨ns, hns, hclean⟩ := hb h (by simp)
    have h1 : note_cb notes d h = (0, d) := by
      simp only [note_cb, hns]
      exact note_cb_loop_clean ns d hclean
    simp only [List.cons_append, visit_headers, h1, ne_eq, not_true_eq_false, if_false,
      List.map_cons, List.append_eq]
    rw [ih (fun x hx => hb x (List.mem_cons_of_mem _ hx))]

end Minicoredumper.Corestripper

namespace Minicoredumper.Corestripper

/-- The walk of dump_stacks over the note segments changes nothing but the
first pid, and that only to the pid of an `NT_PRSTATUS` note. -/
theorem note_parse_state (elf_read : elf_view) (notes : note_view) (di : dump_info) :
    (do_elf_ph_parse elf_read di { p_type := PT_NOTE } (note_cb notes)).2 = di ∨
      ∃ (p : Int) (ph : GElf_Phdr) (ns : List (Option (Nat × Int))),
        notes di.core ph = some ns ∧ some (NT_PRSTATUS, p) ∈ ns ∧
        (do_elf_ph_parse elf_read di { p_type := PT_NOTE } (note_cb notes)).2 =
          { di with first_pid := p } := by
  simp only [do_elf_ph_parse]
  cases elf_read di.core with
  | none => exact Or.inl rfl
  | some phdrs =>
    simp only
    split
    · exact Or.inl rfl
    · exact note_walk_state notes _ phdrs di.core di rfl

/-- C30: with `first_thread_only` set.  When, in the order of the program
headers, the note segments before some segment hold no `NT_PRSTATUS` note and
that segment holds one, the first of them with the pid `p` (not 0), dump_stacks
dumps the stacks of the tasks with pid `p` only.  When the first pid is 0
after the walk over the note segments, it dumps the stack of every task of the
task list.  The walk leaves the first pid as it was unless it finds an
`NT_PRSTATUS` note, whose pid it then stores. -/
theorem dump_stacks_first_thread (PAGESZ : Nat) (elf_read : elf_view) (notes : note_view)
    (proc_stat : Int → Option (List Char)) (di : dump_info)
    (hft : di.cfg.stack_first_thread_only = true) :
    (∀ (ps before after : List GElf_Phdr) (ph : GElf_Phdr)
        (pre post : List (Option (Nat × Int))) (p : Int),
      elf_read di.core = some (ps.map some) →
      ps.filter (phdr_matches { p_type := PT_NOTE }) = before ++ ph :: after →
      (∀ h ∈ before, ∃ ns, notes di.core h = some ns ∧
        ∀ e ∈ ns, ∃ t q, e = some (t, q) ∧ t ≠ NT_PRSTATUS) →
      notes di.core ph = some (pre ++ some (NT_PRSTATUS, p) :: post) →
      (∀ e ∈ pre, ∃ t q, e = some (t, q) ∧ t ≠ NT_PRSTATUS) → p ≠ 0 →
      dump_stacks PAGESZ elf_read notes proc_stat di =
        ((di.tsks.filter (fun t => decide (t = p))).foldlM (dump_task_stack PAGESZ proc_stat)
          { di with first_pid := p }).map (fun d => (0, d))) ∧
    ((do_elf_ph_parse elf_read di { p_type := PT_NOTE } (note_cb notes)).2.first_pid = 0 →
      dump_stacks PAGESZ elf_read notes proc_stat di =
        (di.tsks.foldlM (dump_task_stack PAGESZ proc_stat)
          { di with first_pid := 0 }).map (fun d => (0, d))) ∧
    ((do_elf_ph_parse elf_read di { p_type := PT_NOTE } (note_cb notes)).2 = di ∨
      ∃ (p : Int) (ph : GElf_Phdr) (ns : List (Option (Nat × Int))),
        notes di.core ph = some ns ∧ some (NT_PRSTATUS, p) ∈ ns ∧
        (do_elf_ph_parse elf_read di { p_type := PT_NOTE } (note_cb notes)).2 =
          { di with first_pid := p }) := by
  refine ⟨?_, ?_, note_parse_state elf_read notes di⟩
  · intro ps before after ph pre post p hps hf hb hph hpre hp
    have hne : ps ≠ [] := by
      intro he
      rw [he] at hf
      simp at hf
    have hw : (do_elf_ph_parse elf_read di { p_type := PT_NOTE } (note_cb notes)).2 =
        { di with first_pid := p } := by
      simp only [do_elf_ph_parse, hps, List.length_map]
      rw [if_neg (fun hl => hne (List.length_eq_zero.mp hl)),
        do_elf_ph_parse_loop_visit, hf,
        visit_headers_note notes ph after pre post p di hph hpre before hb]
    simp only [dump_stacks, hft, if_true, hw]
    rw [dump_stacks_loop_first PAGESZ proc_stat p hp di.tsks { di with first_pid := p } rfl]
  · intro h0
    have hw : (do_elf_ph_parse elf_read di { p_type := PT_NOTE } (note_cb notes)).2 =
        { di with first_pid := 0 } := by
      rcases note_parse_state elf_read notes di with h | ⟨p, _, _, _, _, h⟩
      · rw [h] at h0
        rw [h]
        cases di
        simp only at h0
        subst h0
        rfl
      · rw [h] at h0
        simp only at h0
        rw [h, h0]
    simp only [dump_stacks, hft, if_true, hw]
    rw [dump_stacks_loop_all PAGESZ proc_stat di.tsks { di with first_pid := 0 } rfl]

/-- Witness of C30 on scenario 5 with the tasks 1233 and 1234 and a note segment
whose `NT_PRSTATUS` note names 1234: only the task 1234 is dumped; with a note
view that fails, the first pid stays 0 and both tasks are gone through. -/
theorem dump_stacks_first_thread_witness :
    dump_stacks 4096 Example.elf_four Example.notes_1234 Example.proc_stat_1234
        Example.di_first =
      (([1233, 1234].filter (fun t => decide (t = (1234 : Int)))).foldlM
        (dump_task_stack 4096 Example.proc_stat_1234)
        { Example.di_first with first_pid := 1234 }).map (fun d => (0, d)) ∧
    dump_stacks 4096 Example.elf_four Example.notes_none Example.proc_stat_1234
        Example.di_first =
      ([1233, 1234].foldlM (dump_task_stack 4096 Example.proc_stat_1234)
        { Example.di_first with first_pid := 0 }).map (fun d => (0, d)) :=
  ⟨(dump_stacks_first_thread 4096 Example.elf_four Example.notes_1234 Example.proc_stat_1234
      Example.di_first rfl).1
      [Example.phdr_note, Example.phdr_text, Example.phdr_rw, Example.phdr_seg2] [] []
      Example.phdr_note [some (5, 0)] [] 1234 rfl (by decide) (by simp) rfl
      (by
        intro e he
        simp only [List.mem_singleton] at he
        exact ⟨5, 0, he, by decide⟩)
      (by decide),
    (dump_stacks_first_thread 4096 Example.elf_four Example.notes_none Example.proc_stat_1234
      Example.di_first rfl).2.1 rfl⟩

end Minicoredumper.Corestripper

/-! ## The robust mutex list -/

namespace Minicoredumper.Corestripper

/-- The loop of get_robust_mutex_list on a chain of nodes that leads back to
its start: every node of the chain is dumped once, in order. -/
theorem get_robust_mutex_list_loop_chain {σ : Type} (rd : σ → Nat → Option Nat)
    (dump : σ → Nat → Nat → Option σ) (word : Nat → Option Nat) (l_start : Nat)
    (hrd : ∀ (s s1 : σ) (a n : Nat), (∀ x, rd s x = word x) → dump s a n = some s1 →
      ∀ x, rd s1 x = word x)
    (rest : List Nat) :
    ∀ (cur : Nat) (fuel : Nat) (s : σ), (∀ x, rd s x = word x) →
      List.Chain (fun a b => word a = some b) cur rest →
      word ((cur :: rest).getLast (List.cons_ne_nil cur rest)) = some l_start →
      (∀ x ∈ rest, x ≠ l_start) → rest.length < fuel →
      get_robust_mutex_list_loop rd dump l_start fuel cur s =
        (cur :: rest).foldlM (fun t a => dump t a sizeof_robust_list) s := by
  induction rest with
  | nil =>
    intro cur fuel s hs _ hlast _ hf
    obtain ⟨m, rfl⟩ : ∃ m, fuel = m + 1 := ⟨fuel - 1, by simp at hf; omega⟩
    simp only [List.getLast_singleton] at hlast
    simp only [get_robust_mutex_list_loop, List.foldlM_cons, List.foldlM_nil,
      Option.bind_eq_bind, offsetof_robust_list_next, Nat.add_zero]
    cases hd : dump s cur sizeof_robust_list with
    | none => rfl
    | some s1 =>
      simp only [Option.some_bind, hrd s s1 cur _ hs hd, hlast, ne_eq, not_true_eq_false,
        if_false]
      rfl
  | cons b rest ih =>
    intro cur fuel s hs hch hlast hne hf
    obtain ⟨m, rfl⟩ : ∃ m, fuel = m + 1 := ⟨fuel - 1, by simp at hf; omega⟩
    rw [List.chain_cons] at hch
    have hb : b ≠ l_start := hne b (by simp)
    rw [List.foldlM_cons]
    simp only [get_robust_mutex_list_loop, Option.bind_eq_bind, offsetof_robust_list_next,
      Nat.add_zero]
    cases hd : dump s cur sizeof_robust_list with
    | none => rfl
    | some s1 =>
      simp only [Option.some_bind, hrd s s1 cur _ hs hd, hch.1, ne_eq, hb, not_false_eq_true,
        if_true]
      exact ih b m s1 (hrd s s1 cur _ hs hd) hch.2
        (by rw [List.getLast_cons (List.cons_ne_nil b rest)] at hlast; exact hlast)
        (fun x hx => hne x (List.mem_cons_of_mem _ hx))
        (by simp only [List.length_cons] at hf; omega)

end Minicoredumper.Corestripper

namespace Minicoredumper.Corestripper

/-- The function dump_vma leaves the memory of the target alone. -/
theorem dump_vma_mem (PAGESZ : Nat) (di : dump_info) (start len balloon : Nat)
    (r : Int × dump_info) (h : dump_vma PAGESZ di start len balloon = some r) :
    r.2.mem = di.mem := by
  unfold dump_vma at h
  cases hv : get_vma_pos di start with
  | none =>
    rw [hv] at h
    cases h
    rfl
  | some tmp =>
    rw [hv] at h
    simp only at h
    split_ifs at h <;> first
      | (cases h; rfl)
      | (split at h
         · cases h
         · cases h; rfl)

/-- The walk of get_robust_mutex_list over a circular list
`head -> n1 -> ... -> nk -> head`: the head structure is dumped, then the nodes
in order, then the list member of the head, where the walk is back at its
start. -/
theorem get_robust_mutex_list_walk_circular {σ : Type} (rd : σ → Nat → Option Nat)
    (dump : σ → Nat → Nat → Option σ) (word : Nat → Option Nat)
    (hrd : ∀ (s s1 : σ) (a n : Nat), (∀ x, rd s x = word x) → dump s a n = some s1 →
      ∀ x, rd s1 x = word x)
    (head : Nat) (nodes : List Nat) (fuel : Nat) (s : σ) (hs : ∀ x, rd s x = word x)
    (hch : List.Chain (fun a b => word a = some b) head (nodes ++ [head]))
    (hnd : (head :: nodes).Nodup) (hf : nodes.length + 1 ≤ fuel) :
    get_robust_mutex_list_walk rd dump head fuel s =
      ((dump s head sizeof_robust_list_head).bind fun s1 =>
        (nodes ++ [head]).foldlM (fun t a => dump t a sizeof_robust_list) s1).map
        (fun s2 => (0, s2)) := by
  simp only [get_robust_mutex_list_walk, offsetof_robust_list_head_list, Nat.add_zero]
  cases hd : dump s head sizeof_robust_list_head with
  | none => rfl
  | some s1 =>
    have hs1 := hrd s s1 head _ hs hd
    simp only [hs1, Option.some_bind]
    cases nodes with
    | nil =>
      simp only [List.nil_append, List.chain_cons, List.Chain.nil, and_true] at hch
      simp only [hch]
      rw [get_robust_mutex_list_loop_chain rd dump word head hrd [] head fuel s1 hs1
        List.Chain.nil (by simpa using hch) (by simp) (by simpa using hf)]
      rfl
    | cons n1 ns =>
      simp only [List.cons_append, List.chain_cons] at hch
      simp only [hch.1, List.cons_append]
      have hlast : word ((n1 :: (ns ++ [head])).getLast (List.cons_ne_nil _ _)) = some n1 := by
        have e : (n1 :: (ns ++ [head])).getLast (List.cons_ne_nil _ _) = head := by
          have e2 : n1 :: (ns ++ [head]) = (n1 :: ns) ++ [head] := rfl
          simp only [e2, List.getLast_append_singleton]
        rw [e]
        exact hch.1
      rw [get_robust_mutex_list_loop_chain rd dump word n1 hrd (ns ++ [head]) n1 fuel s1 hs1
        hch.2 hlast
        (by
          intro x hx
          simp only [List.nodup_cons, List.mem_cons, not_or] at hnd
          rcases List.mem_append.mp hx with hx | hx
          · intro he
            rw [he] at hx
            exact hnd.2.1 hx
          · simp only [List.mem_singleton] at hx
            rw [hx]
            exact hnd.1.1)
        (by simp only [List.length_append, List.length_cons, List.length_nil] at hf ⊢; omega)]

/-- C25 (amended): get_robust_mutex_list walks from the node `head.list.next`
and ends when the next pointer of a visited node is that start.  For a
circular list `head -> n1 -> ... -> nk -> head` of distinct nodes it dumps the
head structure once, then each of the `k` nodes once, in order, and then the
list member of the head (as the node that leads back to the start): `k + 1`
requests of `sizeof(struct robust_list)` bytes.  The same holds for every way
to dump that leaves the pointers of the target alone. -/
theorem get_robust_mutex_list_circular (PAGESZ : Nat) (di : dump_info) (head : Nat)
    (nodes : List Nat) (fuel : Nat) (hne : head ≠ 0)
    (hch : List.Chain (fun a b => (read_remote di a 8).map le_decode = some b) head
      (nodes ++ [head]))
    (hnd : (head :: nodes).Nodup) (hf : nodes.length + 1 ≤ fuel) :
    get_robust_mutex_list PAGESZ (some (head, sizeof_robust_list_head)) fuel di =
      (((dump_vma PAGESZ di head sizeof_robust_list_head 0).map Prod.snd).bind fun d1 =>
        (nodes ++ [head]).foldlM
          (fun d a => (dump_vma PAGESZ d a sizeof_robust_list 0).map Prod.snd) d1).map
        (fun d2 => (0, d2)) ∧
    (nodes ++ [head]).length = nodes.length + 1 ∧
    (∀ (σ : Type) (rd : σ → Nat → Option Nat) (dump : σ → Nat → Nat → Option σ)
        (word : Nat → Option Nat) (s : σ),
      (∀ (s s1 : σ) (a n : Nat), (∀ x, rd s x = word x) → dump s a n = some s1 →
        ∀ x, rd s1 x = word x) →
      (∀ x, rd s x = word x) →
      List.Chain (fun a b => word a = some b) head (nodes ++ [head]) →
      get_robust_mutex_list_walk rd dump head fuel s =
        ((dump s head sizeof_robust_list_head).bind fun s1 =>
          (nodes ++ [head]).foldlM (fun t a => dump t a sizeof_robust_list) s1).map
          (fun s2 => (0, s2))) := by
  refine ⟨?_, by simp, ?_⟩
  · simp only [get_robust_mutex_list, ne_eq, not_true_eq_false, if_false, hne]
    exact get_robust_mutex_list_walk_circular
      (fun d a => (read_remote d a 8).map le_decode)
      (fun d a n => (dump_vma PAGESZ d a n 0).map Prod.snd)
      (fun a => (read_remote di a 8).map le_decode)
      (by
        intro s s1 a n hs hd x
        simp only [Option.map_eq_some'] at hd
        obtain ⟨r, hr, hr2⟩ := hd
        have hm := dump_vma_mem PAGESZ s a n 0 r hr
        rw [← hs x, ← hr2]
        simp only [read_remote, hm])
      head nodes fuel di (fun _ => rfl) hch hnd hf
  · intro σ rd dump word s hrd hs hch2
    exact get_robust_mutex_list_walk_circular rd dump word hrd head nodes fuel s hs hch2 hnd hf

/-- C25 (as stated, refuted): a robust list with one node, `head -> n1 -> head`
with the head at 0x1000 and the node at 0x2000.  The next pointer of the node
is the head, yet the walk does not end at the node: it goes on to dump 8 bytes
at the head and ends there, where the next pointer is the start 0x2000.  The
node dumps are two requests of 16 bytes in all, more than
`k * sizeof(struct robust_list) = 8`. -/
theorem get_robust_mutex_list_one_node :
    Example.robust_one 0x2000 = some 0x1000 ∧
    get_robust_mutex_list_walk (fun _ a => Example.robust_one a) Example.record_dump 0x1000 8
        [] =
      some (0, [(0x1000, sizeof_robust_list_head), (0x2000, sizeof_robust_list),
        (0x1000, sizeof_robust_list)]) ∧
    1 * sizeof_robust_list < sizeof_robust_list + sizeof_robust_list := by
  decide

/-- Witness of C25 (amended) on the list with one node, with a dump that records
its requests: the head structure, the node, and the list member of the head. -/
theorem get_robust_mutex_list_circular_witness :
    get_robust_mutex_list_walk (fun _ a => Example.robust_one a) Example.record_dump 0x1000 8
        [] =
      ((Example.record_dump [] 0x1000 sizeof_robust_list_head).bind fun s1 =>
        ([0x2000] ++ [0x1000]).foldlM (fun t a => Example.record_dump t a sizeof_robust_list)
          s1).map (fun s2 => (0, s2)) :=
  (get_robust_mutex_list_circular 4096 Example.di_robust_one 0x1000 [0x2000] 8 (by decide)
    (List.Chain.cons (by decide) (List.Chain.cons (by decide) List.Chain.nil)) (by decide)
    (by decide)).2.2 (List (Nat × Nat)) (fun _ a => Example.robust_one a)
    Example.record_dump Example.robust_one [] (fun _ _ _ _ _ _ _ => rfl) (fun _ => rfl)
    (List.Chain.cons (by decide) (List.Chain.cons (by decide) List.Chain.nil))

end Minicoredumper.Corestripper

/-! ## The registered symbol objects -/

namespace Minicoredumper.Corestripper

/-- The function dump_vma changes nothing but the core file and the position
in it: every view of the dump context that does not look at these is kept. -/
theorem dump_vma_view {α : Type} (f : dump_info → α)
    (hf : ∀ (d : dump_info) (c : List Nat) (p : Nat),
      f { d with core := c, core_pos := p } = f d)
    (PAGESZ : Nat) (di : dump_info) (start len balloon : Nat)
    (r : Int × dump_info) (h : dump_vma PAGESZ di start len balloon = some r) :
    f r.2 = f di := by
  unfold dump_vma at h
  cases hv : get_vma_pos di start with
  | none =>
    rw [hv] at h
    cases h
    rfl
  | some tmp =>
    rw [hv] at h
    simp only at h
    split_ifs at h <;> first
      | (cases h; rfl)
      | (split at h
         · cases h
         · cases h; exact hf _ _ _)

/-- The dumps of the auxiliary-vector walk leave the memory of the target, the
symbol objects and the configuration alone. -/
theorem dump_auxv_keeps (PAGESZ : Nat) (di d : dump_info) (addr len : Nat)
    (h : dump_auxv PAGESZ di addr len = some d) :
    d.mem = di.mem ∧ d.sym_data_list = di.sym_data_list ∧ d.cfg = di.cfg := by
  unfold dump_auxv at h
  split at h
  · simp only [Option.map_eq_some'] at h
    obtain ⟨r, hr, hd⟩ := h
    subst hd
    exact ⟨dump_vma_view (fun d => d.mem) (fun _ _ _ => rfl) _ _ _ _ _ r hr,
      dump_vma_view (fun d => d.sym_data_list) (fun _ _ _ => rfl) _ _ _ _ _ r hr,
      dump_vma_view (fun d => d.cfg) (fun _ _ _ => rfl) _ _ _ _ _ r hr⟩
  · cases h
    exact ⟨rfl, rfl, rfl⟩

/-- What store_sym_data does to the symbol objects. -/
theorem store_sym_data_spec (elf_symtab : symtab_view) (di : dump_info) (name : List Nat)
    (base : Nat) (hn : name ≠ []) :
    (store_sym_data elf_symtab di (bytes_text name) base).2.sym_data_list =
        register_entry elf_symtab di.sym_data_list (base, some name) ∧
      (store_sym_data elf_symtab di (bytes_text name) base).2.mem = di.mem ∧
      (store_sym_data elf_symtab di (bytes_text name) base).2.cfg = di.cfg := by
  simp only [store_sym_data, register_entry, hn, if_false]
  split
  · exact ⟨rfl, rfl, rfl⟩
  · cases elf_symtab (bytes_text name) with
    | none => exact ⟨rfl, rfl, rfl⟩
    | some syms => exact ⟨rfl, rfl, rfl⟩

/-- The loop of get_so_list over the `link_map` chain, when it returns, has
registered the entries of the chain in order. -/
theorem get_so_list_loop_syms (PAGESZ : Nat) (elf_symtab : symtab_view) (fuel : Nat) :
    ∀ (ptr : Nat) (di d : dump_info) (es : List (Nat × Option (List Nat))),
      link_map_chain di.mem fuel ptr = some es →
      get_so_list_loop PAGESZ elf_symtab fuel ptr di = some d →
      d.sym_data_list = es.foldl (register_entry elf_symtab) di.sym_data_list ∧
        d.mem = di.mem ∧ d.cfg = di.cfg := by
  induction fuel with
  | zero =>
    intro ptr di d es hc h
    simp only [link_map_chain, get_so_list_loop] at hc h
    by_cases hp : ptr = 0
    · simp only [hp, if_true, Option.some.injEq] at hc h
      subst hc
      subst h
      exact ⟨rfl, rfl, rfl⟩
    · simp [hp] at h
  | succ fuel ih =>
    intro ptr di d es hc h
    simp only [link_map_chain, get_so_list_loop] at hc h
    by_cases hp : ptr = 0
    · simp only [hp, if_true, Option.some.injEq] at hc h
      subst hc
      subst h
      exact ⟨rfl, rfl, rfl⟩
    · simp only [hp, if_false, Nat.add_zero] at hc h
      cases hnb : pread_mem di.mem (ptr + 8) 8 with
      | none => simp [hnb] at hc
      | some nb =>
        cases hab : pread_mem di.mem ptr 8 with
        | none => simp [hnb, hab] at hc
        | some ab =>
          cases hxb : pread_mem di.mem (ptr + 24) 8 with
          | none => simp [hnb, hab, hxb] at hc
          | some xb =>
            simp only [hnb, hab, hxb, Option.map_eq_some'] at hc
            obtain ⟨es1, hes1, hes⟩ := hc
            subst hes
            cases hd1 : dump_auxv PAGESZ di ptr sizeof_link_map with
            | none => simp [hd1] at h
            | some di1 =>
              obtain ⟨k1m, k1s, k1c⟩ := dump_auxv_keeps PAGESZ di di1 _ _ hd1
              simp only [hd1, read_remote, k1m, hnb] at h
              rw [alloc_remote_string_eq_scan] at h
              simp only [k1m] at h
              simp only [List.foldl_cons]
              by_cases ha0 : le_decode nb = 0
              · simp only [ha0, if_true, EINVAL, read_remote, hxb, k1m] at h
                have hreg : register_entry elf_symtab di.sym_data_list
                    (le_decode ab, link_name di.mem (le_decode nb)) = di.sym_data_list := by
                  simp [register_entry, link_name, ha0]
                rw [hreg]
                obtain ⟨r1, r2, r3⟩ := ih _ di1 d es1 (by rw [k1m]; exact hes1) h
                exact ⟨by rw [r1, k1s], by rw [r2, k1m], by rw [r3, k1c]⟩
              · simp only [ha0, if_false] at h
                cases hsc : alloc_remote_string_scan di.mem 4095 (le_decode nb) with
                | none =>
                  simp only [hsc, read_remote, hxb, k1m] at h
                  have hreg : register_entry elf_symtab di.sym_data_list
                      (le_decode ab, link_name di.mem (le_decode nb)) = di.sym_data_list := by
                    simp [register_entry, link_name, ha0, hsc]
                  rw [hreg]
                  obtain ⟨r1, r2, r3⟩ := ih _ di1 d es1 (by rw [k1m]; exact hes1) h
                  exact ⟨by rw [r1, k1s], by rw [r2, k1m], by rw [r3, k1c]⟩
                | some name =>
                  simp only [hsc] at h
                  cases hd2 : dump_auxv PAGESZ di1 (le_decode nb) name.length with
                  | none => simp [hd2] at h
                  | some di2 =>
                    obtain ⟨k2m, k2s, k2c⟩ := dump_auxv_keeps PAGESZ di1 di2 _ _ hd2
                    simp only [hd2] at h
                    by_cases hn : name = []
                    · simp only [hn, ne_eq, not_true_eq_false, if_false, read_remote, k2m, k1m,
                        hxb] at h
                      have hreg : register_entry elf_symtab di.sym_data_list
                          (le_decode ab, link_name di.mem (le_decode nb)) =
                          di.sym_data_list := by
                        simp [register_entry, link_name, ha0, hsc, hn]
                      rw [hreg]
                      obtain ⟨r1, r2, r3⟩ := ih _ di2 d es1
                        (by rw [k2m, k1m]; exact hes1) h
                      exact ⟨by rw [r1, k2s, k1s], by rw [r2, k2m, k1m],
                        by rw [r3, k2c, k1c]⟩
                    · obtain ⟨s1, s2, s3⟩ := store_sym_data_spec elf_symtab di2 name
                        (le_decode ab) hn
                      simp only [hn, ne_eq, not_false_eq_true, if_true, read_remote, k2m, k1m,
                        hab, s2, hxb] at h
                      have hreg : register_entry elf_symtab di.sym_data_list
                          (le_decode ab, link_name di.mem (le_decode nb)) =
                          register_entry elf_symtab di2.sym_data_list
                            (le_decode ab, some name) := by
                        simp only [link_name, ha0, if_false, hsc, k2s, k1s]
                      rw [hreg, ← s1]
                      obtain ⟨r1, r2, r3⟩ := ih _ _ d es1
                        (by rw [s2, k2m, k1m]; exact hes1) h
                      exact ⟨r1, by rw [r2, s2, k2m, k1m], by rw [r3, s3, k2c, k1c]⟩

/-- The loop of init_from_auxv over the program headers leaves the memory of
the target, the symbol objects and the configuration alone. -/
theorem init_from_auxv_phdrs_keeps (PAGESZ phdr_addr : Nat) :
    ∀ (n i found relocation dyn_addr : Nat) (di : dump_info)
      (r : Nat × Nat × Nat × dump_info),
      init_from_auxv_phdrs PAGESZ phdr_addr n i found relocation dyn_addr di = some r →
      r.2.2.2.mem = di.mem ∧ r.2.2.2.sym_data_list = di.sym_data_list ∧
        r.2.2.2.cfg = di.cfg := by
  intro n
  induction n with
  | zero =>
    intro i found relocation dyn_addr di r h
    simp only [init_from_auxv_phdrs, Option.some.injEq] at h
    subst h
    exact ⟨rfl, rfl, rfl⟩
  | succ n ih =>
    intro i found relocation dyn_addr di r h
    simp only [init_from_auxv_phdrs, Nat.add_zero] at h
    cases hb : read_remote di (phdr_addr + sizeof_Phdr * i) 4 with
    | none => simp [hb] at h
    | some b =>
      cases hd1 : dump_auxv PAGESZ di (phdr_addr + sizeof_Phdr * i) 4 with
      | none => simp [hb, hd1] at h
      | some di1 =>
        obtain ⟨k1m, k1s, k1c⟩ := dump_auxv_keeps PAGESZ di di1 _ _ hd1
        simp only [hb, hd1] at h
        split_ifs at h
        · cases hrb : read_remote di1 (phdr_addr + sizeof_Phdr * i + 16) 8 with
          | none => simp [hrb] at h
          | some rb =>
            cases hd2 : dump_auxv PAGESZ di1 (phdr_addr + sizeof_Phdr * i + 16) 8 with
            | none => simp [hrb, hd2] at h
            | some di2 =>
              obtain ⟨k2m, k2s, k2c⟩ := dump_auxv_keeps PAGESZ di1 di2 _ _ hd2
              simp only [hrb, hd2] at h
              obtain ⟨r1, r2, r3⟩ := ih _ _ _ _ _ _ h
              exact ⟨by rw [r1, k2m, k1m], by rw [r2, k2s, k1s], by rw [r3, k2c, k1c]⟩
        · cases hrb : read_remote di1 (phdr_addr + sizeof_Phdr * i + 16) 8 with
          | none => simp [hrb] at h
          | some rb =>
            cases hd2 : dump_auxv PAGESZ di1 (phdr_addr + sizeof_Phdr * i + 16) 8 with
            | none => simp [hrb, hd2] at h
            | some di2 =>
              obtain ⟨k2m, k2s, k2c⟩ := dump_auxv_keeps PAGESZ di1 di2 _ _ hd2
              simp only [hrb, hd2, Option.some.injEq] at h
              subst h
              exact ⟨by rw [k2m, k1m], by rw [k2s, k1s], by rw [k2c, k1c]⟩
        · obtain ⟨r1, r2, r3⟩ := ih _ _ _ _ _ _ h
          exact ⟨by rw [r1, k1m], by rw [r2, k1s], by rw [r3, k1c]⟩

/-- The loop of init_from_auxv over the dynamic section leaves the memory of
the target, the symbol objects and the configuration alone. -/
theorem init_from_auxv_dyn_keeps (PAGESZ dyn_addr : Nat) :
    ∀ (fuel i : Nat) (di : dump_info) (r : Int × Nat × dump_info),
      init_from_auxv_dyn PAGESZ dyn_addr fuel i di = some r →
      r.2.2.mem = di.mem ∧ r.2.2.sym_data_list = di.sym_data_list ∧ r.2.2.cfg = di.cfg := by
  intro fuel
  induction fuel with
  | zero =>
    intro i di r h
    simp [init_from_auxv_dyn] at h
  | succ fuel ih =>
    intro i di r h
    simp only [init_from_auxv_dyn, Nat.add_zero] at h
    cases hb : read_remote di (dyn_addr + sizeof_Dyn * i) 4 with
    | none => simp [hb] at h
    | some b =>
      cases hd1 : dump_auxv PAGESZ di (dyn_addr + sizeof_Dyn * i) 4 with
      | none => simp [hb, hd1] at h
      | some di1 =>
        obtain ⟨k1m, k1s, k1c⟩ := dump_auxv_keeps PAGESZ di di1 _ _ hd1
        simp only [hb, hd1] at h
        split_ifs at h
        · simp only [Option.some.injEq] at h
          subst h
          exact ⟨k1m, k1s, k1c⟩
        · cases hpb : read_remote di1 (dyn_addr + sizeof_Dyn * i + 8) 8 with
          | none => simp [hpb] at h
          | some pb =>
            cases hd2 : dump_auxv PAGESZ di1 (dyn_addr + sizeof_Dyn * i + 8) 8 with
            | none => simp [hpb, hd2] at h
            | some di2 =>
              obtain ⟨k2m, k2s, k2c⟩ := dump_auxv_keeps PAGESZ di1 di2 _ _ hd2
              simp only [hpb, hd2, Option.some.injEq] at h
              subst h
              exact ⟨by rw [k2m, k1m], by rw [k2s, k1s], by rw [k2c, k1c]⟩
        · obtain ⟨r1, r2, r3⟩ := ih _ _ _ h
          exact ⟨by rw [r1, k1m], by rw [r2, k1s], by rw [r3, k1c]⟩

/-- The function init_from_auxv leaves the memory of the target, the symbol
objects and the configuration alone. -/
theorem init_from_auxv_keeps (PAGESZ : Nat) (auxv : List (Nat × Nat)) (fuel : Nat)
    (di : dump_info) (r : Int × Nat × dump_info)
    (h : init_from_auxv PAGESZ auxv fuel di = some r) :
    r.2.2.mem = di.mem ∧ r.2.2.sym_data_list = di.sym_data_list ∧ r.2.2.cfg = di.cfg := by
  simp only [init_from_auxv] at h
  split_ifs at h with h0
  · simp only [Option.some.injEq] at h
    subst h
    exact ⟨rfl, rfl, rfl⟩
  · cases hp : init_from_auxv_phdrs PAGESZ (get_atval auxv AT_PHDR) (get_atval auxv AT_PHNUM)
        0 0 0 0 di with
    | none => simp [hp] at h
    | some q =>
      obtain ⟨found, relocation, dyn_addr, di1⟩ := q
      obtain ⟨k1m, k1s, k1c⟩ := init_from_auxv_phdrs_keeps _ _ _ _ _ _ _ _ _ hp
      simp only [hp] at h
      split_ifs at h
      · simp only [Option.some.injEq] at h
        subst h
        exact ⟨k1m, k1s, k1c⟩
      · simp only [Option.some.injEq] at h
        subst h
        exact ⟨k1m, k1s, k1c⟩
      · obtain ⟨r1, r2, r3⟩ := init_from_auxv_dyn_keeps _ _ _ _ _ _ h
        exact ⟨by rw [r1, k1m], by rw [r2, k1s], by rw [r3, k1c]⟩

/-- An object stays in the list when further `link_map` entries are
registered. -/
theorem register_entries_keep (elf_symtab : symtab_view) :
    ∀ (es : List (Nat × Option (List Nat))) (l : List sym_data) (s : sym_data),
      s ∈ l → s ∈ es.foldl (register_entry elf_symtab) l := by
  intro es
  induction es with
  | nil => intro l s hs; exact hs
  | cons e es ih =>
    intro l s hs
    simp only [List.foldl_cons]
    apply ih
    unfold register_entry
    split
    · exact hs
    · split_ifs
      · exact hs
      · exact hs
      · split
        · exact hs
        · exact List.mem_cons_of_mem _ hs

/-- After the entries of a chain are registered, the list holds an object with
the load base of every entry with a name that is not empty whose file has a
symbol table. -/
theorem register_entries_has (elf_symtab : symtab_view) :
    ∀ (es : List (Nat × Option (List Nat))) (l : List sym_data) (base : Nat)
      (name : List Nat), (base, some name) ∈ es → name ≠ [] →
      elf_symtab (bytes_text name) ≠ none →
      ∃ s ∈ es.foldl (register_entry elf_symtab) l, s.start = base := by
  intro es
  induction es with
  | nil => intro l base name hm; cases hm
  | cons e es ih =>
    intro l base name hm hn hs
    simp only [List.foldl_cons]
    rcases List.mem_cons.mp hm with he | hm1
    · subst he
      have hr : ∃ s ∈ register_entry elf_symtab l (base, some name), s.start = base := by
        simp only [register_entry, hn, if_false]
        by_cases ha : l.any (fun cur => decide (base = cur.start)) = true
        · rw [if_pos ha]
          obtain ⟨s, hsl, hsb⟩ := List.any_eq_true.mp ha
          exact ⟨s, hsl, (of_decide_eq_true hsb).symm⟩
        · rw [if_neg ha]
          cases hst : elf_symtab (bytes_text name) with
          | none => exact absurd hst hs
          | some syms => exact ⟨_, List.mem_cons_self _ _, rfl⟩
      obtain ⟨s, hsl, hsb⟩ := hr
      exact ⟨s, register_entries_keep elf_symtab es _ s hsl, hsb⟩
    · exact ih _ base name hm1 hn hs

/-- Every object in the list after the entries of a chain are registered was
in the list before or is the symbol table of the file of an entry with a name
that is not empty, at the load base of that entry. -/
theorem register_entries_from (elf_symtab : symtab_view) :
    ∀ (es : List (Nat × Option (List Nat))) (l : List sym_data) (s : sym_data),
      s ∈ es.foldl (register_entry elf_symtab) l →
      s ∈ l ∨ ∃ name, (s.start, some name) ∈ es ∧ name ≠ [] ∧
        elf_symtab (bytes_text name) = some s.syms := by
  intro es
  induction es with
  | nil => intro l s hs; exact Or.inl hs
  | cons e es ih =>
    intro l s hs
    simp only [List.foldl_cons] at hs
    rcases ih _ s hs with h1 | ⟨name, hm, hn, hst⟩
    · obtain ⟨base, nm⟩ := e
      cases nm with
      | none => exact Or.inl h1
      | some name =>
        simp only [register_entry] at h1
        split_ifs at h1 with hn ha
        · exact Or.inl h1
        · exact Or.inl h1
        · cases hst : elf_symtab (bytes_text name) with
          | none =>
            rw [hst] at h1
            exact Or.inl h1
          | some syms =>
            rw [hst] at h1
            rcases List.mem_cons.mp h1 with he | hl
            · subst he
              exact Or.inr ⟨name, List.mem_cons_self _ _, hn, hst⟩
            · exact Or.inl hl
    · exact Or.inr ⟨name, List.mem_cons_of_mem _ hm, hn, hst⟩

/-- C27 (amended): after get_so_list succeeds, the symbol objects are those that
were registered before and, in front of them, what store_sym_data registers for
the entries of the `link_map` chain in order.  So the list holds an object with
the load base `l_addr` of every entry with a non-empty name whose file has a
symbol table, and every object that is new comes from such an entry: an entry
with an empty name, as the executable has it, registers nothing. -/
theorem get_so_list_registers (PAGESZ : Nat) (elf_symtab : symtab_view)
    (entries : List (Nat × Nat)) (fuel : Nat) (di d : dump_info)
    (es : List (Nat × Option (List Nat)))
    (h : get_so_list PAGESZ elf_symtab (some entries) fuel di = some (0, d))
    (hc : link_maps PAGESZ entries fuel di = some es) :
    d.sym_data_list = es.foldl (register_entry elf_symtab) di.sym_data_list ∧
      (∀ (base : Nat) (name : List Nat), (base, some name) ∈ es → name ≠ [] →
        elf_symtab (bytes_text name) ≠ none → ∃ s ∈ d.sym_data_list, s.start = base) ∧
      (∀ s ∈ d.sym_data_list, s ∈ di.sym_data_list ∨
        ∃ name, (s.start, some name) ∈ es ∧ name ≠ [] ∧
          elf_symtab (bytes_text name) = some s.syms) := by
  have key : d.sym_data_list = es.foldl (register_entry elf_symtab) di.sym_data_list := by
    simp only [get_so_list, link_maps] at h hc
    cases hi : init_from_auxv PAGESZ entries fuel di with
    | none => simp [hi] at h
    | some q =>
      obtain ⟨r, ptr, di1⟩ := q
      obtain ⟨k1m, k1s, k1c⟩ := init_from_auxv_keeps _ _ _ _ _ hi
      simp only at k1m k1s k1c
      simp only [hi] at h hc
      by_cases hr : r = 0
      · subst hr
        simp only [ne_eq, not_true_eq_false, if_false] at h
        by_cases hp : ptr = 0
        · simp only [hp, if_true, Option.some.injEq, Prod.mk.injEq, true_and] at h hc
          subst h
          subst hc
          exact k1s
        · simp only [hp, if_false] at h hc
          cases hd2 : dump_auxv PAGESZ di1 ptr sizeof_r_debug with
          | none => simp [hd2] at h
          | some di2 =>
            obtain ⟨k2m, k2s, k2c⟩ := dump_auxv_keeps PAGESZ di1 di2 _ _ hd2
            simp only [hd2, read_remote, k2m, k1m] at h
            cases hmb : pread_mem di.mem (ptr + 8) 8 with
            | none => simp [hmb] at hc
            | some mb =>
              simp only [hmb, Option.map_eq_some', Prod.mk.injEq, true_and, exists_eq_right]
                at h hc
              obtain ⟨r1, -, -⟩ := get_so_list_loop_syms PAGESZ elf_symtab fuel _ di2 d es
                (by rw [k2m, k1m]; exact hc) h
              rw [r1, k2s, k1s]
      · simp [hr] at h
  refine ⟨key, ?_, ?_⟩
  · intro base name hm hn hs
    rw [key]
    exact register_entries_has elf_symtab es _ base name hm hn hs
  · intro s hs
    rw [key] at hs
    exact register_entries_from elf_symtab es _ s hs

/-- Witness of C27 (amended) on the example target: the chain has the entry of
the executable and the entry of `libx.so`, and the one object in the list is
that of `libx.so`. -/
theorem get_so_list_registers_witness :
    ({ Example.di_app with
        sym_data_list := [sym_data.mk 0x7f0000000000
          [some ("mcd_dump_data_version".toList, 0x4000)]] } : dump_info).sym_data_list =
      [(0, some []), (0x7f0000000000, some [108, 105, 98, 120, 46, 115, 111])].foldl
        (register_entry Example.symtab_app) Example.di_app.sym_data_list :=
  (get_so_list_registers 4096 Example.symtab_app Example.auxv_app 8 Example.di_app
    { Example.di_app with
        sym_data_list := [sym_data.mk 0x7f0000000000
          [some ("mcd_dump_data_version".toList, 0x4000)]] }
    [(0, some []), (0x7f0000000000, some [108, 105, 98, 120, 46, 115, 111])] rfl rfl).1

/-- C27 (counterexample): on the example target get_so_list succeeds and the
`link_map` chain has the entry of the executable (load base 0, empty name) and
the entry of `libx.so`; the list then holds the object of `libx.so` only, so
the symbol `app_state`, which the file of the executable defines, is not
resolved; and when the file of `libx.so` has no symbol table the list is
empty. -/
theorem get_so_list_skips_executable :
    (get_so_list 4096 Example.symtab_app (some Example.auxv_app) 8 Example.di_app).map
        (fun r => (r.1, r.2.sym_data_list)) =
      some (0, [sym_data.mk 0x7f0000000000
        [some ("mcd_dump_data_version".toList, 0x4000)]]) ∧
    link_maps 4096 Example.auxv_app 8 Example.di_app =
      some [(0, some []), (0x7f0000000000, some [108, 105, 98, 120, 46, 115, 111])] ∧
    Example.symtab_app "/bin/app".toList = some [some ("app_state".toList, 0x601000)] ∧
    (get_so_list 4096 Example.symtab_app (some Example.auxv_app) 8 Example.di_app).map
        (fun r => sym_address r.2 "app_state".toList) = some none ∧
    (get_so_list 4096 (fun _ => none) (some Example.auxv_app) 8 Example.di_app).map
        (fun r => (r.1, r.2.sym_data_list)) = some (0, []) :=
  ⟨rfl, rfl, rfl, rfl, rfl⟩

end Minicoredumper.Corestripper
